import Mathlib

/-!
# CBrainFuck: the bracket resolver and the execution engine

A shallow embedding of `src/brainfuck.c` / `src/brainfuck.h`.

Conventions of the embedding.

* A `char` buffer is a `List Char` holding the bytes of the buffer; every read
  past the end of the list yields the terminator `'\0'` (the C buffers are
  zero filled), and every loop of the source that stops at `'\0'` stops at a
  `'\0'` inside the list as well.
* An `int`-indexed array (`memory`, `brackets`, `bracket_stack`) is a function
  from the index to the stored value.  Cells of `memory` are `unsigned char`:
  arithmetic on a cell is done on `int` and converted back on the store.
* `int` variables are `Int` (loop counters that only count up from 0 are `Nat`).
* `putchar` / `getchar` act on an explicit pair of byte streams.
* `exit(1)` is an outcome of its own, carrying the state at the time of the call.
* A loop that may run forever takes a step budget (`fuel`); `none` means that the
  budget was exhausted.
-/

namespace CBrainFuck

/-! ## Constants (brainfuck.h:4-6) -/

def MEMORY_SIZE : Int := 30000
def MAX_CODE_LENGTH : Nat := 1000000
def MAX_LINE_LENGTH : Nat := 1024

/-! ## Data model (brainfuck.h:8-16) -/

/-- The interpreter record `BrainFuck` of brainfuck.h. -/
structure BrainFuck where
  memory : Int → Nat
  pointer : Int
  code : List Char
  code_pointer : Int
  brackets : Int → Int
  bracket_stack : Int → Int
  bracket_count : Int

/-- Standard input (bytes still to be read) and standard output (bytes written so far,
oldest first). -/
structure Streams where
  stdin : List Nat
  stdout : List Nat

/-- The two messages with which `find_brackets` leaves the process (brainfuck.c:38, 49). -/
inductive BracketError where
  | unmatched_close (pos : Nat)
  | unmatched_open (pos : Nat)
  deriving DecidableEq

/-- Array store `a[i] = v`. -/
def store {β : Type} (a : Int → β) (i : Int) (v : β) : Int → β :=
  fun j => if j = i then v else a j

/-- The bytes of a C string: everything before the first `'\0'`. -/
def cstr (s : List Char) : List Char := s.takeWhile (fun c => c != '\x00')

/-- C `strlen`. -/
def strlen (s : List Char) : Nat := (cstr s).length

/-- Buffer read `buf[i]`; the buffer is zero filled past its contents. -/
def char_at (buf : List Char) (i : Int) : Char := buf.getD i.toNat '\x00'

/-- The function `putchar(b)`. -/
def putchar (w : Streams) (b : Nat) : Streams := { w with stdout := w.stdout ++ [b] }

/-- The function `getchar()`: the next byte, or `EOF` (-1) at the end of the input. -/
def getchar (w : Streams) : Int × Streams :=
  match w.stdin with
  | [] => (-1, w)
  | b :: rest => ((b : Int), { w with stdin := rest })

/-- Conversion of an `int` to `unsigned char`. -/
def to_uchar (v : Int) : Nat := (v % 256).toNat

/-- brainfuck.c:10-19. -/
def brainfuck_init : BrainFuck where
  memory := fun _ => 0
  pointer := 0
  code := []
  code_pointer := 0
  brackets := fun _ => -1
  bracket_stack := fun _ => 0
  bracket_count := 0

/-! ## Bracket resolver (brainfuck.c:21-55) -/

/-- The `for` loop of `find_brackets` (brainfuck.c:33-46), started at index `i` with the
characters from `i` on still to be read.  The scratch `stack` is kept as a list whose head
is `stack[stack_top - 1]`.  The result is the `brackets` array as the loop leaves it,
together with either the error raised at line 38 or the final stack. -/
def find_loop : List Char → Nat → List Nat → (Int → Int) →
    (Int → Int) × Except BracketError (List Nat)
  | [], _, stack, br => (br, .ok stack)
  | c :: rest, i, stack, br =>
    if c = '\x00' then (br, .ok stack)
    else if c = '[' then find_loop rest (i + 1) (i :: stack) br
    else if c = ']' then
      match stack with
      | [] => (br, .error (.unmatched_close i))
      | start :: stack' =>
        find_loop rest (i + 1) stack' (store (store br start i) i start)
    else find_loop rest (i + 1) stack br

/-- The function `find_brackets` (brainfuck.c:21-55): the record as the function leaves it,
and the error with which it called `exit(1)`, if it did. -/
def find_brackets (bf : BrainFuck) : BrainFuck × Option BracketError :=
  match find_loop bf.code 0 [] (fun _ => -1) with
  | (br, .error e) => ({ bf with brackets := br }, some e)
  | (br, .ok []) => ({ bf with brackets := br }, none)
  | (br, .ok (top :: _)) => ({ bf with brackets := br }, some (.unmatched_open top))

/-! ## Execution engine (brainfuck.c:77-138) -/

/-- The `switch (command)` of the interpreter loop, brainfuck.c:89-134 (and, verbatim,
brainfuck.c:183-228). -/
def exec_command (command : Char) (bf : BrainFuck) (w : Streams) : BrainFuck × Streams :=
  if command = '>' then
    (if bf.pointer < MEMORY_SIZE - 1 then { bf with pointer := bf.pointer + 1 }
     else { bf with pointer := 0 }, w)
  else if command = '<' then
    (if bf.pointer > 0 then { bf with pointer := bf.pointer - 1 }
     else { bf with pointer := MEMORY_SIZE - 1 }, w)
  else if command = '+' then
    ({ bf with memory := store bf.memory bf.pointer (to_uchar ((bf.memory bf.pointer : Int) + 1)) },
      w)
  else if command = '-' then
    ({ bf with memory := store bf.memory bf.pointer (to_uchar ((bf.memory bf.pointer : Int) - 1)) },
      w)
  else if command = '.' then
    (bf, putchar w (bf.memory bf.pointer))
  else if command = ',' then
    let r := getchar w
    ({ bf with memory := store bf.memory bf.pointer (to_uchar r.1) }, r.2)
  else if command = '[' then
    (if bf.memory bf.pointer = 0 then { bf with code_pointer := bf.brackets bf.code_pointer }
     else bf, w)
  else if command = ']' then
    (if bf.memory bf.pointer ≠ 0 then { bf with code_pointer := bf.brackets bf.code_pointer }
     else bf, w)
  else (bf, w)

/-- One iteration of the interpreter loop, brainfuck.c:87-136 (and 181-230): fetch the
command, dispatch it, advance the instruction pointer. -/
def exec_step (bf : BrainFuck) (w : Streams) : BrainFuck × Streams :=
  let r := exec_command (char_at bf.code bf.code_pointer) bf w
  ({ r.1 with code_pointer := r.1.code_pointer + 1 }, r.2)

/-- The interpreter loop `while (bf->code[bf->code_pointer] != '\0')`, brainfuck.c:86-137
(and 180-231), with a budget of `fuel` iterations. -/
def exec_loop : Nat → BrainFuck → Streams → Option (BrainFuck × Streams)
  | fuel, bf, w =>
    if char_at bf.code bf.code_pointer = '\x00' then some (bf, w)
    else
      match fuel with
      | 0 => none
      | fuel' + 1 => exec_loop fuel' (exec_step bf w).1 (exec_step bf w).2

/-- How a call of `brainfuck_run` ends. -/
inductive RunOutcome where
  | finished (bf : BrainFuck) (w : Streams)
  | exited (e : BracketError) (bf : BrainFuck) (w : Streams)

/-- The copy `strncpy(bf->code, code, MAX_CODE_LENGTH - 1); bf->code[MAX_CODE_LENGTH - 1] = 0`
followed by `bf->code_pointer = 0` (brainfuck.c:80-82). -/
def load_code (bf : BrainFuck) (code : List Char) : BrainFuck :=
  { bf with code := (cstr code).take (MAX_CODE_LENGTH - 1), code_pointer := 0 }

/-- The function `brainfuck_run` (brainfuck.c:77-138). -/
def brainfuck_run (fuel : Nat) (bf : BrainFuck) (w : Streams) (code : List Char) :
    Option RunOutcome :=
  match find_brackets (load_code bf code) with
  | (bf1, some e) => some (.exited e bf1 w)
  | (bf1, none) =>
    match exec_loop fuel bf1 w with
    | none => none
    | some (bf2, w2) => some (.finished bf2 w2)

/-- The interpreter record at the end of a call of `brainfuck_run`. -/
def RunOutcome.state : RunOutcome → BrainFuck
  | .finished bf _ => bf
  | .exited _ bf _ => bf

/-! ## Incremental evaluation (brainfuck.c:140-238) -/

/-- C `isspace` in the "C" locale. -/
def isspace (c : Char) : Bool :=
  c = ' ' ∨ c = '\t' ∨ c = '\n' ∨ c = '\x0b' ∨ c = '\x0c' ∨ c = '\r'

/-- The scan of the fragment, brainfuck.c:154-165, over the characters still to be read.
The flag tells whether the scan left through `return -1` (line 161). -/
def scan_line : List Char → BrainFuck → BrainFuck × Bool
  | [], bf => (bf, false)
  | c :: rest, bf =>
    if c = '[' then
      scan_line rest { bf with
        bracket_stack := store bf.bracket_stack bf.bracket_count (strlen bf.code : Int),
        bracket_count := bf.bracket_count + 1 }
    else if c = ']' then
      if bf.bracket_count = 0 then (bf, true)
      else scan_line rest { bf with bracket_count := bf.bracket_count - 1 }
    else scan_line rest bf

/-- How a call of `brainfuck_eval_line` ends: with a return value, or inside
`find_brackets` through `exit(1)`. -/
inductive EvalOutcome where
  | returned (ret : Int) (bf : BrainFuck) (w : Streams)
  | exited (e : BracketError) (bf : BrainFuck) (w : Streams)

/-- The interpreter record at the end of a call of `brainfuck_eval_line`. -/
def EvalOutcome.state : EvalOutcome → BrainFuck
  | .returned _ bf _ => bf
  | .exited _ bf _ => bf

/-- The function `brainfuck_eval_line` (brainfuck.c:140-238). -/
def brainfuck_eval_line (fuel : Nat) (bf : BrainFuck) (w : Streams) (line : List Char) :
    Option EvalOutcome :=
  if (cstr line).all isspace then some (.returned 0 bf w)
  else
    match scan_line (cstr line) bf with
    | (bf1, true) => some (.returned (-1) bf1 w)
    | (bf1, false) =>
      if strlen bf1.code + strlen line ≥ MAX_CODE_LENGTH - 1 then some (.returned (-1) bf1 w)
      else
        let bf2 : BrainFuck := { bf1 with code := cstr bf1.code ++ cstr line }
        if bf2.bracket_count = (0 : Int) then
          match find_brackets { bf2 with code_pointer := 0 } with
          | (bf3, some e) => some (.exited e bf3 w)
          | (bf3, none) =>
            match exec_loop fuel bf3 w with
            | none => none
            | some (bf4, w4) => some (.returned 1 { bf4 with code := [] } w4)
        else some (.returned 0 bf2 w)

/-! ## Vocabulary of the bracket claims -/

/-- No prefix of `seg` has more `]` than `[`. -/
def PrefixOK (seg : List Char) : Prop :=
  ∀ k, (seg.take k).count ']' ≤ (seg.take k).count '['

/-- A balanced piece of code: as many `[` as `]`, and no prefix with more `]` than `[`. -/
def Balanced (seg : List Char) : Prop :=
  seg.count '[' = seg.count ']' ∧ PrefixOK seg

/-- The characters strictly between positions `a` and `b`. -/
def segment (l : List Char) (a b : Nat) : List Char := (l.take b).drop (a + 1)

/-- Position `b` is the matching closer of the opener at position `a`. -/
def IsMatch (l : List Char) (a b : Nat) : Prop :=
  a < b ∧ l[a]? = some '[' ∧ l[b]? = some ']' ∧ Balanced (segment l a b)

/-- Position `a` holds a `[` that has no matching `]`. -/
def UnmatchedOpen (l : List Char) (a : Nat) : Prop :=
  l[a]? = some '[' ∧ ∀ b, ¬ IsMatch l a b

/-- Index `x` of the code buffer `l` is a position holding `[` or `]`. -/
def holds_bracket (l : List Char) (x : Int) : Prop :=
  0 ≤ x ∧ (l[x.toNat]? = some '[' ∨ l[x.toNat]? = some ']')

/-- Position `p` holds a `]` that is preceded by equally many `[` and `]`. -/
def BadClose (l : List Char) (p : Nat) : Prop :=
  l[p]? = some ']' ∧ (l.take p).count '[' = (l.take p).count ']'

/-- The eight instruction characters. -/
def is_command (c : Char) : Prop :=
  c = '>' ∨ c = '<' ∨ c = '+' ∨ c = '-' ∨ c = '.' ∨ c = ',' ∨ c = '[' ∨ c = ']'

/-- The program of the end-to-end example. -/
def sixty_four : List Char := "++++++++[>++++++++<-]>.".data

/-! ## Loop invariant of the bracket resolver -/

/-- Stack part of the invariant of `find_loop`, for the prefix `pre` already read: the
stack lists the still-open `[` of `pre`, innermost first, and the code to the right of each
of them (and to the left of the outermost one) is balanced. -/
def StackOK : List Char → List Nat → Prop
  | pre, [] => Balanced pre
  | pre, s :: r =>
    s < pre.length ∧ pre[s]? = some '[' ∧ Balanced (pre.drop (s + 1)) ∧ StackOK (pre.take s) r

/-- Positions `a` and `b` are recorded as partners in the bracket map, and rightly so. -/
def Pair (l : List Char) (br : Int → Int) (a b : Nat) : Prop :=
  IsMatch l a b ∧ br a = b ∧ br b = a

/-- Map part of the invariant of `find_loop`, with the first `i` characters of `l` read. -/
structure MapOK (l : List Char) (i : Nat) (st : List Nat) (br : Int → Int) : Prop where
  outside : ∀ x : Int, x < 0 ∨ (i : Int) ≤ x → br x = -1
  onstack : ∀ s ∈ st, br (s : Int) = -1
  other : ∀ x : Nat, l[x]? ≠ some '[' → l[x]? ≠ some ']' → br (x : Int) = -1
  opens : ∀ x : Nat, x < i → l[x]? = some '[' → x ∈ st ∨ ∃ b, b < i ∧ Pair l br x b
  closes : ∀ x : Nat, x < i → l[x]? = some ']' → ∃ a, Pair l br a x

/-! ## Sample states -/

/-- A fresh interpreter whose code buffer holds `[[-]>]`. -/
def nested_sample : BrainFuck := load_code brainfuck_init ['[', '[', '-', ']', '>', ']']

/-- A fresh interpreter whose code buffer holds `[[`. -/
def open_sample : BrainFuck := load_code brainfuck_init ['[', '[']

/-- The record with which the execution branch of `brainfuck_eval_line` starts
(brainfuck.c:173-177): the fragment appended, the instruction pointer at 0. -/
def eval_ready (bf : BrainFuck) (line : List Char) : BrainFuck :=
  { (scan_line (cstr line) bf).1 with
    code := cstr (scan_line (cstr line) bf).1.code ++ cstr line, code_pointer := 0 }

/-- The calls `brainfuck_eval_line(bf, line)` for the fragments of a list, submitted in turn:
the return values, and the record and the streams after the last call. -/
def eval_lines (fuel : Nat) : BrainFuck → Streams → List (List Char) →
    Option (List Int × BrainFuck × Streams)
  | bf, w, [] => some ([], bf, w)
  | bf, w, line :: rest =>
    match brainfuck_eval_line fuel bf w line with
    | some (.returned ret bf' w') =>
      (eval_lines fuel bf' w' rest).map (fun r => (ret :: r.1, r.2))
    | _ => none

/-- The fragment `+[]`: a loop that never ends. -/
def forever_sample : List Char := ['+', '[', ']']

/-- The engine sits on a `]` whose recorded partner is the instruction just before it,
with a nonzero current cell: the loop body is empty and the loop cannot end. -/
def spinning (bf : BrainFuck) : Prop :=
  char_at bf.code bf.code_pointer = ']' ∧ bf.memory bf.pointer ≠ 0 ∧
  bf.brackets bf.code_pointer = bf.code_pointer - 1

/-! ## Interactive sessions (brainfuck.c:240-283) -/

/-- What `brainfuck_repl` does with the result of a call (brainfuck.c:273-277): after the
result -1 the code buffer is cleared and `bracket_count` is set to 0. -/
def repl_reset (ret : Int) (bf : BrainFuck) : BrainFuck :=
  if ret = -1 then { bf with code := [], bracket_count := 0 } else bf

/-- The records a session can be in: `brainfuck_init`, then any number of calls of
`brainfuck_eval_line` that return, each followed by the reset of the REPL, on lines
satisfying `ok`. The streams at each call are arbitrary. -/
inductive Reachable (ok : List Char → Prop) : BrainFuck → Prop where
  | init : Reachable ok brainfuck_init
  | call (bf : BrainFuck) (fuel : Nat) (w : Streams) (line : List Char) (ret : Int)
      (bf' : BrainFuck) (w' : Streams) :
      Reachable ok bf → ok line →
      brainfuck_eval_line fuel bf w line = some (.returned ret bf' w') →
      Reachable ok (repl_reset ret bf')

/-- The open-loop count agrees with the code buffer: it is the surplus of `[` over `]`,
and no prefix of the buffer has more `]` than `[`. -/
def CountOK (bf : BrainFuck) : Prop :=
  bf.bracket_count = ((cstr bf.code).count '[' : Int) - ((cstr bf.code).count ']' : Int) ∧
  PrefixOK (cstr bf.code)

/-- The record of a session after the fragment `[[` was submitted to a fresh interpreter. -/
def two_open_sample : BrainFuck :=
  { (scan_line (cstr ['[', '[']) brainfuck_init).1 with
    code := cstr (scan_line (cstr ['[', '[']) brainfuck_init).1.code ++ cstr ['[', '['] }

/-- The indices `i` of the writes `bracket_stack[i] = ...` (brainfuck.c:157) made by the
scan of a fragment, in the order in which they are made. -/
def scan_writes : List Char → BrainFuck → List Int
  | [], _ => []
  | c :: rest, bf =>
    if c = '[' then
      bf.bracket_count :: scan_writes rest { bf with
        bracket_stack := store bf.bracket_stack bf.bracket_count (strlen bf.code : Int),
        bracket_count := bf.bracket_count + 1 }
    else if c = ']' then
      if bf.bracket_count = 0 then []
      else scan_writes rest { bf with bracket_count := bf.bracket_count - 1 }
    else scan_writes rest bf

/-- A line of `n` characters `[`. -/
def open_line (n : Nat) : List Char := List.replicate n '['

/-- The program made of the fragments of a list, one after the other. -/
def concat_fragments : List (List Char) → List Char
  | [] => []
  | f :: fs => cstr f ++ concat_fragments fs

/-- A line of `n` characters `+`. -/
def plus_line (n : Nat) : List Char := List.replicate n '+'

/-- The end of the run of `[-]` on a fresh interpreter: the record and the streams after
the single iteration that the loop of `brainfuck_run` makes. -/
def clear_loop_end : BrainFuck × Streams :=
  exec_step (find_brackets (load_code brainfuck_init
    (concat_fragments [['['], ['-', ']']]))).1 ⟨[], []⟩

/-! ## The trace of the interpreter loop -/

/-- The record and the streams after `k` iterations of the interpreter loop
(brainfuck.c:86-137), or at its end if the loop ends earlier. -/
def exec_iter : Nat → BrainFuck → Streams → BrainFuck × Streams
  | 0, bf, w => (bf, w)
  | k + 1, bf, w =>
    if char_at bf.code bf.code_pointer = '\x00' then (bf, w)
    else exec_iter k (exec_step bf w).1 (exec_step bf w).2

/-- The record with which the loop of `brainfuck_run` starts its iteration number `k`
(or ends, if it ends earlier), when bracket resolution has succeeded. -/
def run_state (bf : BrainFuck) (w : Streams) (code : List Char) (k : Nat) : BrainFuck :=
  (exec_iter k (find_brackets (load_code bf code)).1 w).1

/-- Invariant of the interpreter loop over the resolved buffer `l`: the code and the
bracket map are those of `find_brackets`, the instruction pointer is within `[0, length]`. -/
def EngineOK (l : List Char) (s : BrainFuck) : Prop :=
  s.code = l ∧ (∀ c ∈ l, c ≠ '\x00') ∧ MapOK l l.length [] s.brackets ∧
  0 ≤ s.code_pointer ∧ s.code_pointer ≤ (l.length : Int)

/-! ## The one-shot loader of `main` (brainfuck.c:316-329) -/

/-- The constant `MAX_CODE_SIZE` of brainfuck.c:8. -/
def MAX_CODE_SIZE : Nat := 1000000

/-- The string literal `"><+-.,[]"` of brainfuck.c:325. -/
def instruction_chars : List Char := ['>', '<', '+', '-', '.', ',', '[', ']']

/-- The test `strchr(s, c) != NULL`: C `strchr` searches the string including its
terminating `'\0'`, so the character `'\0'` is always found. -/
def strchr_found (s : List Char) (c : Char) : Bool := c ∈ s ∨ c = '\x00'

/-- The reading loop of `main`, brainfuck.c:318-328, over the bytes of the file still to be
read (the end of the list is `EOF`), with the part of `code` written so far.  The flag is
true while control is in the inner loop of line 321, which skips a comment. -/
def load_loop : List Char → Bool → List Char → List Char
  | [], _, code => code
  | c :: rest, true, code =>
    if c = '\n' then load_loop rest false code else load_loop rest true code
  | c :: rest, false, code =>
    if code.length < MAX_CODE_SIZE - 1 then
      if c = '#' then load_loop rest true code
      else if strchr_found instruction_chars c then load_loop rest false (code ++ [c])
      else load_loop rest false code
    else code

/-- The bytes `code[0 .. code_size)` that `main` has stored when it sets
`code[code_size] = '\0'` (brainfuck.c:316-329). -/
def main_load (file : List Char) : List Char := load_loop file false []

/-- Following the spec: the input without its comments, a comment running from a `#`
up to and including the end of its line.  The flag is true inside a comment. -/
def spec_without_comments : List Char → Bool → List Char
  | [], _ => []
  | c :: rest, true =>
    if c = '\n' then spec_without_comments rest false else spec_without_comments rest true
  | c :: rest, false =>
    if c = '#' then spec_without_comments rest true
    else c :: spec_without_comments rest false

/-- Following the spec: comments removed, then every character outside the eight-instruction
alphabet dropped, in the original order. -/
def spec_stripped (file : List Char) : List Char :=
  (spec_without_comments file false).filter (fun c => c ∈ instruction_chars)

/-! ## The scan-based executor `execute` (brainfuck.c:349-394) -/

/-- The variables of `execute`: the tape, and the pointers `ptr` and `pc` as offsets
from `memory` and from `code`. -/
structure Machine where
  memory : Int → Nat
  ptr : Int
  pc : Int

/-- How a call of `execute` ends: the loop reaches the terminator; or an error message is
printed and the function returns (brainfuck.c:371, 385); or `*ptr` is used while `ptr` points
outside the tape of `MEMORY_SIZE` cells, where C gives the program no meaning. -/
inductive ExecOutcome where
  | returned (m : Machine) (w : Streams)
  | unmatched (m : Machine) (w : Streams)
  | out_of_tape (m : Machine) (w : Streams)

/-- The three kinds of end of `execute`. -/
inductive ExecKind where
  | returned
  | unmatched
  | out_of_tape
  deriving DecidableEq

/-- The kind of an outcome. -/
def ExecOutcome.kind : ExecOutcome → ExecKind
  | .returned _ _ => .returned
  | .unmatched _ _ => .unmatched
  | .out_of_tape _ _ => .out_of_tape

/-- The bytes written when `execute` ends. -/
def ExecOutcome.stdout : ExecOutcome → List Nat
  | .returned _ w => w.stdout
  | .unmatched _ w => w.stdout
  | .out_of_tape _ w => w.stdout

/-- The variables of `execute` when it ends. -/
def ExecOutcome.machine : ExecOutcome → Machine
  | .returned m _ => m
  | .unmatched m _ => m
  | .out_of_tape m _ => m

/-- The bytes written when `brainfuck_run` ends. -/
def RunOutcome.stdout : RunOutcome → List Nat
  | .finished _ w => w.stdout
  | .exited _ _ w => w.stdout

/-- The pointer `ptr` points to a cell of the tape. -/
def in_tape (p : Int) : Prop := 0 ≤ p ∧ p < MEMORY_SIZE

instance (p : Int) : Decidable (in_tape p) := by
  unfold in_tape
  exact inferInstance

/-- The function `printf` on a string without conversions: its bytes go to the output. -/
def print_string (w : Streams) (s : List Char) : Streams :=
  { w with stdout := w.stdout ++ s.map Char.toNat }

/-- The forward scan of brainfuck.c:365-369, given the code from `pc` on and the value of
`bracket_count`: the number of times `pc` is incremented, and the final `bracket_count`. -/
def scan_forward : List Char → Int → Nat × Int
  | [], cnt => (0, cnt)
  | c :: tl, cnt =>
    if cnt > 0 ∧ c ≠ '\x00' then
      let d := tl.headD '\x00'
      let cnt1 := if d = '[' then cnt + 1 else cnt
      let cnt2 := if d = ']' then cnt1 - 1 else cnt1
      ((scan_forward tl cnt2).1 + 1, (scan_forward tl cnt2).2)
    else (0, cnt)

/-- The backward scan of brainfuck.c:379-383, given the offset of `pc` and the value of
`bracket_count`: the final offset of `pc`, and the final `bracket_count`. -/
def scan_backward (code : List Char) : Nat → Int → Nat × Int
  | 0, cnt => (0, cnt)
  | p + 1, cnt =>
    if cnt > 0 then
      let d := char_at code (p : Int)
      let cnt1 := if d = ']' then cnt + 1 else cnt
      let cnt2 := if d = '[' then cnt1 - 1 else cnt1
      scan_backward code p cnt2
    else (p + 1, cnt)

/-- One iteration of the loop of `execute` (brainfuck.c:355-392): either the call ends
here, or the loop goes on with new variables and streams. -/
def execute_step (code : List Char) (m : Machine) (w : Streams) :
    ExecOutcome ⊕ (Machine × Streams) :=
  let c := char_at code m.pc
  if c = '>' then .inr ({ m with ptr := m.ptr + 1, pc := m.pc + 1 }, w)
  else if c = '<' then .inr ({ m with ptr := m.ptr - 1, pc := m.pc + 1 }, w)
  else if c = '+' then
    if in_tape m.ptr then
      .inr ({ m with memory := store m.memory m.ptr (to_uchar ((m.memory m.ptr : Int) + 1)),
                     pc := m.pc + 1 }, w)
    else .inl (.out_of_tape m w)
  else if c = '-' then
    if in_tape m.ptr then
      .inr ({ m with memory := store m.memory m.ptr (to_uchar ((m.memory m.ptr : Int) - 1)),
                     pc := m.pc + 1 }, w)
    else .inl (.out_of_tape m w)
  else if c = '.' then
    if in_tape m.ptr then .inr ({ m with pc := m.pc + 1 }, putchar w (m.memory m.ptr))
    else .inl (.out_of_tape m w)
  else if c = ',' then
    if in_tape m.ptr then
      .inr ({ m with memory := store m.memory m.ptr (to_uchar (getchar w).1),
                     pc := m.pc + 1 }, (getchar w).2)
    else .inl (.out_of_tape m w)
  else if c = '[' then
    if in_tape m.ptr then
      if m.memory m.ptr = 0 then
        if (scan_forward (code.drop m.pc.toNat) 1).2 > 0 then
          .inl (.unmatched { m with pc := m.pc + (scan_forward (code.drop m.pc.toNat) 1).1 }
            (print_string w "Error: Unmatched '['\n".data))
        else .inr ({ m with pc := m.pc + (scan_forward (code.drop m.pc.toNat) 1).1 + 1 }, w)
      else .inr ({ m with pc := m.pc + 1 }, w)
    else .inl (.out_of_tape m w)
  else if c = ']' then
    if in_tape m.ptr then
      if m.memory m.ptr ≠ 0 then
        if (scan_backward code m.pc.toNat 1).2 > 0 then
          .inl (.unmatched { m with pc := ((scan_backward code m.pc.toNat 1).1 : Int) }
            (print_string w "Error: Unmatched ']'\n".data))
        else .inr ({ m with pc := ((scan_backward code m.pc.toNat 1).1 : Int) - 1 + 1 }, w)
      else .inr ({ m with pc := m.pc + 1 }, w)
    else .inl (.out_of_tape m w)
  else .inr ({ m with pc := m.pc + 1 }, w)

/-- The loop `while (*pc)` of `execute`, with a budget of `fuel` iterations. -/
def execute_loop (code : List Char) : Nat → Machine → Streams → Option ExecOutcome
  | fuel, m, w =>
    if char_at code m.pc = '\x00' then some (.returned m w)
    else
      match fuel with
      | 0 => none
      | fuel' + 1 =>
        match execute_step code m w with
        | .inl o => some o
        | .inr r => execute_loop code fuel' r.1 r.2

/-- The function `execute` (brainfuck.c:349-394) on a program and a tape. -/
def execute (fuel : Nat) (code : List Char) (memory : Int → Nat) (w : Streams) :
    Option ExecOutcome :=
  execute_loop code fuel { memory := memory, ptr := 0, pc := 0 } w

/-- The variables of `execute` after `k` iterations of its loop, or where it ends if it
ends earlier. -/
def execute_iter (code : List Char) : Nat → Machine → Streams → Machine × Streams
  | 0, m, w => (m, w)
  | k + 1, m, w =>
    if char_at code m.pc = '\x00' then (m, w)
    else
      match execute_step code m w with
      | .inl o => (o.machine, w)
      | .inr r => execute_iter code k r.1 r.2

/-- The variables of `execute` that correspond to a record of the engine. -/
def machine_of (s : BrainFuck) : Machine :=
  { memory := s.memory, ptr := s.pointer, pc := s.code_pointer }

/-- The engine is about to move the tape pointer across an end of the tape: `<` at cell 0
or `>` at cell `MEMORY_SIZE - 1`. -/
def wraps (s : BrainFuck) : Prop :=
  (char_at s.code s.code_pointer = '<' ∧ s.pointer = 0) ∨
  (char_at s.code s.code_pointer = '>' ∧ s.pointer = MEMORY_SIZE - 1)

instance (s : BrainFuck) : Decidable (wraps s) := by
  unfold wraps
  exact inferInstance

/-- The variables and streams `e` of `execute` against the record and streams `t` of the
engine: same streams, same tape, same tape pointer, and `pc` at the instruction of
`code_pointer` or, after a backward jump, on the `[` just before it. -/
def follows (code : List Char) (e : Machine × Streams) (t : BrainFuck × Streams) : Prop :=
  e.2 = t.2 ∧ e.1.memory = t.1.memory ∧ e.1.ptr = t.1.pointer ∧
  (e.1.pc = t.1.code_pointer ∨
    (e.1.pc + 1 = t.1.code_pointer ∧ char_at code e.1.pc = '['))

/-- A program of `n` blanks followed by `.`. -/
def blank_program (n : Nat) : List Char := List.replicate n ' ' ++ ['.']

/-- The program `.]`. -/
def stray_close_sample : List Char := ['.', ']']

/-- The program `<+`. -/
def left_edge_sample : List Char := ['<', '+']

/-- The program `++[-]`. -/
def countdown_sample : List Char := ['+', '+', '[', '-', ']']

/-- The record of the run of `++++++++[>++++++++<-]>.` on a fresh interpreter when it
starts iteration 20: at the `]` of position 20, with the current cell at 7. -/
def back_jump_sample : BrainFuck := run_state brainfuck_init ⟨[], []⟩ sixty_four 20

/-- The record of the run of `[[-]>]` on a fresh interpreter when it starts iteration 0:
at the `[` of position 0, with the current cell at 0. -/
def forward_jump_sample : BrainFuck :=
  run_state brainfuck_init ⟨[], []⟩ ['[', '[', '-', ']', '>', ']'] 0

/-! ## Balanced pieces -/

theorem prefixOK_nil : PrefixOK [] := by
  intro k; simp

theorem prefixOK_append {A B : List Char} (hA : PrefixOK A) (hB : PrefixOK B) :
    PrefixOK (A ++ B) := by
  intro k
  rw [List.take_append_eq_append_take, List.count_append, List.count_append]
  exact Nat.add_le_add (hA k) (hB _)

theorem prefixOK_single {c : Char} (hc : c ≠ ']') : PrefixOK [c] := by
  intro k
  cases k with
  | zero => simp
  | succ n => simp [List.count_cons, hc]

theorem balanced_nil : Balanced [] := ⟨rfl, prefixOK_nil⟩

theorem balanced_append {A B : List Char} (hA : Balanced A) (hB : Balanced B) :
    Balanced (A ++ B) := by
  refine ⟨?_, prefixOK_append hA.2 hB.2⟩
  rw [List.count_append, List.count_append, hA.1, hB.1]

theorem balanced_single {c : Char} (h1 : c ≠ '[') (h2 : c ≠ ']') : Balanced [c] := by
  refine ⟨?_, prefixOK_single h2⟩
  simp [List.count_cons, h1, h2]

theorem balanced_wrap {B : List Char} (hB : Balanced B) : Balanced ('[' :: B ++ [']']) := by
  constructor
  · simp [List.count_cons, List.count_append, hB.1]
  · intro k
    cases k with
    | zero => simp
    | succ m =>
      rw [List.cons_append, List.take_succ_cons, List.take_append_eq_append_take]
      by_cases hm : m ≤ B.length
      · have h0 : m - B.length = 0 := by omega
        have := hB.2 m
        simp [h0, List.count_cons, List.count_append]
        omega
      · have hfull : B.take m = B := List.take_of_length_le (by omega)
        have h1 : ([']'].take (m - B.length)).count ']' ≤ 1 := by
          calc ([']'].take (m - B.length)).count ']' ≤ ([']'].take (m - B.length)).length :=
                List.count_le_length _ _
            _ ≤ 1 := by simp
        have h2 := hB.1
        simp only [List.count_cons, List.count_append, hfull]
        simp
        omega


/-! ## The stack invariant -/

theorem split_at_index {pre : List Char} {s : Nat} {c : Char} (h : pre[s]? = some c) :
    pre = pre.take s ++ c :: pre.drop (s + 1) := by
  obtain ⟨hlt, hc⟩ := List.getElem?_eq_some.mp h
  have := List.drop_eq_getElem_cons hlt
  rw [hc] at this
  rw [← this, List.take_append_drop]

theorem stackOK_append {P X : List Char} {st : List Nat} (h : StackOK P st)
    (hX : Balanced X) : StackOK (P ++ X) st := by
  cases st with
  | nil => exact balanced_append h hX
  | cons s r =>
    obtain ⟨hs, hget, hB, hrest⟩ := h
    refine ⟨by simp; omega, ?_, ?_, ?_⟩
    · rw [List.getElem?_append_left hs]; exact hget
    · rw [List.drop_append_of_le_length (by omega)]; exact balanced_append hB hX
    · rw [List.take_append_of_le_length (by omega)]; exact hrest

theorem stackOK_push {pre : List Char} {st : List Nat} (h : StackOK pre st) :
    StackOK (pre ++ ['[']) (pre.length :: st) := by
  refine ⟨by simp, by simp, ?_, ?_⟩
  · simp [balanced_nil]
  · simpa using h

theorem stackOK_pop {pre : List Char} {s : Nat} {r : List Nat} (h : StackOK pre (s :: r)) :
    StackOK (pre ++ [']']) r := by
  obtain ⟨_, hget, hB, hrest⟩ := h
  have hsplit := split_at_index hget
  have : pre ++ [']'] = pre.take s ++ ('[' :: pre.drop (s + 1) ++ [']']) := by
    conv_lhs => rw [hsplit]
    simp
  rw [this]
  exact stackOK_append hrest (balanced_wrap hB)

theorem stackOK_counts : ∀ (st : List Nat) (pre : List Char), StackOK pre st →
    PrefixOK pre ∧ pre.count '[' = pre.count ']' + st.length := by
  intro st
  induction st with
  | nil => intro pre h; exact ⟨h.2, by simpa using h.1⟩
  | cons s r ih =>
    intro pre h
    obtain ⟨_, hget, hB, hrest⟩ := h
    obtain ⟨hp, hc⟩ := ih _ hrest
    have hsplit := split_at_index hget
    constructor
    · rw [hsplit]
      have : pre.take s ++ '[' :: pre.drop (s + 1) = pre.take s ++ (['['] ++ pre.drop (s + 1)) := by
        simp
      rw [this]
      exact prefixOK_append hp (prefixOK_append (prefixOK_single (by decide)) hB.2)
    · have h1 : pre.count '[' = (pre.take s ++ '[' :: pre.drop (s + 1)).count '[' := by
        rw [← hsplit]
      have h2 : pre.count ']' = (pre.take s ++ '[' :: pre.drop (s + 1)).count ']' := by
        rw [← hsplit]
      rw [h1, h2]
      have := hB.1
      simp [List.count_append, List.count_cons]
      omega

theorem stackOK_mem : ∀ (st : List Nat) (pre : List Char), StackOK pre st →
    ∀ t ∈ st, t < pre.length ∧ pre[t]? = some '[' := by
  intro st
  induction st with
  | nil => intro pre _ t ht; simp at ht
  | cons s r ih =>
    intro pre h t ht
    obtain ⟨hs, hget, _, hrest⟩ := h
    rcases List.mem_cons.mp ht with rfl | ht
    · exact ⟨hs, hget⟩
    · obtain ⟨h1, h2⟩ := ih _ hrest t ht
      have hts : t < s := by simp at h1; omega
      refine ⟨by omega, ?_⟩
      rw [List.getElem?_take_of_lt hts] at h2
      exact h2

theorem stackOK_lt_top {pre : List Char} {s : Nat} {r : List Nat}
    (h : StackOK pre (s :: r)) : ∀ t ∈ r, t < s := by
  intro t ht
  have := (stackOK_mem r _ h.2.2.2 t ht).1
  simp at this
  omega

/-! ## The map invariant -/

theorem mapOK_init (l : List Char) : MapOK l 0 [] (fun _ => -1) where
  outside := fun _ _ => rfl
  onstack := fun _ _ => rfl
  other := fun _ _ _ => rfl
  opens := fun x hx _ => absurd hx (Nat.not_lt_zero x)
  closes := fun x hx _ => absurd hx (Nat.not_lt_zero x)

theorem mapOK_push {l : List Char} {i : Nat} {st : List Nat} {br : Int → Int}
    (hi : l[i]? = some '[') (h : MapOK l i st br) : MapOK l (i + 1) (i :: st) br where
  outside := fun x hx => h.outside x (by omega)
  onstack := by
    intro s hs
    rcases List.mem_cons.mp hs with rfl | hs
    · exact h.outside _ (by omega)
    · exact h.onstack s hs
  other := h.other
  opens := by
    intro x hx hget
    by_cases hxi : x = i
    · exact Or.inl (by simp [hxi])
    · rcases h.opens x (by omega) hget with hm | ⟨b, hb, hp⟩
      · exact Or.inl (List.mem_cons_of_mem _ hm)
      · exact Or.inr ⟨b, by omega, hp⟩
  closes := by
    intro x hx hget
    have hxi : x ≠ i := by
      rintro rfl
      rw [hi] at hget
      exact absurd hget (by decide)
    exact h.closes x (by omega) hget

theorem mapOK_skip {l : List Char} {i : Nat} {st : List Nat} {br : Int → Int} {c : Char}
    (hi : l[i]? = some c) (h1 : c ≠ '[') (h2 : c ≠ ']') (h : MapOK l i st br) :
    MapOK l (i + 1) st br where
  outside := fun x hx => h.outside x (by omega)
  onstack := h.onstack
  other := h.other
  opens := by
    intro x hx hget
    have hxi : x ≠ i := by
      rintro rfl
      rw [hi] at hget
      exact h1 (Option.some.inj hget)
    rcases h.opens x (by omega) hget with hm | ⟨b, hb, hp⟩
    · exact Or.inl hm
    · exact Or.inr ⟨b, by omega, hp⟩
  closes := by
    intro x hx hget
    have hxi : x ≠ i := by
      rintro rfl
      rw [hi] at hget
      exact h2 (Option.some.inj hget)
    exact h.closes x (by omega) hget

theorem store_other {br : Int → Int} {s i x : Nat} (h1 : x ≠ s) (h2 : x ≠ i) :
    store (store br s i) i s (x : Int) = br x := by
  have e1 : ((x : Int) = (i : Int)) = False := by simp [h2]
  have e2 : ((x : Int) = (s : Int)) = False := by simp [h1]
  simp [store, e1, e2]

theorem mapOK_pop {l : List Char} {i s : Nat} {r : List Nat} {br : Int → Int}
    (hi : l[i]? = some ']') (hs : l[s]? = some '[') (hsi : s < i) (hr : ∀ t ∈ r, t < s)
    (hB : Balanced (segment l s i)) (h : MapOK l i (s :: r) br) :
    MapOK l (i + 1) r (store (store br s i) i s) := by
  have hbs : br (s : Int) = -1 := h.onstack s (List.mem_cons_self _ _)
  have hkeep : ∀ a b : Nat, b < i → Pair l br a b →
      Pair l (store (store br s i) i s) a b := by
    intro a b hb hp
    obtain ⟨hm, h1, h2⟩ := hp
    have hab := hm.1
    have hgb := hm.2.2.1
    have ha_s : a ≠ s := by
      rintro rfl
      rw [hbs] at h1
      omega
    have hb_s : b ≠ s := by
      rintro rfl
      rw [hs] at hgb
      exact absurd hgb (by decide)
    refine ⟨hm, ?_, ?_⟩
    · rw [store_other ha_s (by omega)]; exact h1
    · rw [store_other hb_s (by omega)]; exact h2
  have hnew : Pair l (store (store br s i) i s) s i := by
    refine ⟨⟨hsi, hs, hi, hB⟩, ?_, ?_⟩
    · have e1 : ((s : Int) = (i : Int)) = False := by
        simp; omega
      simp [store, e1]
    · simp [store]
  constructor
  · intro x hx
    have e1 : (x = (i : Int)) = False := by simp; omega
    have e2 : (x = (s : Int)) = False := by simp; omega
    simp only [store, e1, e2, if_false]
    exact h.outside x (by omega)
  · intro t ht
    have := hr t ht
    rw [store_other (by omega) (by omega)]
    exact h.onstack t (List.mem_cons_of_mem _ ht)
  · intro x h1 h2
    have hx_s : x ≠ s := by
      rintro rfl
      exact h1 hs
    have hx_i : x ≠ i := by
      rintro rfl
      exact h2 hi
    rw [store_other hx_s hx_i]
    exact h.other x h1 h2
  · intro x hx hget
    have hx_i : x ≠ i := by
      rintro rfl
      rw [hi] at hget
      exact absurd hget (by decide)
    by_cases hx_s : x = s
    · subst hx_s
      exact Or.inr ⟨i, by omega, hnew⟩
    · rcases h.opens x (by omega) hget with hm | ⟨b, hb, hp⟩
      · rcases List.mem_cons.mp hm with hm | hm
        · exact absurd hm hx_s
        · exact Or.inl hm
      · exact Or.inr ⟨b, by omega, hkeep x b hb hp⟩
  · intro x hx hget
    by_cases hx_i : x = i
    · subst hx_i
      exact ⟨s, hnew⟩
    · obtain ⟨a, hp⟩ := h.closes x (by omega) hget
      exact ⟨a, hkeep a x (by omega) hp⟩

/-! ## The scan of `find_brackets` -/

theorem cstr_no_nul (code : List Char) : ∀ c ∈ cstr code, c ≠ '\x00' := by
  intro c hc
  have := List.mem_takeWhile_imp hc
  simpa using this

theorem find_loop_cstr : ∀ (code : List Char) (i : Nat) (st : List Nat) (br : Int → Int),
    find_loop code i st br = find_loop (cstr code) i st br := by
  intro code
  induction code with
  | nil => intro i st br; rfl
  | cons c rest ih =>
    intro i st br
    by_cases hc : c = '\x00'
    · subst hc
      simp [cstr, find_loop]
    · have e : cstr (c :: rest) = c :: cstr rest := by
        simp [cstr, List.takeWhile_cons, hc]
      rw [e]
      simp only [find_loop, hc, if_false]
      split_ifs
      · exact ih _ _ _
      · cases st with
        | nil => rfl
        | cons s r => exact ih _ _ _
      · exact ih _ _ _

theorem find_loop_spec (l : List Char) : ∀ (rest pre : List Char) (st : List Nat)
    (br : Int → Int), l = pre ++ rest → (∀ c ∈ rest, c ≠ '\x00') → StackOK pre st →
    MapOK l pre.length st br →
    (∃ br' st', find_loop rest pre.length st br = (br', .ok st') ∧ StackOK l st' ∧
        MapOK l l.length st' br') ∨
    (∃ br' p, find_loop rest pre.length st br = (br', .error (.unmatched_close p)) ∧
        l[p]? = some ']' ∧ Balanced (l.take p)) := by
  intro rest
  induction rest with
  | nil =>
    intro pre st br hl _ hS hM
    simp only [List.append_nil] at hl
    subst hl
    exact Or.inl ⟨br, st, rfl, hS, hM⟩
  | cons c rest ih =>
    intro pre st br hl hnul hS hM
    have hc0 : c ≠ '\x00' := hnul c (List.mem_cons_self _ _)
    have hnul' : ∀ d ∈ rest, d ≠ '\x00' := fun d hd => hnul d (List.mem_cons_of_mem _ hd)
    have hi : l[pre.length]? = some c := by
      rw [hl, List.getElem?_append_right (Nat.le_refl _)]; simp
    have hl' : l = (pre ++ [c]) ++ rest := by
      rw [hl]; simp
    have hlen : (pre ++ [c]).length = pre.length + 1 := by simp
    by_cases h1 : c = '['
    · subst h1
      have e : find_loop ('[' :: rest) pre.length st br
          = find_loop rest (pre.length + 1) (pre.length :: st) br := by
        simp [find_loop]
      have := ih (pre ++ ['[']) (pre.length :: st) br hl' hnul' (stackOK_push hS)
        (by rw [hlen]; exact mapOK_push hi hM)
      rw [hlen] at this
      rw [e]
      exact this
    · by_cases h2 : c = ']'
      · subst h2
        cases st with
        | nil =>
          refine Or.inr ⟨br, pre.length, by simp [find_loop], hi, ?_⟩
          rw [hl, List.take_left]
          exact hS
        | cons s r =>
          have e : find_loop (']' :: rest) pre.length (s :: r) br
              = find_loop rest (pre.length + 1) r (store (store br s pre.length) pre.length s) := by
            simp [find_loop]
          obtain ⟨hs_lt, hs_get⟩ := stackOK_mem _ _ hS s (List.mem_cons_self _ _)
          have hs_l : l[s]? = some '[' := by
            rw [hl, List.getElem?_append_left hs_lt]; exact hs_get
          have hB : Balanced (segment l s pre.length) := by
            unfold segment
            rw [hl, List.take_left]
            exact hS.2.2.1
          have := ih (pre ++ [']']) r _ hl' hnul' (stackOK_pop hS)
            (by rw [hlen]; exact mapOK_pop hi hs_l hs_lt (stackOK_lt_top hS) hB hM)
          rw [hlen] at this
          rw [e]
          exact this
      · have e : find_loop (c :: rest) pre.length st br
            = find_loop rest (pre.length + 1) st br := by
          simp [find_loop, hc0, h1, h2]
        have := ih (pre ++ [c]) st br hl' hnul'
          (stackOK_append hS (balanced_single h1 h2))
          (by rw [hlen]; exact mapOK_skip hi h1 h2 hM)
        rw [hlen] at this
        rw [e]
        exact this

/-- The three ways `find_brackets` can end, each with what the scan has established about
the contents `cstr bf.code` of the code buffer. -/
theorem find_brackets_cases (bf : BrainFuck) :
    (∃ br, find_brackets bf = ({ bf with brackets := br }, none) ∧
        StackOK (cstr bf.code) [] ∧ MapOK (cstr bf.code) (cstr bf.code).length [] br) ∨
    (∃ br top r, find_brackets bf = ({ bf with brackets := br }, some (.unmatched_open top)) ∧
        find_loop bf.code 0 [] (fun _ => -1) = (br, .ok (top :: r)) ∧
        StackOK (cstr bf.code) (top :: r) ∧
        MapOK (cstr bf.code) (cstr bf.code).length (top :: r) br) ∨
    (∃ br p, find_brackets bf = ({ bf with brackets := br }, some (.unmatched_close p)) ∧
        (cstr bf.code)[p]? = some ']' ∧ Balanced ((cstr bf.code).take p)) := by
  have h := find_loop_spec (cstr bf.code) (cstr bf.code) [] [] (fun _ => -1) (by simp)
    (cstr_no_nul _) balanced_nil (mapOK_init _)
  simp only [List.length_nil] at h
  rw [← find_loop_cstr] at h
  rcases h with ⟨br, st, he, hS, hM⟩ | ⟨br, p, he, hp, hb⟩
  · cases st with
    | nil => exact Or.inl ⟨br, by simp [find_brackets, he], hS, hM⟩
    | cons top r => exact Or.inr (Or.inl ⟨br, top, r, by simp [find_brackets, he], he, hS, hM⟩)
  · exact Or.inr (Or.inr ⟨br, p, by simp [find_brackets, he], hp, hb⟩)

/-! ## Matching closers -/

theorem take_succ_of_get {l : List Char} {p : Nat} {c : Char} (h : l[p]? = some c) :
    l.take (p + 1) = l.take p ++ [c] := by
  rw [List.take_succ, h]; rfl

theorem prefix_close {l : List Char} {a b : Nat} (hab : a < b) (hb : l[b]? = some ']') :
    (l.drop (a + 1)).take (b - a) = segment l a b ++ [']'] := by
  unfold segment
  have hlt := (List.getElem?_eq_some.mp hb).1
  have e : a + 1 + (b - a) = b + 1 := by omega
  rw [List.take_drop, e, take_succ_of_get hb, List.drop_append_of_le_length]
  simp
  omega

theorem no_match_of_prefixOK {l : List Char} {a b : Nat} (h : PrefixOK (l.drop (a + 1))) :
    ¬ IsMatch l a b := by
  rintro ⟨hab, _, hb, hbal⟩
  have h1 := h (b - a)
  rw [prefix_close hab hb] at h1
  have h2 := hbal.1
  simp [List.count_append] at h1
  omega

theorem isMatch_take {l : List Char} {a b n : Nat} (h : IsMatch l a b) (hn : b < n) :
    IsMatch (l.take n) a b := by
  obtain ⟨hab, ha, hb, hbal⟩ := h
  refine ⟨hab, ?_, ?_, ?_⟩
  · rw [List.getElem?_take_of_lt (by omega)]; exact ha
  · rw [List.getElem?_take_of_lt hn]; exact hb
  · unfold segment at hbal ⊢
    rw [List.take_take, Nat.min_eq_left (by omega)]
    exact hbal

theorem isMatch_unique {l : List Char} {a b c : Nat} (h1 : IsMatch l a b)
    (h2 : IsMatch l a c) : b = c := by
  rcases Nat.lt_trichotomy b c with h | h | h
  · exact absurd (isMatch_take h1 h) (no_match_of_prefixOK h2.2.2.2.2)
  · exact h
  · exact absurd (isMatch_take h2 h) (no_match_of_prefixOK h1.2.2.2.2)

theorem badClose_count {l : List Char} {p : Nat} (h : BadClose l p) :
    (l.take (p + 1)).count ']' = (l.take (p + 1)).count '[' + 1 := by
  rw [take_succ_of_get h.1]
  simp [List.count_append, h.2]

theorem badClose_not_prefixOK {l : List Char} {p : Nat} (h : BadClose l p) : ¬ PrefixOK l := by
  intro hp
  have := hp (p + 1)
  rw [badClose_count h] at this
  omega

theorem badClose_take {l : List Char} {p q : Nat} (h : BadClose l q) (hq : q < p) :
    BadClose (l.take p) q := by
  refine ⟨?_, ?_⟩
  · rw [List.getElem?_take_of_lt hq]; exact h.1
  · rw [List.take_take, Nat.min_eq_left (by omega)]; exact h.2

/-! ## The interpreter loop -/

theorem exec_loop_done {bf : BrainFuck} {w : Streams} (fuel : Nat)
    (h : char_at bf.code bf.code_pointer = '\x00') : exec_loop fuel bf w = some (bf, w) := by
  unfold exec_loop
  simp [h]

theorem exec_loop_zero {bf : BrainFuck} {w : Streams}
    (h : char_at bf.code bf.code_pointer ≠ '\x00') : exec_loop 0 bf w = none := by
  unfold exec_loop
  simp [h]

theorem exec_loop_succ {bf : BrainFuck} {w : Streams} (fuel : Nat)
    (h : char_at bf.code bf.code_pointer ≠ '\x00') :
    exec_loop (fuel + 1) bf w = exec_loop fuel (exec_step bf w).1 (exec_step bf w).2 := by
  rw [exec_loop]
  simp [h]

/-- A run that ends within `n` iterations ends the same way within any larger budget. -/
theorem exec_loop_mono : ∀ (n : Nat) (bf : BrainFuck) (w : Streams) (r : BrainFuck × Streams),
    exec_loop n bf w = some r → ∀ m, n ≤ m → exec_loop m bf w = some r := by
  intro n
  induction n with
  | zero =>
    intro bf w r h m _
    by_cases hend : char_at bf.code bf.code_pointer = '\x00'
    · rw [exec_loop_done _ hend] at h ⊢; exact h
    · rw [exec_loop_zero hend] at h; exact absurd h (by simp)
  | succ n ih =>
    intro bf w r h m hm
    by_cases hend : char_at bf.code bf.code_pointer = '\x00'
    · rw [exec_loop_done _ hend] at h ⊢; exact h
    · obtain ⟨m', rfl⟩ : ∃ m', m = m' + 1 := ⟨m - 1, by omega⟩
      rw [exec_loop_succ _ hend] at h ⊢
      exact ih _ _ _ h m' (by omega)

theorem exec_command_code (c : Char) (bf : BrainFuck) (w : Streams) :
    (exec_command c bf w).1.code = bf.code := by
  unfold exec_command
  split_ifs <;> rfl

theorem exec_step_code (bf : BrainFuck) (w : Streams) : (exec_step bf w).1.code = bf.code := by
  unfold exec_step
  exact exec_command_code _ bf w

theorem char_at_mem {buf : List Char} {i : Int} (h : char_at buf i ≠ '\x00') :
    char_at buf i ∈ buf := by
  unfold char_at at h ⊢
  rw [List.getD_eq_getElem?_getD] at h ⊢
  cases hget : buf[i.toNat]? with
  | none => rw [hget] at h; exact absurd rfl h
  | some c => exact List.getElem?_mem hget

theorem brainfuck_run_ok (fuel : Nat) (bf : BrainFuck) (w : Streams) (code : List Char)
    (h : (find_brackets (load_code bf code)).2 = none) :
    brainfuck_run fuel bf w code
      = (exec_loop fuel (find_brackets (load_code bf code)).1 w).map
          (fun r => RunOutcome.finished r.1 r.2) := by
  unfold brainfuck_run
  rcases hfb : find_brackets (load_code bf code) with ⟨bf1, _ | e⟩
  · cases hl : exec_loop fuel bf1 w <;> simp [hl]
  · rw [hfb] at h; simp at h

theorem brainfuck_run_err (fuel : Nat) (bf : BrainFuck) (w : Streams) (code : List Char)
    (e : BracketError) (h : (find_brackets (load_code bf code)).2 = some e) :
    brainfuck_run fuel bf w code
      = some (.exited e (find_brackets (load_code bf code)).1 w) := by
  unfold brainfuck_run
  rcases hfb : find_brackets (load_code bf code) with ⟨bf1, _ | e'⟩
  · rw [hfb] at h; simp at h
  · rw [hfb] at h
    have : e' = e := by simpa using h
    subst this
    rfl

theorem find_brackets_frame (bf : BrainFuck) :
    (find_brackets bf).1.memory = bf.memory ∧ (find_brackets bf).1.pointer = bf.pointer ∧
    (find_brackets bf).1.code = bf.code ∧ (find_brackets bf).1.code_pointer = bf.code_pointer := by
  unfold find_brackets
  rcases find_loop bf.code 0 [] (fun _ => -1) with ⟨br, e | st⟩
  · exact ⟨rfl, rfl, rfl, rfl⟩
  · cases st <;> exact ⟨rfl, rfl, rfl, rfl⟩

/-! ## Programs without input instruction -/

theorem exec_step_frame (bf : BrainFuck) (inp out : List Nat)
    (h : char_at bf.code bf.code_pointer ≠ ',') :
    exec_step bf ⟨inp, out⟩
      = ((exec_step bf ⟨[], []⟩).1, ⟨inp, out ++ (exec_step bf ⟨[], []⟩).2.stdout⟩) ∧
    (exec_step bf ⟨[], []⟩).2.stdin = [] := by
  unfold exec_step exec_command
  simp only [h, if_false]
  split_ifs <;> simp [putchar]

theorem exec_loop_frame : ∀ (fuel : Nat) (bf : BrainFuck) (inp out : List Nat),
    ',' ∉ bf.code →
    exec_loop fuel bf ⟨inp, out⟩
      = (exec_loop fuel bf ⟨[], []⟩).map (fun r => (r.1, ⟨inp, out ++ r.2.stdout⟩)) := by
  intro fuel
  induction fuel with
  | zero =>
    intro bf inp out _
    by_cases hend : char_at bf.code bf.code_pointer = '\x00'
    · rw [exec_loop_done _ hend, exec_loop_done _ hend]; simp
    · rw [exec_loop_zero hend, exec_loop_zero hend]; rfl
  | succ n ih =>
    intro bf inp out hc
    by_cases hend : char_at bf.code bf.code_pointer = '\x00'
    · rw [exec_loop_done _ hend, exec_loop_done _ hend]; simp
    · have hne : char_at bf.code bf.code_pointer ≠ ',' := by
        intro heq
        exact hc (heq ▸ char_at_mem hend)
      obtain ⟨h1, h2⟩ := exec_step_frame bf inp out hne
      have hc1 : ',' ∉ (exec_step bf ⟨[], []⟩).1.code := by
        rw [exec_step_code]; exact hc
      rw [exec_loop_succ _ hend, exec_loop_succ _ hend, h1]
      rcases hst : exec_step bf ⟨[], []⟩ with ⟨bf1, ⟨i1, o1⟩⟩
      rw [hst] at h2 hc1
      simp only at h2 hc1 ⊢
      subst h2
      rw [ih bf1 inp (out ++ o1) hc1, ih bf1 [] o1 hc1, Option.map_map]
      congr 1
      funext r
      simp [List.append_assoc]

/-! ## Programs without instructions -/

theorem find_loop_no_brackets : ∀ (l : List Char) (i : Nat) (st : List Nat) (br : Int → Int),
    (∀ c ∈ l, ¬ is_command c) → find_loop l i st br = (br, .ok st) := by
  intro l
  induction l with
  | nil => intro i st br _; rfl
  | cons c rest ih =>
    intro i st br h
    have hc := h c (List.mem_cons_self _ _)
    have h1 : c ≠ '[' := fun e => hc (by simp [is_command, e])
    have h2 : c ≠ ']' := fun e => hc (by simp [is_command, e])
    by_cases h0 : c = '\x00'
    · simp [find_loop, h0]
    · simp only [find_loop, h0, h1, h2, if_false]
      exact ih _ _ _ (fun d hd => h d (List.mem_cons_of_mem _ hd))

theorem exec_command_noop {c : Char} (h : ¬ is_command c) (bf : BrainFuck) (w : Streams) :
    exec_command c bf w = (bf, w) := by
  unfold is_command at h
  simp only [not_or] at h
  obtain ⟨h1, h2, h3, h4, h5, h6, h7, h8⟩ := h
  unfold exec_command
  simp only [h1, h2, h3, h4, h5, h6, h7, h8, if_false]

theorem exec_loop_noop (buf : List Char) (hbuf : ∀ c ∈ buf, ¬ is_command c) :
    ∀ (m : Nat) (bf : BrainFuck) (w : Streams) (k : Nat), bf.code = buf →
    bf.code_pointer = (k : Int) → buf.length ≤ k + m → ∀ fuel, m ≤ fuel →
    ∃ bf', exec_loop fuel bf w = some (bf', w) ∧ bf'.memory = bf.memory ∧
      bf'.pointer = bf.pointer := by
  intro m
  induction m with
  | zero =>
    intro bf w k hcode hcp hlen fuel _
    have hend : char_at bf.code bf.code_pointer = '\x00' := by
      rw [hcode, hcp]
      unfold char_at
      simp only [Int.toNat_ofNat]
      rw [List.getD_eq_getElem?_getD, List.getElem?_eq_none (by omega)]
      rfl
    exact ⟨bf, exec_loop_done _ hend, rfl, rfl⟩
  | succ m ih =>
    intro bf w k hcode hcp hlen fuel hfuel
    by_cases hend : char_at bf.code bf.code_pointer = '\x00'
    · exact ⟨bf, exec_loop_done _ hend, rfl, rfl⟩
    · obtain ⟨f, rfl⟩ : ∃ f, fuel = f + 1 := ⟨fuel - 1, by omega⟩
      have hnc : ¬ is_command (char_at bf.code bf.code_pointer) :=
        hbuf _ (hcode ▸ char_at_mem hend)
      have hstep : exec_step bf w = ({ bf with code_pointer := bf.code_pointer + 1 }, w) := by
        unfold exec_step
        rw [exec_command_noop hnc]
      rw [exec_loop_succ _ hend, hstep]
      have hcp' : bf.code_pointer + 1 = ((k + 1 : Nat) : Int) := by
        rw [hcp]; push_cast; rfl
      exact ih { bf with code_pointer := bf.code_pointer + 1 } w (k + 1) hcode hcp' (by omega) f
        (by omega)

/-! ## Tape pointer -/

theorem exec_command_pointer (c : Char) (bf : BrainFuck) (w : Streams)
    (h : 0 ≤ bf.pointer ∧ bf.pointer < 30000) :
    0 ≤ (exec_command c bf w).1.pointer ∧ (exec_command c bf w).1.pointer < 30000 := by
  unfold exec_command MEMORY_SIZE
  split_ifs <;> simp only <;> omega

theorem exec_loop_pointer : ∀ (fuel : Nat) (bf : BrainFuck) (w : Streams)
    (r : BrainFuck × Streams), 0 ≤ bf.pointer ∧ bf.pointer < 30000 →
    exec_loop fuel bf w = some r → 0 ≤ r.1.pointer ∧ r.1.pointer < 30000 := by
  intro fuel
  induction fuel with
  | zero =>
    intro bf w r hp h
    by_cases hend : char_at bf.code bf.code_pointer = '\x00'
    · rw [exec_loop_done _ hend] at h
      cases h
      exact hp
    · rw [exec_loop_zero hend] at h; exact absurd h (by simp)
  | succ n ih =>
    intro bf w r hp h
    by_cases hend : char_at bf.code bf.code_pointer = '\x00'
    · rw [exec_loop_done _ hend] at h
      cases h
      exact hp
    · rw [exec_loop_succ _ hend] at h
      have hp' : 0 ≤ (exec_step bf w).1.pointer ∧ (exec_step bf w).1.pointer < 30000 :=
        exec_command_pointer (char_at bf.code bf.code_pointer) bf w hp
      exact ih _ _ r hp' h

theorem scan_line_frame : ∀ (line : List Char) (bf : BrainFuck),
    (scan_line line bf).1.pointer = bf.pointer ∧ (scan_line line bf).1.memory = bf.memory ∧
    (scan_line line bf).1.code = bf.code := by
  intro line
  induction line with
  | nil => intro bf; exact ⟨rfl, rfl, rfl⟩
  | cons c rest ih =>
    intro bf
    unfold scan_line
    split_ifs
    · exact ih _
    · exact ⟨rfl, rfl, rfl⟩
    · exact ih _
    · exact ih _

theorem brainfuck_run_pointer (fuel : Nat) (bf : BrainFuck) (w : Streams) (code : List Char)
    (out : RunOutcome) (hp : 0 ≤ bf.pointer ∧ bf.pointer < 30000)
    (h : brainfuck_run fuel bf w code = some out) :
    0 ≤ out.state.pointer ∧ out.state.pointer < 30000 := by
  have hfr := (find_brackets_frame (load_code bf code)).2.1
  have hp1 : 0 ≤ (find_brackets (load_code bf code)).1.pointer ∧
      (find_brackets (load_code bf code)).1.pointer < 30000 := by
    rw [hfr]; exact hp
  cases hfb : (find_brackets (load_code bf code)).2 with
  | some e =>
    rw [brainfuck_run_err _ _ _ _ e hfb] at h
    cases h
    exact hp1
  | none =>
    rw [brainfuck_run_ok _ _ _ _ hfb] at h
    cases hl : exec_loop fuel (find_brackets (load_code bf code)).1 w with
    | none => rw [hl] at h; simp at h
    | some r =>
      rw [hl] at h
      cases h
      exact exec_loop_pointer _ _ _ r hp1 hl

theorem brainfuck_eval_line_pointer (fuel : Nat) (bf : BrainFuck) (w : Streams)
    (line : List Char) (out : EvalOutcome) (hp : 0 ≤ bf.pointer ∧ bf.pointer < 30000)
    (h : brainfuck_eval_line fuel bf w line = some out) :
    0 ≤ out.state.pointer ∧ out.state.pointer < 30000 := by
  unfold brainfuck_eval_line at h
  have hs := (scan_line_frame (cstr line) bf).1
  rcases hsc : scan_line (cstr line) bf with ⟨bf1, flag⟩
  rw [hsc] at h hs
  simp only at hs
  have hp1 : 0 ≤ bf1.pointer ∧ bf1.pointer < 30000 := by rw [hs]; exact hp
  by_cases hblank : (cstr line).all isspace = true
  · rw [if_pos hblank] at h
    cases h
    exact hp
  · rw [if_neg hblank] at h
    cases flag with
    | true =>
      simp only at h
      cases h
      exact hp1
    | false =>
      simp only at h
      split_ifs at h with hcap hcount
      · cases h
        exact hp1
      · have hfr := (find_brackets_frame
          { bf1 with code := cstr bf1.code ++ cstr line, code_pointer := 0 }).2.1
        rcases hfb : find_brackets
          { bf1 with code := cstr bf1.code ++ cstr line, code_pointer := 0 } with ⟨bf3, _ | e⟩
        · rw [hfb] at h hfr
          simp only at h hfr
          cases hl : exec_loop fuel bf3 w with
          | none => rw [hl] at h; simp at h
          | some r =>
            rw [hl] at h
            cases h
            exact exec_loop_pointer _ _ _ r (by rw [hfr]; exact hp1) hl
        · rw [hfb] at h hfr
          simp only at h hfr
          cases h
          show 0 ≤ bf3.pointer ∧ bf3.pointer < 30000
          rw [hfr]
          exact hp1
      · cases h
        exact hp1

/-! ## Claims about the bracket resolver -/

/-- C2. When `find_brackets` succeeds, the bracket map is defined (not -1) exactly on the
positions of the code buffer that hold `[` or `]`, it sends each of them to such a position
again, and it is an involution there: `brackets[brackets[x]] == x`; every other index
holds -1. -/
theorem C2_bracket_map_involution (bf : BrainFuck) (h : (find_brackets bf).2 = none)
    (x : Int) :
    (holds_bracket (cstr bf.code) x →
      holds_bracket (cstr bf.code) ((find_brackets bf).1.brackets x) ∧
      (find_brackets bf).1.brackets x ≠ -1 ∧
      (find_brackets bf).1.brackets ((find_brackets bf).1.brackets x) = x) ∧
    (¬ holds_bracket (cstr bf.code) x → (find_brackets bf).1.brackets x = -1) := by
  rcases find_brackets_cases bf with ⟨br, he, _, hM⟩ | ⟨br, top, r, he, _, _, _⟩ |
    ⟨br, p, he, _, _⟩
  · rw [he]
    simp only
    constructor
    · rintro ⟨hx0, hb⟩
      obtain ⟨n, rfl⟩ := Int.eq_ofNat_of_zero_le hx0
      simp only [Int.toNat_ofNat] at hb
      rcases hb with hb | hb
      · have hlt := (List.getElem?_eq_some.mp hb).1
        rcases hM.opens n hlt hb with hm | ⟨b, _, hm, h1, h2⟩
        · simp at hm
        · rw [h1]
          exact ⟨⟨by omega, Or.inr (by simpa using hm.2.2.1)⟩, by omega, h2⟩
      · have hlt := (List.getElem?_eq_some.mp hb).1
        obtain ⟨a, hm, h1, h2⟩ := hM.closes n hlt hb
        rw [h2]
        exact ⟨⟨by omega, Or.inl (by simpa using hm.2.1)⟩, by omega, h1⟩
    · intro hnot
      by_cases hx0 : 0 ≤ x
      · obtain ⟨n, rfl⟩ := Int.eq_ofNat_of_zero_le hx0
        refine hM.other n (fun hb => hnot ⟨hx0, Or.inl ?_⟩) (fun hb => hnot ⟨hx0, Or.inr ?_⟩)
        · simpa using hb
        · simpa using hb
      · exact hM.outside x (Or.inl (by omega))
  · rw [he] at h; simp at h
  · rw [he] at h; simp at h

/-- Witness of C2 on the buffer `[[-]>]`, at position 0. -/
theorem C2_bracket_map_involution_witness :
    (find_brackets nested_sample).2 = none ∧
    ((holds_bracket (cstr nested_sample.code) 0 →
      holds_bracket (cstr nested_sample.code) ((find_brackets nested_sample).1.brackets 0) ∧
      (find_brackets nested_sample).1.brackets 0 ≠ -1 ∧
      (find_brackets nested_sample).1.brackets ((find_brackets nested_sample).1.brackets 0)
        = 0) ∧
    (¬ holds_bracket (cstr nested_sample.code) 0 →
      (find_brackets nested_sample).1.brackets 0 = -1)) :=
  ⟨by decide!, C2_bracket_map_involution nested_sample (by decide!) 0⟩

/-- C3. When `find_brackets` succeeds, every `[` at position `i` has `brackets[i] > i` and
every `]` at position `j` has `0 <= brackets[j] < j`. -/
theorem C3_match_direction (bf : BrainFuck) (h : (find_brackets bf).2 = none) :
    (∀ i : Nat, (cstr bf.code)[i]? = some '[' → (i : Int) < (find_brackets bf).1.brackets i) ∧
    (∀ j : Nat, (cstr bf.code)[j]? = some ']' →
      0 ≤ (find_brackets bf).1.brackets j ∧ (find_brackets bf).1.brackets j < (j : Int)) := by
  rcases find_brackets_cases bf with ⟨br, he, _, hM⟩ | ⟨br, top, r, he, _, _, _⟩ |
    ⟨br, p, he, _, _⟩
  · rw [he]
    simp only
    constructor
    · intro i hi
      have hlt := (List.getElem?_eq_some.mp hi).1
      rcases hM.opens i hlt hi with hm | ⟨b, _, hm, h1, _⟩
      · simp at hm
      · rw [h1]
        have := hm.1
        omega
    · intro j hj
      have hlt := (List.getElem?_eq_some.mp hj).1
      obtain ⟨a, hm, _, h2⟩ := hM.closes j hlt hj
      rw [h2]
      have := hm.1
      omega
  · rw [he] at h; simp at h
  · rw [he] at h; simp at h

/-- Witness of C3 on the buffer `[[-]>]`. -/
theorem C3_match_direction_witness :
    (find_brackets nested_sample).2 = none ∧
    ((∀ i : Nat, (cstr nested_sample.code)[i]? = some '[' →
        (i : Int) < (find_brackets nested_sample).1.brackets i) ∧
    (∀ j : Nat, (cstr nested_sample.code)[j]? = some ']' →
      0 ≤ (find_brackets nested_sample).1.brackets j ∧
      (find_brackets nested_sample).1.brackets j < (j : Int))) :=
  ⟨by decide!, C3_match_direction nested_sample (by decide!)⟩

/-- C4. When `find_brackets` succeeds and position `a` holds `[`, then `brackets[a]` is a
position `b > a` holding `]` such that the code strictly between `a` and `b` has as many
`[` as `]` and no prefix of it has more `]` than `[`; and `b` is the only position with
these properties. -/
theorem C4_true_matching_closer (bf : BrainFuck) (h : (find_brackets bf).2 = none)
    (a : Nat) (ha : (cstr bf.code)[a]? = some '[') :
    ∃ b : Nat, (find_brackets bf).1.brackets a = (b : Int) ∧ a < b ∧
      (cstr bf.code)[b]? = some ']' ∧
      (segment (cstr bf.code) a b).count '[' = (segment (cstr bf.code) a b).count ']' ∧
      (∀ k, ((segment (cstr bf.code) a b).take k).count ']'
          ≤ ((segment (cstr bf.code) a b).take k).count '[') ∧
      (∀ c, IsMatch (cstr bf.code) a c → c = b) := by
  rcases find_brackets_cases bf with ⟨br, he, _, hM⟩ | ⟨br, top, r, he, _, _, _⟩ |
    ⟨br, p, he, _, _⟩
  · rw [he]
    simp only
    have hlt := (List.getElem?_eq_some.mp ha).1
    rcases hM.opens a hlt ha with hm | ⟨b, _, hm, h1, _⟩
    · simp at hm
    · exact ⟨b, h1, hm.1, hm.2.2.1, hm.2.2.2.1, hm.2.2.2.2, fun c hc => isMatch_unique hc hm⟩
  · rw [he] at h; simp at h
  · rw [he] at h; simp at h

/-- Witness of C4 on the buffer `[[-]>]`, at the opener of position 0. -/
theorem C4_true_matching_closer_witness :
    (find_brackets nested_sample).2 = none ∧ (cstr nested_sample.code)[0]? = some '[' ∧
    ∃ b : Nat, (find_brackets nested_sample).1.brackets (0 : Nat) = (b : Int) ∧ 0 < b ∧
      (cstr nested_sample.code)[b]? = some ']' ∧
      (segment (cstr nested_sample.code) 0 b).count '['
        = (segment (cstr nested_sample.code) 0 b).count ']' ∧
      (∀ k, ((segment (cstr nested_sample.code) 0 b).take k).count ']'
          ≤ ((segment (cstr nested_sample.code) 0 b).take k).count '[') ∧
      (∀ c, IsMatch (cstr nested_sample.code) 0 c → c = b) :=
  ⟨by decide!, by decide!, C4_true_matching_closer nested_sample (by decide!) 0 (by decide!)⟩

/-- C5. `find_brackets` ends with the unmatched-closer error naming `p` exactly when `p` is
the least position holding a `]` preceded by equally many `[` and `]`; when there is no such
position it ends with the unmatched-opener error exactly when the buffer has more `[` than
`]`; and it succeeds exactly when the buffer is balanced. -/
theorem C5_find_brackets_outcome (bf : BrainFuck) :
    (∀ p, (find_brackets bf).2 = some (.unmatched_close p) ↔
        (BadClose (cstr bf.code) p ∧ ∀ q, BadClose (cstr bf.code) q → p ≤ q)) ∧
    ((¬ ∃ p, BadClose (cstr bf.code) p) →
        ((∃ q, (find_brackets bf).2 = some (.unmatched_open q)) ↔
          (cstr bf.code).count ']' < (cstr bf.code).count '[')) ∧
    ((find_brackets bf).2 = none ↔ Balanced (cstr bf.code)) := by
  rcases find_brackets_cases bf with ⟨br, he, hS, _⟩ | ⟨br, top, r, he, _, hS, _⟩ |
    ⟨br, p0, he, hp, hb⟩
  · have hS : Balanced (cstr bf.code) := hS
    rw [he]
    simp only
    refine ⟨fun p => ⟨fun h => by simp at h, fun h => ?_⟩, fun _ => ⟨fun h => ?_, fun h => ?_⟩,
      ⟨fun _ => hS, fun _ => trivial⟩⟩
    · exact absurd hS.2 (badClose_not_prefixOK h.1)
    · obtain ⟨q, hq⟩ := h
      simp at hq
    · have := hS.1
      omega
  · obtain ⟨hpre, hcount⟩ := stackOK_counts _ _ hS
    simp only [List.length_cons] at hcount
    rw [he]
    simp only
    refine ⟨fun p => ⟨fun h => by simp at h, fun h => ?_⟩,
      fun _ => ⟨fun _ => by omega, fun _ => ⟨top, rfl⟩⟩, ⟨fun h => by simp at h, fun h => ?_⟩⟩
    · exact absurd hpre (badClose_not_prefixOK h.1)
    · have := h.1
      omega
  · have hbad : BadClose (cstr bf.code) p0 := ⟨hp, hb.1⟩
    have hleast : ∀ q, BadClose (cstr bf.code) q → p0 ≤ q := by
      intro q hq
      by_contra hlt
      exact badClose_not_prefixOK (badClose_take hq (by omega)) hb.2
    rw [he]
    simp only
    refine ⟨fun p => ⟨fun h => ?_, fun h => ?_⟩, fun hno => absurd ⟨p0, hbad⟩ hno,
      ⟨fun h => by simp at h, fun h => ?_⟩⟩
    · have hpp : p0 = p := by simpa using h
      subst hpp
      exact ⟨hbad, hleast⟩
    · have h1 := h.2 p0 hbad
      have h2 := hleast p h.1
      have hpp : p0 = p := by omega
      rw [hpp]
    · exact absurd h.2 (badClose_not_prefixOK hbad)

/-- C6, as the code has it. When `find_brackets` ends with the unmatched-opener error, the
position it names is the one at the top of the resolver's stack, and that position is the
latest still-open `[` of the buffer: it holds a `[` without matching `]`, and no later
position does. -/
theorem C6_unmatched_open_is_latest (bf : BrainFuck) (q : Nat)
    (h : (find_brackets bf).2 = some (.unmatched_open q)) :
    (∃ br st, find_loop bf.code 0 [] (fun _ => -1) = (br, .ok st) ∧ st.head? = some q) ∧
    UnmatchedOpen (cstr bf.code) q ∧
    ∀ a, UnmatchedOpen (cstr bf.code) a → a ≤ q := by
  rcases find_brackets_cases bf with ⟨br, he, _, _⟩ | ⟨br, top, r, he, hloop, hS, hM⟩ |
    ⟨br, p0, he, _, _⟩
  · rw [he] at h; simp at h
  · rw [he] at h
    have htq : top = q := by simpa using h
    subst htq
    refine ⟨⟨br, top :: r, hloop, rfl⟩, ⟨hS.2.1, fun b => no_match_of_prefixOK hS.2.2.1.2⟩, ?_⟩
    intro a ha
    by_contra hlt
    have halt := (List.getElem?_eq_some.mp ha.1).1
    rcases hM.opens a halt ha.1 with hm | ⟨b, _, hm, _, _⟩
    · rcases List.mem_cons.mp hm with hm | hm
      · omega
      · have := stackOK_lt_top hS a hm
        omega
    · exact ha.2 b hm
  · rw [he] at h; simp at h

/-- Witness of C6 on the buffer `[[`, whose named position is 1. -/
theorem C6_unmatched_open_is_latest_witness :
    (find_brackets open_sample).2 = some (.unmatched_open 1) ∧
    ((∃ br st, find_loop open_sample.code 0 [] (fun _ => -1) = (br, .ok st) ∧
        st.head? = some 1) ∧
    UnmatchedOpen (cstr open_sample.code) 1 ∧
    ∀ a, UnmatchedOpen (cstr open_sample.code) a → a ≤ 1) :=
  ⟨by decide!, C6_unmatched_open_is_latest open_sample 1 (by decide!)⟩

/-- C6 as claimed fails on the buffer `[[`: the error names position 1, while the earliest
still-open `[` is at position 0. -/
theorem C6_earliest_counterexample :
    (find_brackets open_sample).2 = some (.unmatched_open 1) ∧
    UnmatchedOpen (cstr open_sample.code) 0 ∧ (0 : Nat) < 1 ∧
    ¬ (∀ a, UnmatchedOpen (cstr open_sample.code) a → 1 ≤ a) := by
  have h0 : UnmatchedOpen (cstr open_sample.code) 0 := by
    refine ⟨by decide!, ?_⟩
    rintro b ⟨_, _, hb, _⟩
    have hlt := (List.getElem?_eq_some.mp hb).1
    have hlen : (cstr open_sample.code).length = 2 := by decide!
    have hb1 : b = 0 ∨ b = 1 := by omega
    rcases hb1 with rfl | rfl
    · exact absurd hb (by decide!)
    · exact absurd hb (by decide!)
  refine ⟨by decide!, h0, by decide, fun hall => ?_⟩
  have := hall 0 h0
  omega

/-! ## Claims about the execution engine -/

/-- C1. Started by `brainfuck_run` on a freshly initialised interpreter, the program
`++++++++[>++++++++<-]>.` terminates (within 200 iterations of the loop, and then for every
larger budget), consumes no input and writes exactly one byte, the byte 64. -/
theorem C1_sixty_four (w : Streams) :
    ∃ bf', ∀ fuel, 200 ≤ fuel →
      brainfuck_run fuel brainfuck_init w sixty_four
        = some (.finished bf' ⟨w.stdin, w.stdout ++ [64]⟩) := by
  have h1 : (find_brackets (load_code brainfuck_init sixty_four)).2 = none := by decide!
  have h2 : ',' ∉ (find_brackets (load_code brainfuck_init sixty_four)).1.code := by decide!
  have h3 : (exec_loop 200 (find_brackets (load_code brainfuck_init sixty_four)).1
      ⟨[], []⟩).map (fun r => r.2.stdout) = some [64] := by decide!
  cases hr : exec_loop 200 (find_brackets (load_code brainfuck_init sixty_four)).1 ⟨[], []⟩ with
  | none => rw [hr] at h3; simp at h3
  | some r =>
    rw [hr] at h3
    have hout : r.2.stdout = [64] := by simpa using h3
    refine ⟨r.1, fun fuel hfuel => ?_⟩
    obtain ⟨i, o⟩ := w
    rw [brainfuck_run_ok _ _ _ _ h1, exec_loop_frame _ _ i o h2,
      exec_loop_mono _ _ _ _ hr fuel hfuel]
    simp [hout]

/-- C7. When bracket resolution fails on the program, `brainfuck_run` leaves the process
from inside `find_brackets`, whatever the budget: no instruction is executed, the streams are
untouched (no output, no input read) and the tape and the tape pointer are as before.  The
program `[` fails with the unmatched-opener error naming position 0. -/
theorem C7_failed_resolution_runs_nothing (fuel : Nat) (bf : BrainFuck) (w : Streams)
    (code : List Char) (e : BracketError)
    (h : (find_brackets (load_code bf code)).2 = some e) :
    (∃ bf', brainfuck_run fuel bf w code = some (.exited e bf' w) ∧
      bf'.memory = bf.memory ∧ bf'.pointer = bf.pointer) ∧
    (find_brackets (load_code bf ['['])).2 = some (.unmatched_open 0) := by
  refine ⟨⟨_, brainfuck_run_err fuel bf w code e h, ?_, ?_⟩, ?_⟩
  · exact (find_brackets_frame _).1
  · exact (find_brackets_frame _).2.1
  · simp [find_brackets, load_code, cstr, find_loop, MAX_CODE_LENGTH]

/-- Witness of C7: the program `[` on a fresh interpreter. -/
theorem C7_failed_resolution_runs_nothing_witness :
    (find_brackets (load_code brainfuck_init ['['])).2 = some (.unmatched_open 0) ∧
    ((∃ bf', brainfuck_run 5 brainfuck_init ⟨[], []⟩ ['[']
        = some (.exited (.unmatched_open 0) bf' ⟨[], []⟩) ∧
      bf'.memory = brainfuck_init.memory ∧ bf'.pointer = brainfuck_init.pointer) ∧
    (find_brackets (load_code brainfuck_init ['['])).2 = some (.unmatched_open 0)) :=
  ⟨by decide!, C7_failed_resolution_runs_nothing 5 brainfuck_init ⟨[], []⟩ ['[']
    (.unmatched_open 0) (by decide!)⟩

/-- C8. From a state whose tape pointer lies in `[0, MEMORY_SIZE)`, every single
instruction (the dispatch shared by the loops of `brainfuck_run` and `brainfuck_eval_line`),
every iteration of the loop, and every call of `brainfuck_run` and of `brainfuck_eval_line`
that comes to an end, leave it in `[0, MEMORY_SIZE)`;
`>` at 29999 yields 0 and otherwise adds 1, `<` at 0 yields 29999 and otherwise subtracts 1,
and no other instruction moves the pointer. -/
theorem C8_pointer_in_range (command : Char) (bf : BrainFuck) (w : Streams)
    (h : 0 ≤ bf.pointer ∧ bf.pointer < MEMORY_SIZE) :
    (0 ≤ (exec_command command bf w).1.pointer ∧
      (exec_command command bf w).1.pointer < MEMORY_SIZE) ∧
    (0 ≤ (exec_step bf w).1.pointer ∧ (exec_step bf w).1.pointer < MEMORY_SIZE) ∧
    (∀ fuel code out, brainfuck_run fuel bf w code = some out →
      0 ≤ out.state.pointer ∧ out.state.pointer < MEMORY_SIZE) ∧
    (∀ fuel line out, brainfuck_eval_line fuel bf w line = some out →
      0 ≤ out.state.pointer ∧ out.state.pointer < MEMORY_SIZE) ∧
    (exec_command '>' bf w).1.pointer = (if bf.pointer = 29999 then 0 else bf.pointer + 1) ∧
    (exec_command '<' bf w).1.pointer = (if bf.pointer = 0 then 29999 else bf.pointer - 1) ∧
    (command ≠ '>' → command ≠ '<' → (exec_command command bf w).1.pointer = bf.pointer) := by
  have h' : 0 ≤ bf.pointer ∧ bf.pointer < 30000 := h
  refine ⟨exec_command_pointer command bf w h', exec_command_pointer _ bf w h',
    fun fuel code out ho => brainfuck_run_pointer fuel bf w code out h' ho,
    fun fuel line out ho => brainfuck_eval_line_pointer fuel bf w line out h' ho, ?_, ?_, ?_⟩
  · simp only [exec_command, MEMORY_SIZE, if_true]
    split_ifs <;> simp only <;> omega
  · have e1 : ('<' = '>') = False := by decide
    simp only [exec_command, MEMORY_SIZE, e1, if_false, if_true]
    split_ifs <;> simp only <;> omega
  · intro h1 h2
    unfold exec_command
    simp only [h1, h2, if_false]
    split_ifs <;> rfl

/-- Witness of C8: `>` on a state whose pointer is at the last cell. -/
theorem C8_pointer_in_range_witness :
    (0 ≤ ({ brainfuck_init with pointer := 29999 } : BrainFuck).pointer ∧
      ({ brainfuck_init with pointer := 29999 } : BrainFuck).pointer < MEMORY_SIZE) ∧
    (exec_command '>' { brainfuck_init with pointer := 29999 } ⟨[], []⟩).1.pointer
      = (if ({ brainfuck_init with pointer := 29999 } : BrainFuck).pointer = 29999 then 0
         else ({ brainfuck_init with pointer := 29999 } : BrainFuck).pointer + 1) :=
  ⟨by decide!, (C8_pointer_in_range '>' { brainfuck_init with pointer := 29999 } ⟨[], []⟩
    (by decide!)).2.2.2.2.1⟩

/-- C9. In every state `+` replaces the value `v` of the current cell by `(v + 1) mod 256`
and `-` replaces it by `(v - 1) mod 256`; no other cell changes, nor does the tape pointer;
`+` on 255 yields 0 and `-` on 0 yields 255. -/
theorem C9_cell_arithmetic (bf : BrainFuck) (w : Streams) :
    (((exec_command '+' bf w).1.memory bf.pointer : Int) = ((bf.memory bf.pointer : Int) + 1) % 256 ∧
      (∀ j, j ≠ bf.pointer → (exec_command '+' bf w).1.memory j = bf.memory j) ∧
      (exec_command '+' bf w).1.pointer = bf.pointer) ∧
    (((exec_command '-' bf w).1.memory bf.pointer : Int) = ((bf.memory bf.pointer : Int) - 1) % 256 ∧
      (∀ j, j ≠ bf.pointer → (exec_command '-' bf w).1.memory j = bf.memory j) ∧
      (exec_command '-' bf w).1.pointer = bf.pointer) ∧
    (bf.memory bf.pointer = 255 → (exec_command '+' bf w).1.memory bf.pointer = 0) ∧
    (bf.memory bf.pointer = 0 → (exec_command '-' bf w).1.memory bf.pointer = 255) := by
  have ep : (exec_command '+' bf w).1 =
      { bf with memory := store bf.memory bf.pointer (to_uchar ((bf.memory bf.pointer : Int) + 1)) } := by
    simp [exec_command]
  have em : (exec_command '-' bf w).1 =
      { bf with memory := store bf.memory bf.pointer (to_uchar ((bf.memory bf.pointer : Int) - 1)) } := by
    simp [exec_command]
  rw [ep, em]
  simp only [store, to_uchar, if_true]
  refine ⟨⟨?_, fun j hj => by simp [hj], trivial⟩, ⟨?_, fun j hj => by simp [hj], trivial⟩,
    fun h => ?_, fun h => ?_⟩
  · exact Int.toNat_of_nonneg (Int.emod_nonneg _ (by norm_num))
  · exact Int.toNat_of_nonneg (Int.emod_nonneg _ (by norm_num))
  · rw [h]; rfl
  · rw [h]; rfl

/-- C10. On a program containing none of the eight instruction characters, `brainfuck_run`
terminates (within as many iterations as the program has characters), the tape and the tape
pointer are unchanged, nothing is written and nothing is read. -/
theorem C10_no_instruction_is_noop (bf : BrainFuck) (w : Streams) (code : List Char)
    (h : ∀ c ∈ code, ¬ is_command c) (fuel : Nat) (hfuel : code.length ≤ fuel) :
    ∃ bf', brainfuck_run fuel bf w code = some (.finished bf' w) ∧
      bf'.memory = bf.memory ∧ bf'.pointer = bf.pointer := by
  have hsub : ∀ c ∈ (load_code bf code).code, ¬ is_command c := fun c hc =>
    h c (List.takeWhile_subset _ (List.mem_of_mem_take hc))
  have hlen : (load_code bf code).code.length ≤ code.length :=
    Nat.le_trans (List.take_sublist _ _).length_le (List.takeWhile_sublist _).length_le
  have hfb : (find_brackets (load_code bf code)).2 = none := by
    simp [find_brackets, find_loop_no_brackets _ 0 [] _ hsub]
  obtain ⟨hmem, hptr, hcode, hcp⟩ := find_brackets_frame (load_code bf code)
  obtain ⟨bf', hrun, hm', hp'⟩ := exec_loop_noop _ hsub (load_code bf code).code.length
    (find_brackets (load_code bf code)).1 w 0 hcode (by rw [hcp]; rfl) (by omega) fuel
    (by omega)
  refine ⟨bf', ?_, ?_, ?_⟩
  · rw [brainfuck_run_ok _ _ _ _ hfb, hrun]; rfl
  · rw [hm', hmem]; rfl
  · rw [hp', hptr]; rfl

/-- Witness of C10: the three-character program `a b`. -/
theorem C10_no_instruction_is_noop_witness :
    (∀ c ∈ ['a', ' ', 'b'], ¬ is_command c) ∧ ['a', ' ', 'b'].length ≤ 3 ∧
    ∃ bf', brainfuck_run 3 brainfuck_init ⟨[], []⟩ ['a', ' ', 'b']
        = some (.finished bf' ⟨[], []⟩) ∧
      bf'.memory = brainfuck_init.memory ∧ bf'.pointer = brainfuck_init.pointer :=
  ⟨by simp [is_command], by decide,
    C10_no_instruction_is_noop brainfuck_init ⟨[], []⟩ ['a', ' ', 'b']
      (by simp [is_command]) 3 (by decide)⟩

theorem scan_line_flag : ∀ (line : List Char) (bf : BrainFuck), (scan_line line bf).2 = true →
    (scan_line line bf).1.bracket_count = 0 ∧ ']' ∈ line := by
  intro line
  induction line with
  | nil => intro bf h; simp [scan_line] at h
  | cons c rest ih =>
    intro bf h
    unfold scan_line at h ⊢
    split_ifs at h ⊢ with h1 h2 h3
    · exact ⟨(ih _ h).1, List.mem_cons_of_mem _ (ih _ h).2⟩
    · exact ⟨h3, by rw [h2]; exact List.mem_cons_self _ _⟩
    · exact ⟨(ih _ h).1, List.mem_cons_of_mem _ (ih _ h).2⟩
    · exact ⟨(ih _ h).1, List.mem_cons_of_mem _ (ih _ h).2⟩

theorem not_blank_of_mem_close {l : List Char} (h : ']' ∈ l) : l.all isspace = false := by
  rw [Bool.eq_false_iff]
  intro hall
  have := List.all_eq_true.mp hall _ h
  exact absurd this (by decide)

theorem eval_line_blank (fuel : Nat) (bf : BrainFuck) (w : Streams) (line : List Char)
    (h : (cstr line).all isspace = true) :
    brainfuck_eval_line fuel bf w line = some (.returned 0 bf w) := by
  unfold brainfuck_eval_line
  rw [if_pos h]

theorem eval_line_unmatched (fuel : Nat) (bf : BrainFuck) (w : Streams) (line : List Char)
    (h : (scan_line (cstr line) bf).2 = true) :
    brainfuck_eval_line fuel bf w line
      = some (.returned (-1) (scan_line (cstr line) bf).1 w) := by
  have hb := not_blank_of_mem_close (scan_line_flag _ _ h).2
  unfold brainfuck_eval_line
  rw [if_neg (by rw [hb]; decide)]
  rcases hsc : scan_line (cstr line) bf with ⟨bf1, flag⟩
  rw [hsc] at h
  simp only at h
  subst h
  rfl

theorem eval_line_capacity (fuel : Nat) (bf : BrainFuck) (w : Streams) (line : List Char)
    (hb : (cstr line).all isspace = false) (h : (scan_line (cstr line) bf).2 = false)
    (hcap : MAX_CODE_LENGTH - 1 ≤ strlen bf.code + strlen line) :
    brainfuck_eval_line fuel bf w line
      = some (.returned (-1) (scan_line (cstr line) bf).1 w) := by
  have hcode := (scan_line_frame (cstr line) bf).2.2
  unfold brainfuck_eval_line
  rw [if_neg (by rw [hb]; decide)]
  rcases hsc : scan_line (cstr line) bf with ⟨bf1, flag⟩
  rw [hsc] at h hcode
  simp only at h hcode
  subst h
  simp only
  rw [if_pos (by rw [hcode]; exact hcap)]

theorem eval_line_buffered (fuel : Nat) (bf : BrainFuck) (w : Streams) (line : List Char)
    (hb : (cstr line).all isspace = false) (h : (scan_line (cstr line) bf).2 = false)
    (hcap : strlen bf.code + strlen line < MAX_CODE_LENGTH - 1)
    (hcount : (scan_line (cstr line) bf).1.bracket_count ≠ 0) :
    brainfuck_eval_line fuel bf w line
      = some (.returned 0 { (scan_line (cstr line) bf).1 with
          code := cstr (scan_line (cstr line) bf).1.code ++ cstr line } w) := by
  have hcode := (scan_line_frame (cstr line) bf).2.2
  unfold brainfuck_eval_line
  rw [if_neg (by rw [hb]; decide)]
  rcases hsc : scan_line (cstr line) bf with ⟨bf1, flag⟩
  rw [hsc] at h hcode hcount
  simp only at h hcode hcount
  subst h
  simp only
  rw [if_neg (by rw [hcode]; omega), if_neg hcount]

theorem eval_line_run (fuel : Nat) (bf : BrainFuck) (w : Streams) (line : List Char)
    (hb : (cstr line).all isspace = false) (h : (scan_line (cstr line) bf).2 = false)
    (hcap : strlen bf.code + strlen line < MAX_CODE_LENGTH - 1)
    (hcount : (scan_line (cstr line) bf).1.bracket_count = 0) :
    brainfuck_eval_line fuel bf w line
      = match (find_brackets (eval_ready bf line)).2 with
        | some e => some (.exited e (find_brackets (eval_ready bf line)).1 w)
        | none =>
          (exec_loop fuel (find_brackets (eval_ready bf line)).1 w).map
            (fun r => EvalOutcome.returned 1 { r.1 with code := [] } r.2) := by
  have hcode := (scan_line_frame (cstr line) bf).2.2
  unfold brainfuck_eval_line eval_ready
  rw [if_neg (by rw [hb]; decide)]
  rcases hsc : scan_line (cstr line) bf with ⟨bf1, flag⟩
  rw [hsc] at h hcode hcount
  simp only at h hcode hcount
  subst h
  simp only
  rw [if_neg (by rw [hcode]; omega), if_pos hcount]
  rcases hfb : find_brackets
    { bf1 with code := cstr bf1.code ++ cstr line, code_pointer := 0 } with ⟨bf3, _ | e⟩
  · simp only
    cases hl : exec_loop fuel bf3 w <;> simp [hl]
  · rfl

theorem exec_loop_stuck (bf : BrainFuck) (hne : char_at bf.code bf.code_pointer ≠ '\x00')
    (hfix : ∀ w, (exec_step bf w).1 = bf) : ∀ fuel w, exec_loop fuel bf w = none := by
  intro fuel
  induction fuel with
  | zero => intro w; exact exec_loop_zero hne
  | succ n ih =>
    intro w
    rw [exec_loop_succ _ hne, hfix]
    exact ih _

/-- C14. A fragment that is empty or holds only whitespace makes `brainfuck_eval_line`
return 0 with the record (code buffer, open-loop count and stack, tape, tape pointer) and
the streams exactly as before. -/
theorem C14_blank_fragment_ignored (fuel : Nat) (bf : BrainFuck) (w : Streams)
    (line : List Char) (h : ∀ c ∈ cstr line, isspace c = true) :
    brainfuck_eval_line fuel bf w line = some (.returned 0 bf w) :=
  eval_line_blank fuel bf w line (List.all_eq_true.mpr h)

/-- Witness of C14: the fragment made of a blank and a tab. -/
theorem C14_blank_fragment_ignored_witness :
    (∀ c ∈ cstr [' ', '\t'], isspace c = true) ∧
    brainfuck_eval_line 0 brainfuck_init ⟨[], []⟩ [' ', '\t']
      = some (.returned 0 brainfuck_init ⟨[], []⟩) :=
  ⟨by decide!, C14_blank_fragment_ignored 0 brainfuck_init ⟨[], []⟩ [' ', '\t'] (by decide!)⟩

/-- C13. When the scan of the fragment meets a `]` while the open-loop count is 0,
`brainfuck_eval_line` returns -1 whatever the budget, the streams are untouched, nothing of
the fragment is appended (the code buffer is as before), the tape and the tape pointer are
as before, and the open-loop count is 0 on return.  A lone `]` submitted to a fresh
interpreter returns -1 and leaves the fresh record as it was. -/
theorem C13_unmatched_close_rejected (fuel : Nat) (bf : BrainFuck) (w : Streams)
    (line : List Char) (h : (scan_line (cstr line) bf).2 = true) :
    (∃ bf', brainfuck_eval_line fuel bf w line = some (.returned (-1) bf' w) ∧
      bf'.code = bf.code ∧ bf'.memory = bf.memory ∧ bf'.pointer = bf.pointer ∧
      bf'.bracket_count = 0) ∧
    brainfuck_eval_line fuel brainfuck_init w [']']
      = some (.returned (-1) brainfuck_init w) := by
  obtain ⟨hp, hm, hc⟩ := scan_line_frame (cstr line) bf
  refine ⟨⟨_, eval_line_unmatched fuel bf w line h, hc, hm, hp, (scan_line_flag _ _ h).1⟩, ?_⟩
  exact eval_line_unmatched fuel brainfuck_init w [']'] (by decide!)

/-- Witness of C13: the fragment `[]]` meets its second `]` with the count back at 0. -/
theorem C13_unmatched_close_rejected_witness :
    (scan_line (cstr ['[', ']', ']']) brainfuck_init).2 = true ∧
    ((∃ bf', brainfuck_eval_line 0 brainfuck_init ⟨[], []⟩ ['[', ']', ']']
        = some (.returned (-1) bf' ⟨[], []⟩) ∧
      bf'.code = brainfuck_init.code ∧ bf'.memory = brainfuck_init.memory ∧
      bf'.pointer = brainfuck_init.pointer ∧ bf'.bracket_count = 0) ∧
    brainfuck_eval_line 0 brainfuck_init ⟨[], []⟩ [']']
      = some (.returned (-1) brainfuck_init ⟨[], []⟩)) :=
  ⟨by decide!, C13_unmatched_close_rejected 0 brainfuck_init ⟨[], []⟩ ['[', ']', ']']
    (by decide!)⟩

theorem spinning_fix {bf : BrainFuck} (h : spinning bf) (w : Streams) :
    (exec_step bf w).1 = bf := by
  obtain ⟨h1, h2, h3⟩ := h
  have e : (exec_command ']' bf w).1 = { bf with code_pointer := bf.brackets bf.code_pointer } := by
    simp [exec_command, h2]
  unfold exec_step
  rw [h1]
  simp only
  rw [e]
  simp only [h3]
  cases bf
  simp

theorem forever_sample_loops : ∀ fuel,
    exec_loop fuel (find_brackets (eval_ready brainfuck_init forever_sample)).1 ⟨[], []⟩
      = none := by
  have h0 : char_at (find_brackets (eval_ready brainfuck_init forever_sample)).1.code
      (find_brackets (eval_ready brainfuck_init forever_sample)).1.code_pointer ≠ '\x00' := by
    decide!
  have h1 : char_at (exec_step (find_brackets (eval_ready brainfuck_init forever_sample)).1
        ⟨[], []⟩).1.code
      (exec_step (find_brackets (eval_ready brainfuck_init forever_sample)).1
        ⟨[], []⟩).1.code_pointer ≠ '\x00' := by
    decide!
  have h2 : spinning (exec_step
      (exec_step (find_brackets (eval_ready brainfuck_init forever_sample)).1 ⟨[], []⟩).1
      (exec_step (find_brackets (eval_ready brainfuck_init forever_sample)).1 ⟨[], []⟩).2).1 := by
    unfold spinning
    decide!
  have h2' : char_at (exec_step
      (exec_step (find_brackets (eval_ready brainfuck_init forever_sample)).1 ⟨[], []⟩).1
      (exec_step (find_brackets (eval_ready brainfuck_init forever_sample)).1 ⟨[], []⟩).2).1.code
      (exec_step
      (exec_step (find_brackets (eval_ready brainfuck_init forever_sample)).1 ⟨[], []⟩).1
      (exec_step (find_brackets (eval_ready brainfuck_init forever_sample)).1
        ⟨[], []⟩).2).1.code_pointer ≠ '\x00' := by
    rw [h2.1]; decide
  intro fuel
  match fuel with
  | 0 => exact exec_loop_zero h0
  | 1 => rw [exec_loop_succ _ h0]; exact exec_loop_zero h1
  | n + 2 =>
    rw [exec_loop_succ _ h0, exec_loop_succ _ h1]
    exact exec_loop_stuck _ h2' (spinning_fix h2) n _

theorem three_fragments (fuel : Nat) (hfuel : 1 ≤ fuel) (w : Streams) :
    ∃ bf', eval_lines fuel brainfuck_init w [['['], ['+'], [']']] = some ([0, 0, 1], bf', w) := by
  have e1 := eval_line_buffered fuel brainfuck_init w ['['] (by decide!) (by decide!)
    (by decide!) (by decide!)
  generalize hB1 : ({ (scan_line (cstr ['[']) brainfuck_init).1 with
    code := cstr (scan_line (cstr ['[']) brainfuck_init).1.code ++ cstr ['['] } : BrainFuck)
    = B1 at e1
  have e2 := eval_line_buffered fuel B1 w ['+'] (by decide!) (by subst hB1; decide!)
    (by subst hB1; decide!) (by subst hB1; decide!)
  generalize hB2 : ({ (scan_line (cstr ['+']) B1).1 with
    code := cstr (scan_line (cstr ['+']) B1).1.code ++ cstr ['+'] } : BrainFuck) = B2 at e2
  have e3 := eval_line_run fuel B2 w [']'] (by decide!) (by subst hB2 hB1; decide!)
    (by subst hB2 hB1; decide!) (by subst hB2 hB1; decide!)
  have hfb : (find_brackets (eval_ready B2 [']'])).2 = none := by subst hB2 hB1; decide!
  have hcomma : ',' ∉ (find_brackets (eval_ready B2 [']'])).1.code := by
    subst hB2 hB1; decide!
  have hrun : (exec_loop 1 (find_brackets (eval_ready B2 [']'])).1 ⟨[], []⟩).map
      (fun r => r.2.stdout) = some [] := by
    subst hB2 hB1; decide!
  rw [hfb] at e3
  simp only at e3
  cases hr : exec_loop 1 (find_brackets (eval_ready B2 [']'])).1 ⟨[], []⟩ with
  | none => rw [hr] at hrun; simp at hrun
  | some r =>
    rw [hr] at hrun
    have hout : r.2.stdout = [] := by simpa using hrun
    obtain ⟨i, o⟩ := w
    rw [exec_loop_frame _ _ i o hcomma, exec_loop_mono _ _ _ _ hr fuel hfuel] at e3
    simp only [Option.map_some', hout, List.append_nil] at e3
    exact ⟨{ r.1 with code := [] }, by simp [eval_lines, e1, e2, e3]⟩

/-- C11, as the code has it. For a non-blank fragment that fits in the buffer and meets no
unmatched `]`: when the open-loop count is nonzero after the scan, the call returns 0 with
the code buffer equal to the old buffer followed by the fragment and the tape and the tape
pointer unchanged; when it is zero, the call never returns 0 or -1, and it returns 1 as soon
as bracket resolution over the accumulated buffer succeeds and the run of that buffer ends
within the budget.  From a fresh interpreter the fragments `[`, `+`, `]` submitted in turn
return 0, 0, 1. -/
theorem C11_execution_gated_by_count (fuel : Nat) (bf : BrainFuck) (w : Streams)
    (line : List Char) (hb : (cstr line).all isspace = false)
    (hscan : (scan_line (cstr line) bf).2 = false)
    (hfit : strlen bf.code + strlen line < MAX_CODE_LENGTH - 1) :
    ((scan_line (cstr line) bf).1.bracket_count ≠ 0 →
      ∃ bf', brainfuck_eval_line fuel bf w line = some (.returned 0 bf' w) ∧
        bf'.code = cstr bf.code ++ cstr line ∧ bf'.memory = bf.memory ∧
        bf'.pointer = bf.pointer) ∧
    ((scan_line (cstr line) bf).1.bracket_count = 0 →
      (∀ ret bf' w', brainfuck_eval_line fuel bf w line = some (.returned ret bf' w') →
        ret = 1) ∧
      (∀ r, (find_brackets (eval_ready bf line)).2 = none →
        exec_loop fuel (find_brackets (eval_ready bf line)).1 w = some r →
        brainfuck_eval_line fuel bf w line
          = some (.returned 1 { r.1 with code := [] } r.2))) ∧
    (1 ≤ fuel → ∃ bf', eval_lines fuel brainfuck_init w [['['], ['+'], [']']]
      = some ([0, 0, 1], bf', w)) := by
  obtain ⟨hp, hm, hc⟩ := scan_line_frame (cstr line) bf
  refine ⟨fun hcount => ?_, fun hcount => ⟨?_, ?_⟩, fun hfuel => three_fragments fuel hfuel w⟩
  · refine ⟨_, eval_line_buffered fuel bf w line hb hscan hfit hcount, ?_, hm, hp⟩
    simp only
    rw [hc]
  · intro ret bf' w' h
    rw [eval_line_run fuel bf w line hb hscan hfit hcount] at h
    cases hfb : (find_brackets (eval_ready bf line)).2 with
    | some e => rw [hfb] at h; simp at h
    | none =>
      rw [hfb] at h
      simp only at h
      cases hl : exec_loop fuel (find_brackets (eval_ready bf line)).1 w with
      | none => rw [hl] at h; simp at h
      | some r =>
        rw [hl] at h
        simp only [Option.map_some', Option.some.injEq, EvalOutcome.returned.injEq] at h
        exact h.1.symm
  · intro r hfb hl
    rw [eval_line_run fuel bf w line hb hscan hfit hcount, hfb]
    simp only
    rw [hl]
    rfl

/-- Witness of C11: the fragment `[-` on a fresh interpreter, with no budget at all. -/
theorem C11_execution_gated_by_count_witness :
    (cstr ['[', '-']).all isspace = false ∧
    (scan_line (cstr ['[', '-']) brainfuck_init).2 = false ∧
    strlen brainfuck_init.code + strlen ['[', '-'] < MAX_CODE_LENGTH - 1 ∧
    ((scan_line (cstr ['[', '-']) brainfuck_init).1.bracket_count ≠ 0 →
      ∃ bf', brainfuck_eval_line 0 brainfuck_init ⟨[], []⟩ ['[', '-']
          = some (.returned 0 bf' ⟨[], []⟩) ∧
        bf'.code = cstr brainfuck_init.code ++ cstr ['[', '-'] ∧
        bf'.memory = brainfuck_init.memory ∧ bf'.pointer = brainfuck_init.pointer) :=
  ⟨by decide!, by decide!, by decide!,
    (C11_execution_gated_by_count 0 brainfuck_init ⟨[], []⟩ ['[', '-'] (by decide!)
      (by decide!) (by decide!)).1⟩

/-- C11 as claimed fails on the fragment `+[]` submitted to a fresh interpreter: it is not
blank, fits, meets no unmatched `]` and leaves the open-loop count at 0, yet the call
returns nothing, whatever the budget: the buffered loop never ends. -/
theorem C11_endless_loop_counterexample :
    (cstr forever_sample).all isspace = false ∧
    (scan_line (cstr forever_sample) brainfuck_init).2 = false ∧
    strlen brainfuck_init.code + strlen forever_sample < MAX_CODE_LENGTH - 1 ∧
    (scan_line (cstr forever_sample) brainfuck_init).1.bracket_count = 0 ∧
    ¬ ∃ fuel out, brainfuck_eval_line fuel brainfuck_init ⟨[], []⟩ forever_sample
        = some out := by
  refine ⟨by decide!, by decide!, by decide!, by decide!, ?_⟩
  rintro ⟨fuel, out, h⟩
  rw [eval_line_run fuel brainfuck_init ⟨[], []⟩ forever_sample (by decide!) (by decide!)
    (by decide!) (by decide!)] at h
  have hfb : (find_brackets (eval_ready brainfuck_init forever_sample)).2 = none := by
    decide!
  rw [hfb] at h
  simp only at h
  rw [forever_sample_loops fuel] at h
  simp at h

/-! ## The open-loop count -/

theorem forall_take_cons (P : List Char → Prop) (a : Char) (l : List Char) :
    (∀ k, P ((a :: l).take k)) ↔ P [] ∧ ∀ k, P (a :: l.take k) := by
  constructor
  · intro h
    exact ⟨h 0, fun k => h (k + 1)⟩
  · rintro ⟨h0, h1⟩ k
    cases k with
    | zero => exact h0
    | succ n => exact h1 n

theorem scan_line_count : ∀ (l : List Char) (bf : BrainFuck), 0 ≤ bf.bracket_count →
    ((scan_line l bf).2 = false ↔
      ∀ k, ((l.take k).count ']' : Int) ≤ bf.bracket_count + ((l.take k).count '[' : Int)) ∧
    ((scan_line l bf).2 = false →
      (scan_line l bf).1.bracket_count
        = bf.bracket_count + (l.count '[' : Int) - (l.count ']' : Int)) := by
  intro l
  induction l with
  | nil =>
    intro bf h0
    simp [scan_line, h0]
  | cons c rest ih =>
    intro bf h0
    rw [forall_take_cons (fun s => ((s.count ']' : Nat) : Int)
      ≤ bf.bracket_count + ((s.count '[' : Nat) : Int))]
    by_cases h1 : c = '['
    · subst h1
      have e : scan_line ('[' :: rest) bf = scan_line rest { bf with
          bracket_stack := store bf.bracket_stack bf.bracket_count (strlen bf.code : Int),
          bracket_count := bf.bracket_count + 1 } := by
        simp [scan_line]
      obtain ⟨ih1, ih2⟩ := ih { bf with
          bracket_stack := store bf.bracket_stack bf.bracket_count (strlen bf.code : Int),
          bracket_count := bf.bracket_count + 1 } (by simp only; omega)
      rw [e]
      simp only at ih1 ih2
      constructor
      · rw [ih1]
        constructor
        · intro h
          refine ⟨by simpa using h0, fun k => ?_⟩
          have := h k
          simp [List.count_cons]
          omega
        · rintro ⟨_, h⟩ k
          have := h k
          simp [List.count_cons] at this
          omega
      · intro hf
        rw [ih2 hf]
        simp [List.count_cons]
        omega
    · by_cases h2 : c = ']'
      · subst h2
        by_cases h3 : bf.bracket_count = 0
        · have e : scan_line (']' :: rest) bf = (bf, true) := by
            simp [scan_line, h3]
          rw [e]
          constructor
          · constructor
            · intro h; simp at h
            · rintro ⟨_, h⟩
              have := h 0
              simp [List.count_cons, h3] at this
          · intro h; simp at h
        · have e : scan_line (']' :: rest) bf
              = scan_line rest { bf with bracket_count := bf.bracket_count - 1 } := by
            simp [scan_line, h3]
          obtain ⟨ih1, ih2⟩ := ih { bf with bracket_count := bf.bracket_count - 1 }
            (by simp only; omega)
          rw [e]
          simp only at ih1 ih2
          constructor
          · rw [ih1]
            constructor
            · intro h
              refine ⟨by simpa using h0, fun k => ?_⟩
              have := h k
              simp [List.count_cons]
              omega
            · rintro ⟨_, h⟩ k
              have := h k
              simp [List.count_cons] at this
              omega
          · intro hf
            rw [ih2 hf]
            simp [List.count_cons]
            omega
      · have e : scan_line (c :: rest) bf = scan_line rest bf := by
          simp [scan_line, h1, h2]
        obtain ⟨ih1, ih2⟩ := ih bf h0
        rw [e]
        constructor
        · rw [ih1]
          constructor
          · intro h
            refine ⟨by simpa using h0, fun k => ?_⟩
            have := h k
            simpa [List.count_cons, h1, h2] using this
          · rintro ⟨_, h⟩ k
            have := h k
            simpa [List.count_cons, h1, h2] using this
        · intro hf
          rw [ih2 hf]
          simp [List.count_cons, h1, h2]

theorem cstr_of_no_nul {l : List Char} (h : ∀ c ∈ l, c ≠ '\x00') : cstr l = l := by
  unfold cstr
  rw [List.takeWhile_eq_self_iff]
  intro c hc
  simpa using h c hc

theorem cstr_append_cstr (a b : List Char) : cstr (cstr a ++ cstr b) = cstr a ++ cstr b := by
  apply cstr_of_no_nul
  intro c hc
  rcases List.mem_append.mp hc with h | h
  · exact cstr_no_nul a c h
  · exact cstr_no_nul b c h

theorem cstr_cstr (a : List Char) : cstr (cstr a) = cstr a :=
  cstr_of_no_nul (cstr_no_nul a)

theorem find_brackets_counts (bf : BrainFuck) :
    (find_brackets bf).1.bracket_count = bf.bracket_count ∧
    (find_brackets bf).1.bracket_stack = bf.bracket_stack := by
  unfold find_brackets
  rcases find_loop bf.code 0 [] (fun _ => -1) with ⟨br, e | st⟩
  · exact ⟨rfl, rfl⟩
  · cases st <;> exact ⟨rfl, rfl⟩

theorem exec_command_counts (c : Char) (bf : BrainFuck) (w : Streams) :
    (exec_command c bf w).1.bracket_count = bf.bracket_count ∧
    (exec_command c bf w).1.bracket_stack = bf.bracket_stack ∧
    (exec_command c bf w).1.brackets = bf.brackets := by
  unfold exec_command
  split_ifs <;> exact ⟨rfl, rfl, rfl⟩

theorem exec_loop_counts : ∀ (fuel : Nat) (bf : BrainFuck) (w : Streams)
    (r : BrainFuck × Streams), exec_loop fuel bf w = some r →
    r.1.bracket_count = bf.bracket_count ∧ r.1.bracket_stack = bf.bracket_stack ∧
    r.1.brackets = bf.brackets ∧ r.1.code = bf.code := by
  intro fuel
  induction fuel with
  | zero =>
    intro bf w r h
    by_cases hend : char_at bf.code bf.code_pointer = '\x00'
    · rw [exec_loop_done _ hend] at h
      cases h
      exact ⟨rfl, rfl, rfl, rfl⟩
    · rw [exec_loop_zero hend] at h; exact absurd h (by simp)
  | succ n ih =>
    intro bf w r h
    by_cases hend : char_at bf.code bf.code_pointer = '\x00'
    · rw [exec_loop_done _ hend] at h
      cases h
      exact ⟨rfl, rfl, rfl, rfl⟩
    · rw [exec_loop_succ _ hend] at h
      obtain ⟨h1, h2, h3, h4⟩ := ih _ _ r h
      obtain ⟨c1, c2, c3⟩ := exec_command_counts (char_at bf.code bf.code_pointer) bf w
      exact ⟨h1.trans c1, h2.trans c2, h3.trans c3, h4.trans (exec_step_code bf w)⟩

theorem find_brackets_ok_of_balanced (bf : BrainFuck) (h : Balanced (cstr bf.code)) :
    (find_brackets bf).2 = none := by
  rcases find_brackets_cases bf with ⟨br, he, _, _⟩ | ⟨br, top, r, he, _, hS, _⟩ |
    ⟨br, p0, he, hp, hb⟩
  · rw [he]
  · have hcount := (stackOK_counts _ _ hS).2
    simp only [List.length_cons] at hcount
    have := h.1
    omega
  · exact absurd h.2 (badClose_not_prefixOK ⟨hp, hb.1⟩)

theorem countOK_nonneg {bf : BrainFuck} (h : CountOK bf) : 0 ≤ bf.bracket_count := by
  have := h.2 (cstr bf.code).length
  rw [List.take_length] at this
  rw [h.1]
  omega

/-- The five ways through `brainfuck_eval_line`. -/
theorem eval_line_cases (fuel : Nat) (bf : BrainFuck) (w : Streams) (line : List Char) :
    brainfuck_eval_line fuel bf w line = some (.returned 0 bf w) ∨
    brainfuck_eval_line fuel bf w line = some (.returned (-1) (scan_line (cstr line) bf).1 w) ∨
    ((scan_line (cstr line) bf).2 = false ∧
      strlen bf.code + strlen line < MAX_CODE_LENGTH - 1 ∧
      (scan_line (cstr line) bf).1.bracket_count ≠ 0 ∧
      brainfuck_eval_line fuel bf w line
        = some (.returned 0 { (scan_line (cstr line) bf).1 with
            code := cstr (scan_line (cstr line) bf).1.code ++ cstr line } w)) ∨
    ((scan_line (cstr line) bf).2 = false ∧
      strlen bf.code + strlen line < MAX_CODE_LENGTH - 1 ∧
      (scan_line (cstr line) bf).1.bracket_count = 0 ∧
      brainfuck_eval_line fuel bf w line
        = match (find_brackets (eval_ready bf line)).2 with
          | some e => some (.exited e (find_brackets (eval_ready bf line)).1 w)
          | none =>
            (exec_loop fuel (find_brackets (eval_ready bf line)).1 w).map
              (fun r => EvalOutcome.returned 1 { r.1 with code := [] } r.2)) := by
  by_cases hb : (cstr line).all isspace = true
  · exact Or.inl (eval_line_blank fuel bf w line hb)
  · have hb' : (cstr line).all isspace = false := by simpa using hb
    by_cases hflag : (scan_line (cstr line) bf).2 = true
    · exact Or.inr (Or.inl (eval_line_unmatched fuel bf w line hflag))
    · have hflag' : (scan_line (cstr line) bf).2 = false := by simpa using hflag
      by_cases hcap : strlen bf.code + strlen line < MAX_CODE_LENGTH - 1
      · by_cases hcount : (scan_line (cstr line) bf).1.bracket_count = 0
        · exact Or.inr (Or.inr (Or.inr ⟨hflag', hcap, hcount,
            eval_line_run fuel bf w line hb' hflag' hcap hcount⟩))
        · exact Or.inr (Or.inr (Or.inl ⟨hflag', hcap, hcount,
            eval_line_buffered fuel bf w line hb' hflag' hcap hcount⟩))
      · exact Or.inr (Or.inl (eval_line_capacity fuel bf w line hb' hflag' (by omega)))

/-- After a successful scan the accumulated buffer agrees with the new count. -/
theorem countOK_append (bf : BrainFuck) (line : List Char) (h : CountOK bf)
    (hflag : (scan_line (cstr line) bf).2 = false) (bf' : BrainFuck)
    (hcode : bf'.code = cstr (scan_line (cstr line) bf).1.code ++ cstr line)
    (hcount : bf'.bracket_count = (scan_line (cstr line) bf).1.bracket_count) :
    CountOK bf' := by
  obtain ⟨h1, h2⟩ := scan_line_count (cstr line) bf (countOK_nonneg h)
  have hpre := h1.mp hflag
  have hcnt := h2 hflag
  have hc := (scan_line_frame (cstr line) bf).2.2
  rw [hc] at hcode
  unfold CountOK
  rw [hcode, cstr_append_cstr, hcount, hcnt, h.1]
  constructor
  · simp [List.count_append]
    omega
  · intro k
    rw [List.take_append_eq_append_take, List.count_append, List.count_append]
    have hA := h.2 k
    have hL := hpre (k - (cstr bf.code).length)
    rw [h.1] at hL
    by_cases hk : k ≤ (cstr bf.code).length
    · have e0 : k - (cstr bf.code).length = 0 := by omega
      simp [e0]
      exact hA
    · have hfull : (cstr bf.code).take k = cstr bf.code := List.take_of_length_le (by omega)
      rw [hfull] at hA ⊢
      omega

theorem countOK_empty {bf : BrainFuck} (h1 : bf.code = []) (h2 : bf.bracket_count = 0) :
    CountOK bf := by
  unfold CountOK
  rw [h1, h2]
  exact ⟨by simp [cstr], by simpa [cstr] using prefixOK_nil⟩

theorem countOK_eval_ready (bf : BrainFuck) (line : List Char) (h : CountOK bf)
    (hflag : (scan_line (cstr line) bf).2 = false)
    (hcount : (scan_line (cstr line) bf).1.bracket_count = 0) :
    (find_brackets (eval_ready bf line)).2 = none := by
  have hok := countOK_append bf line h hflag (eval_ready bf line) rfl rfl
  apply find_brackets_ok_of_balanced
  refine ⟨?_, hok.2⟩
  have h1 := hok.1
  have h2 : (eval_ready bf line).bracket_count = 0 := hcount
  rw [h2] at h1
  omega

theorem reachable_countOK (ok : List Char → Prop) (bf : BrainFuck) (h : Reachable ok bf) :
    CountOK bf := by
  induction h with
  | init => exact countOK_empty rfl rfl
  | call bf fuel w line ret bf' w' _ _ heq ih =>
    rcases eval_line_cases fuel bf w line with h1 | h1 | ⟨hflag, _, _, h1⟩ |
      ⟨hflag, _, hcount, h1⟩
    · rw [h1] at heq
      simp only [Option.some.injEq, EvalOutcome.returned.injEq] at heq
      obtain ⟨hr, hb, _⟩ := heq
      subst hr hb
      exact ih
    · rw [h1] at heq
      simp only [Option.some.injEq, EvalOutcome.returned.injEq] at heq
      obtain ⟨hr, hb, _⟩ := heq
      subst hr hb
      exact countOK_empty rfl rfl
    · rw [h1] at heq
      simp only [Option.some.injEq, EvalOutcome.returned.injEq] at heq
      obtain ⟨hr, hb, _⟩ := heq
      subst hr hb
      exact countOK_append bf line ih hflag _ rfl rfl
    · rw [h1, countOK_eval_ready bf line ih hflag hcount] at heq
      simp only at heq
      cases hl : exec_loop fuel (find_brackets (eval_ready bf line)).1 w with
      | none => rw [hl] at heq; simp at heq
      | some r =>
        rw [hl] at heq
        simp only [Option.map_some', Option.some.injEq, EvalOutcome.returned.injEq] at heq
        obtain ⟨hr, hb, _⟩ := heq
        subst hr hb
        have hc := (exec_loop_counts _ _ _ r hl).1
        rw [(find_brackets_counts _).1] at hc
        have hz : r.1.bracket_count = 0 := hc.trans hcount
        have hreset : repl_reset 1 { r.1 with code := [] } = { r.1 with code := [] } := by
          simp [repl_reset]
        rw [hreset]
        exact countOK_empty rfl hz

theorem countOK_never_exits (bf : BrainFuck) (h : CountOK bf) (fuel : Nat) (w : Streams)
    (line : List Char) (e : BracketError) (bf' : BrainFuck) (w' : Streams) :
    brainfuck_eval_line fuel bf w line ≠ some (.exited e bf' w') := by
  intro heq
  rcases eval_line_cases fuel bf w line with h1 | h1 | ⟨_, _, _, h1⟩ | ⟨hflag, _, hcount, h1⟩
  · rw [h1] at heq; simp at heq
  · rw [h1] at heq; simp at heq
  · rw [h1] at heq; simp at heq
  · rw [h1, countOK_eval_ready bf line h hflag hcount] at heq
    simp only at heq
    cases hl : exec_loop fuel (find_brackets (eval_ready bf line)).1 w with
    | none => rw [hl] at heq; simp at heq
    | some r => rw [hl] at heq; simp at heq

theorem two_open_reachable (ok : List Char → Prop) (h : ok ['[', '[']) :
    Reachable ok two_open_sample := by
  have e := eval_line_buffered 0 brainfuck_init ⟨[], []⟩ ['[', '['] (by decide!) (by decide!)
    (by decide!) (by decide!)
  have := Reachable.call brainfuck_init 0 ⟨[], []⟩ ['[', '['] 0 _ ⟨[], []⟩ Reachable.init h e
  simpa [repl_reset] using this

/-- C18. In every record reachable from `brainfuck_init` through calls of
`brainfuck_eval_line` (on any lines, with any streams), each followed by the reset of the
REPL after the result -1, `bracket_count` is the number of `[` minus the number of `]` in
the code buffer and no prefix of the buffer has more `]` than `[`; and no call of
`brainfuck_eval_line` from such a record ends inside `find_brackets` with an
unmatched-bracket error. -/
theorem C18_count_agrees_with_buffer (bf : BrainFuck) (h : Reachable (fun _ => True) bf) :
    bf.bracket_count
      = ((cstr bf.code).count '[' : Int) - ((cstr bf.code).count ']' : Int) ∧
    (∀ k, ((cstr bf.code).take k).count ']' ≤ ((cstr bf.code).take k).count '[') ∧
    (∀ fuel w line e bf' w', brainfuck_eval_line fuel bf w line ≠ some (.exited e bf' w')) := by
  have hok := reachable_countOK _ bf h
  exact ⟨hok.1, hok.2, fun fuel w line e bf' w' =>
    countOK_never_exits bf hok fuel w line e bf' w'⟩

/-- Witness of C18: the record of a session after the fragment `[[`. -/
theorem C18_count_agrees_with_buffer_witness :
    Reachable (fun _ => True) two_open_sample ∧
    (two_open_sample.bracket_count
      = ((cstr two_open_sample.code).count '[' : Int)
        - ((cstr two_open_sample.code).count ']' : Int) ∧
    (∀ k, ((cstr two_open_sample.code).take k).count ']'
        ≤ ((cstr two_open_sample.code).take k).count '[') ∧
    (∀ fuel w line e bf' w',
      brainfuck_eval_line fuel two_open_sample w line ≠ some (.exited e bf' w'))) :=
  ⟨two_open_reachable _ trivial,
    C18_count_agrees_with_buffer two_open_sample (two_open_reachable _ trivial)⟩

/-! ## Lines of openers -/

theorem open_line_no_nul (n : Nat) : ∀ c ∈ open_line n, c ≠ '\x00' := by
  intro c hc
  have := List.eq_of_mem_replicate hc
  rw [this]
  decide

theorem cstr_open_line (n : Nat) : cstr (open_line n) = open_line n :=
  cstr_of_no_nul (open_line_no_nul n)

theorem length_open_line (n : Nat) : (open_line n).length = n := by
  unfold open_line
  exact List.length_replicate _ _

theorem strlen_open_line (n : Nat) : strlen (open_line n) = n := by
  unfold strlen
  rw [cstr_open_line, length_open_line]

theorem open_line_not_blank (n : Nat) (hn : 0 < n) :
    (cstr (open_line n)).all isspace = false := by
  rw [cstr_open_line, Bool.eq_false_iff]
  intro hall
  have hmem : '[' ∈ open_line n := by
    unfold open_line
    exact List.mem_replicate.mpr ⟨by omega, rfl⟩
  exact absurd (List.all_eq_true.mp hall _ hmem) (by decide)

theorem scan_open_line (n : Nat) (bf : BrainFuck) (h0 : 0 ≤ bf.bracket_count) :
    (scan_line (open_line n) bf).2 = false ∧
    (scan_line (open_line n) bf).1.bracket_count = bf.bracket_count + n := by
  obtain ⟨h1, h2⟩ := scan_line_count (open_line n) bf h0
  have hflag : (scan_line (open_line n) bf).2 = false := by
    rw [h1]
    intro k
    have e : ']' ≠ '[' := by decide
    have : ((open_line n).take k).count ']' = 0 := by
      unfold open_line
      rw [List.take_replicate, List.count_replicate]
      simp
    rw [this]
    simp only [Int.Nat.cast_ofNat_Int]
    omega
  refine ⟨hflag, ?_⟩
  rw [h2 hflag]
  have c1 : (open_line n).count '[' = n := by
    unfold open_line
    rw [List.count_replicate]
    simp
  have c2 : (open_line n).count ']' = 0 := by
    unfold open_line
    rw [List.count_replicate]
    simp
  rw [c1, c2]
  simp

theorem scan_writes_open_line : ∀ (n : Nat) (bf : BrainFuck) (j : Nat), j < n →
    bf.bracket_count + (j : Int) ∈ scan_writes (open_line n) bf := by
  intro n
  induction n with
  | zero => intro bf j hj; omega
  | succ m ih =>
    intro bf j hj
    have e : open_line (m + 1) = '[' :: open_line m := by
      unfold open_line
      rw [List.replicate_succ]
    rw [e]
    simp only [scan_writes, if_true]
    cases j with
    | zero => simp
    | succ i =>
      refine List.mem_cons_of_mem _ ?_
      have := ih { bf with
        bracket_stack := store bf.bracket_stack bf.bracket_count (strlen bf.code : Int),
        bracket_count := bf.bracket_count + 1 } i (by omega)
      simp only at this
      have e2 : bf.bracket_count + ((i + 1 : Nat) : Int) = bf.bracket_count + 1 + (i : Int) := by
        push_cast; ring
      rw [e2]
      exact this

/-- After `k` lines of `n` openers each, as long as they fit, a session holds `n * k`
openers in its buffer and as many in its count. -/
theorem open_lines_reachable (ok : List Char → Prop) (n : Nat) (hn : 0 < n)
    (hok : ok (open_line n)) : ∀ k, n * k < MAX_CODE_LENGTH - 1 →
    ∃ bf, Reachable ok bf ∧ cstr bf.code = open_line (n * k) ∧
      bf.bracket_count = ((n * k : Nat) : Int) := by
  intro k
  induction k with
  | zero =>
    intro _
    exact ⟨brainfuck_init, Reachable.init, by simp [cstr, brainfuck_init, open_line],
      by simp [brainfuck_init]⟩
  | succ k ih =>
    intro hk
    obtain ⟨bf, hr, hcode, hcount⟩ := ih (by
      have : n * k ≤ n * (k + 1) := Nat.mul_le_mul_left n (by omega)
      omega)
    have h0 : 0 ≤ bf.bracket_count := by rw [hcount]; omega
    obtain ⟨hflag, hcnt⟩ := scan_open_line n bf h0
    have hlen : strlen bf.code = n * k := by
      unfold strlen
      rw [hcode, length_open_line]
    have hflag' : (scan_line (cstr (open_line n)) bf).2 = false := by
      rw [cstr_open_line]; exact hflag
    have hcnt' : (scan_line (cstr (open_line n)) bf).1.bracket_count = bf.bracket_count + n := by
      rw [cstr_open_line]; exact hcnt
    have e := eval_line_buffered 0 bf ⟨[], []⟩ (open_line n) (open_line_not_blank n hn)
      hflag' (by rw [hlen, strlen_open_line]; rw [Nat.mul_succ] at hk; exact hk)
      (by rw [hcnt', hcount]; omega)
    have hr' := Reachable.call bf 0 ⟨[], []⟩ (open_line n) 0 _ ⟨[], []⟩ hr hok e
    refine ⟨_, hr', ?_, ?_⟩
    · simp only [repl_reset]
      rw [if_neg (by decide)]
      simp only
      rw [(scan_line_frame (cstr (open_line n)) bf).2.2, cstr_append_cstr, hcode,
        cstr_open_line]
      unfold open_line
      rw [List.append_replicate_replicate, Nat.mul_succ]
    · simp only [repl_reset]
      rw [if_neg (by decide)]
      simp only
      rw [hcnt', hcount, Nat.mul_succ]
      push_cast
      ring

/-- C20 fails on the code. After 977 lines of 1023 openers each, all of them buffered, a
session holds 999471 open loops; the scan of one more such line (shorter than
`MAX_LINE_LENGTH`) writes `bracket_stack[i]` for an index `i` that is not below
`MAX_CODE_LENGTH`, and only then does the capacity check reject the line. -/
theorem C20_open_loop_stack_overflows :
    ∃ bf, Reachable (fun l => strlen l < MAX_LINE_LENGTH) bf ∧
      strlen (open_line 1023) < MAX_LINE_LENGTH ∧
      (∃ i ∈ scan_writes (cstr (open_line 1023)) bf, (MAX_CODE_LENGTH : Int) ≤ i) ∧
      ∀ fuel w, ∃ bf', brainfuck_eval_line fuel bf w (open_line 1023)
        = some (.returned (-1) bf' w) := by
  have hshort : strlen (open_line 1023) < MAX_LINE_LENGTH := by
    rw [strlen_open_line]; decide
  obtain ⟨bf, hr, hcode, hcount⟩ := open_lines_reachable
    (fun l => strlen l < MAX_LINE_LENGTH) 1023 (by decide) hshort 977 (by decide)
  have h0 : 0 ≤ bf.bracket_count := by rw [hcount]; omega
  refine ⟨bf, hr, hshort, ⟨bf.bracket_count + ((1022 : Nat) : Int), ?_, ?_⟩, ?_⟩
  · rw [cstr_open_line]
    exact scan_writes_open_line 1023 bf 1022 (by decide)
  · rw [hcount]
    simp [MAX_CODE_LENGTH]
  · intro fuel w
    have hlen : strlen bf.code = 1023 * 977 := by
      unfold strlen
      rw [hcode, length_open_line]
    refine ⟨_, eval_line_capacity fuel bf w (open_line 1023)
      (open_line_not_blank 1023 (by decide)) ?_ ?_⟩
    · rw [cstr_open_line]; exact (scan_open_line 1023 bf h0).1
    · rw [hlen, strlen_open_line]; decide

/-! ## The fields used only by the incremental protocol -/

theorem exec_command_stack (cmd : Char) (a : BrainFuck) (S : Int → Int) (c : Int)
    (w : Streams) :
    exec_command cmd { a with bracket_stack := S, bracket_count := c } w
      = ({ (exec_command cmd a w).1 with bracket_stack := S, bracket_count := c },
          (exec_command cmd a w).2) := by
  by_cases h1 : cmd = '>'
  · subst h1; simp [exec_command]; split_ifs <;> rfl
  by_cases h2 : cmd = '<'
  · subst h2; simp [exec_command]; split_ifs <;> rfl
  by_cases h3 : cmd = '+'
  · subst h3; simp [exec_command]
  by_cases h4 : cmd = '-'
  · subst h4; simp [exec_command]
  by_cases h5 : cmd = '.'
  · subst h5; simp [exec_command]
  by_cases h6 : cmd = ','
  · subst h6; simp [exec_command]
  by_cases h7 : cmd = '['
  · subst h7; simp [exec_command]; split_ifs <;> rfl
  by_cases h8 : cmd = ']'
  · subst h8; simp [exec_command]; split_ifs <;> rfl
  simp [exec_command, h1, h2, h3, h4, h5, h6, h7, h8]

theorem exec_step_stack (a : BrainFuck) (S : Int → Int) (c : Int) (w : Streams) :
    exec_step { a with bracket_stack := S, bracket_count := c } w
      = ({ (exec_step a w).1 with bracket_stack := S, bracket_count := c },
          (exec_step a w).2) := by
  unfold exec_step
  simp only
  rw [exec_command_stack]

theorem exec_loop_stack : ∀ (fuel : Nat) (a : BrainFuck) (S : Int → Int) (c : Int)
    (w : Streams), exec_loop fuel { a with bracket_stack := S, bracket_count := c } w
      = (exec_loop fuel a w).map
          (fun r => ({ r.1 with bracket_stack := S, bracket_count := c }, r.2)) := by
  intro fuel
  induction fuel with
  | zero =>
    intro a S c w
    by_cases hend : char_at a.code a.code_pointer = '\x00'
    · rw [exec_loop_done _ hend, exec_loop_done _ (by exact hend)]; rfl
    · rw [exec_loop_zero hend, exec_loop_zero (by exact hend)]; rfl
  | succ n ih =>
    intro a S c w
    by_cases hend : char_at a.code a.code_pointer = '\x00'
    · rw [exec_loop_done _ hend, exec_loop_done _ (by exact hend)]; rfl
    · rw [exec_loop_succ _ hend, exec_loop_succ _ (by exact hend), exec_step_stack]
      exact ih _ S c _

theorem find_brackets_stack (a : BrainFuck) (S : Int → Int) (c : Int) :
    find_brackets { a with bracket_stack := S, bracket_count := c }
      = ({ (find_brackets a).1 with bracket_stack := S, bracket_count := c },
          (find_brackets a).2) := by
  unfold find_brackets
  simp only
  rcases find_loop a.code 0 [] (fun _ => -1) with ⟨br, e | st⟩
  · rfl
  · cases st <;> rfl

theorem scan_line_record : ∀ (l : List Char) (bf : BrainFuck),
    ∃ S c, (scan_line l bf).1 = { bf with bracket_stack := S, bracket_count := c } := by
  intro l
  induction l with
  | nil => intro bf; exact ⟨bf.bracket_stack, bf.bracket_count, rfl⟩
  | cons ch rest ih =>
    intro bf
    unfold scan_line
    split_ifs
    · obtain ⟨S, c, h⟩ := ih { bf with
        bracket_stack := store bf.bracket_stack bf.bracket_count (strlen bf.code : Int),
        bracket_count := bf.bracket_count + 1 }
      exact ⟨S, c, h⟩
    · exact ⟨bf.bracket_stack, bf.bracket_count, rfl⟩
    · obtain ⟨S, c, h⟩ := ih { bf with bracket_count := bf.bracket_count - 1 }
      exact ⟨S, c, h⟩
    · exact ih bf

/-! ## Fragments against a balanced whole -/

theorem concat_fragments_append (a b : List (List Char)) :
    concat_fragments (a ++ b) = concat_fragments a ++ concat_fragments b := by
  induction a with
  | nil => rfl
  | cons f fs ih => simp [concat_fragments, ih]

theorem concat_fragments_no_nul : ∀ (fs : List (List Char)),
    ∀ c ∈ concat_fragments fs, c ≠ '\x00' := by
  intro fs
  induction fs with
  | nil => intro c hc; simp [concat_fragments] at hc
  | cons f fs ih =>
    intro c hc
    rcases List.mem_append.mp hc with h | h
    · exact cstr_no_nul f c h
    · exact ih c h

theorem scan_ok_of_prefix (bf : BrainFuck) (L R : List Char) (h : CountOK bf)
    (hpre : PrefixOK (cstr bf.code ++ (L ++ R))) :
    (scan_line L bf).2 = false ∧
    (scan_line L bf).1.bracket_count
      = (((cstr bf.code ++ L).count '[' : Nat) : Int) - (((cstr bf.code ++ L).count ']' : Nat) : Int) := by
  obtain ⟨h1, h2⟩ := scan_line_count L bf (countOK_nonneg h)
  have key : ∀ k, k ≤ L.length →
      ((L.take k).count ']' : Int) ≤ bf.bracket_count + ((L.take k).count '[' : Int) := by
    intro k hk
    have := hpre ((cstr bf.code).length + k)
    rw [List.take_append, List.take_append_of_le_length hk, List.count_append,
      List.count_append] at this
    rw [h.1]
    omega
  have hflag : (scan_line L bf).2 = false := by
    rw [h1]
    intro k
    by_cases hk : k ≤ L.length
    · exact key k hk
    · have hfull : L.take k = L := List.take_of_length_le (by omega)
      have := key L.length (Nat.le_refl _)
      rw [List.take_length] at this
      rw [hfull]
      exact this
  refine ⟨hflag, ?_⟩
  rw [h2 hflag, h.1, List.count_append, List.count_append]
  push_cast
  ring

theorem balanced_of_find_brackets (bf : BrainFuck) (h : (find_brackets bf).2 = none) :
    Balanced (cstr bf.code) := by
  rcases find_brackets_cases bf with ⟨br, he, hS, _⟩ | ⟨br, top, r, he, _, _, _⟩ |
    ⟨br, p0, he, _, _⟩
  · exact hS
  · rw [he] at h; simp at h
  · rw [he] at h; simp at h

theorem run_with_stack (fuel : Nat) (a : BrainFuck) (S : Int → Int) (c : Int) (w : Streams) :
    exec_loop fuel (find_brackets { a with bracket_stack := S, bracket_count := c }).1 w
      = (exec_loop fuel (find_brackets a).1 w).map
          (fun r => ({ r.1 with bracket_stack := S, bracket_count := c }, r.2)) := by
  rw [find_brackets_stack]
  exact exec_loop_stack fuel _ S c w

theorem eval_lines_cons_returned (fuel : Nat) (bf : BrainFuck) (w : Streams)
    (line : List Char) (rest : List (List Char)) (ret : Int) (bf1 : BrainFuck) (w1 : Streams)
    (h : brainfuck_eval_line fuel bf w line = some (.returned ret bf1 w1)) :
    eval_lines fuel bf w (line :: rest)
      = (eval_lines fuel bf1 w1 rest).map (fun r => (ret :: r.1, r.2)) := by
  simp only [eval_lines, h]

/-- Fragments whose concatenation (after what the buffer already holds) is balanced, fits
and is never balanced before its end are buffered one after the other, and the last call
runs the whole. -/
theorem eval_lines_session (fuel : Nat) (w : Streams) (last : List Char) :
    ∀ (frags : List (List Char)) (bf : BrainFuck) (r : BrainFuck × Streams),
    CountOK bf →
    (∀ f ∈ frags ++ [last], (cstr f).all isspace = false) →
    (cstr bf.code ++ concat_fragments (frags ++ [last])).length < MAX_CODE_LENGTH - 1 →
    Balanced (cstr bf.code ++ concat_fragments (frags ++ [last])) →
    (∀ k, 0 < k → k ≤ frags.length →
      (cstr bf.code ++ concat_fragments (frags.take k)).count '['
        ≠ (cstr bf.code ++ concat_fragments (frags.take k)).count ']') →
    exec_loop fuel (find_brackets { bf with
        code := cstr bf.code ++ concat_fragments (frags ++ [last]), code_pointer := 0 }).1 w
      = some r →
    ∃ bf', eval_lines fuel bf w (frags ++ [last])
        = some (List.replicate frags.length 0 ++ [1], bf', r.2) ∧
      bf'.memory = r.1.memory ∧ bf'.pointer = r.1.pointer ∧ bf'.code = [] ∧
      bf'.bracket_count = 0 := by
  intro frags
  induction frags with
  | nil =>
    intro bf r hok hnb hfit hbal _ hrun
    have hT : concat_fragments ([] ++ [last]) = cstr last := by
      simp [concat_fragments]
    rw [hT] at hfit hbal hrun
    obtain ⟨hflag, hcnt⟩ := scan_ok_of_prefix bf (cstr last) [] hok (by simpa using hbal.2)
    have hzero : (scan_line (cstr last) bf).1.bracket_count = 0 := by
      rw [hcnt]
      have := hbal.1
      omega
    have hcap : strlen bf.code + strlen last < MAX_CODE_LENGTH - 1 := by
      unfold strlen
      simpa using hfit
    obtain ⟨S, c, hrec⟩ := scan_line_record (cstr last) bf
    have hc0 : c = 0 := by
      rw [hrec] at hzero
      exact hzero
    obtain ⟨X, hX⟩ : ∃ X : BrainFuck,
        X = { bf with code := cstr bf.code ++ cstr last, code_pointer := 0 } := ⟨_, rfl⟩
    rw [← hX] at hrun
    have hready : eval_ready bf last = { X with bracket_stack := S, bracket_count := c } := by
      unfold eval_ready
      rw [hrec, hX]
    have hfb := countOK_eval_ready bf last hok hflag hzero
    have he := eval_line_run fuel bf w last (hnb last (by simp)) hflag hcap hzero
    rw [hfb] at he
    simp only at he
    rw [hready, run_with_stack, hrun] at he
    simp only [Option.map_some'] at he
    obtain ⟨F, hF⟩ : ∃ F : BrainFuck, F = { ({ r.1 with
        bracket_stack := S, bracket_count := c } : BrainFuck) with code := [] } := ⟨_, rfl⟩
    rw [← hF] at he
    refine ⟨F, ?_, ?_⟩
    · rw [List.nil_append, eval_lines_cons_returned fuel bf w last [] 1 _ _ he]
      simp [eval_lines]
    · rw [hF]
      exact ⟨rfl, rfl, rfl, hc0⟩
  | cons f frags ih =>
    intro bf r hok hnb hfit hbal hopen hrun
    have hT : concat_fragments (f :: frags ++ [last])
        = cstr f ++ concat_fragments (frags ++ [last]) := rfl
    rw [hT] at hfit hbal hrun
    obtain ⟨hflag, hcnt⟩ := scan_ok_of_prefix bf (cstr f) (concat_fragments (frags ++ [last]))
      hok hbal.2
    have hnz : (scan_line (cstr f) bf).1.bracket_count ≠ 0 := by
      rw [hcnt]
      have := hopen 1 (by omega) (by simp)
      simp only [List.take_succ_cons, List.take_zero, concat_fragments,
        List.append_nil] at this
      omega
    have hcap : strlen bf.code + strlen f < MAX_CODE_LENGTH - 1 := by
      unfold strlen
      simp only [List.length_append] at hfit
      omega
    obtain ⟨S, c, hrec⟩ := scan_line_record (cstr f) bf
    have he := eval_line_buffered fuel bf w f (hnb f (by simp)) hflag hcap hnz
    have hcode1 : cstr (cstr (scan_line (cstr f) bf).1.code ++ cstr f) = cstr bf.code ++ cstr f := by
      rw [(scan_line_frame (cstr f) bf).2.2, cstr_append_cstr]
    have hok1 := countOK_append bf f hok hflag
      { (scan_line (cstr f) bf).1 with code := cstr (scan_line (cstr f) bf).1.code ++ cstr f }
      rfl rfl
    obtain ⟨X, hX⟩ : ∃ X : BrainFuck, X = { bf with
        code := cstr bf.code ++ (cstr f ++ concat_fragments (frags ++ [last])),
        code_pointer := 0 } := ⟨_, rfl⟩
    rw [← hX] at hrun
    obtain ⟨B1, hB1⟩ : ∃ B1 : BrainFuck, B1 = { (scan_line (cstr f) bf).1 with
        code := cstr (scan_line (cstr f) bf).1.code ++ cstr f } := ⟨_, rfl⟩
    rw [← hB1] at he
    have hB1code : cstr B1.code = cstr bf.code ++ cstr f := by
      rw [hB1]; exact hcode1
    obtain ⟨Y, hY⟩ : ∃ Y : BrainFuck, Y = { B1 with
        code := cstr B1.code ++ concat_fragments (frags ++ [last]), code_pointer := 0 } :=
      ⟨_, rfl⟩
    have hYX : Y = { X with bracket_stack := S, bracket_count := c } := by
      rw [hY, hB1code, hB1, hrec, hX, List.append_assoc]
    have hrun1 : exec_loop fuel (find_brackets Y).1 w
        = some ({ r.1 with bracket_stack := S, bracket_count := c }, r.2) := by
      rw [hYX, run_with_stack, hrun]
      rfl
    rw [hY] at hrun1
    obtain ⟨bf', h1, h2, h3, h4, h5⟩ := ih B1
      ({ r.1 with bracket_stack := S, bracket_count := c }, r.2) (hB1 ▸ hok1)
      (fun g hg => hnb g (List.mem_cons_of_mem _ hg))
      (by rw [hB1code, List.append_assoc]; exact hfit)
      (by rw [hB1code, List.append_assoc]; exact hbal)
      (by
        intro k hk0 hk
        have := hopen (k + 1) (by omega) (by simp; omega)
        simp only [List.take_succ_cons, concat_fragments] at this
        rw [hB1code, List.append_assoc]
        exact this)
      hrun1
    refine ⟨bf', ?_, h2, h3, h4, h5⟩
    rw [List.cons_append, eval_lines_cons_returned fuel bf w f _ 0 _ _ he, h1]
    simp [List.replicate_succ]

/-! ## Programs without loops -/

theorem exec_command_straight {cmd : Char} (h1 : cmd ≠ '[') (h2 : cmd ≠ ']') (bf : BrainFuck)
    (w : Streams) : (exec_command cmd bf w).1.code_pointer = bf.code_pointer := by
  by_cases c1 : cmd = '>'
  · subst c1; simp [exec_command]; split_ifs <;> rfl
  by_cases c2 : cmd = '<'
  · subst c2; simp [exec_command]; split_ifs <;> rfl
  by_cases c3 : cmd = '+'
  · subst c3; simp [exec_command]
  by_cases c4 : cmd = '-'
  · subst c4; simp [exec_command]
  by_cases c5 : cmd = '.'
  · subst c5; simp [exec_command]
  by_cases c6 : cmd = ','
  · subst c6; simp [exec_command]
  simp [exec_command, c1, c2, c3, c4, c5, c6, h1, h2]

theorem exec_loop_straight : ∀ (m : Nat) (bf : BrainFuck) (w : Streams) (k : Nat),
    (∀ c ∈ bf.code, c ≠ '[' ∧ c ≠ ']') → bf.code_pointer = (k : Int) →
    bf.code.length ≤ k + m → ∀ fuel, m ≤ fuel → ∃ r, exec_loop fuel bf w = some r := by
  intro m
  induction m with
  | zero =>
    intro bf w k _ hcp hlen fuel _
    have hend : char_at bf.code bf.code_pointer = '\x00' := by
      rw [hcp]
      unfold char_at
      simp only [Int.toNat_ofNat]
      rw [List.getD_eq_getElem?_getD, List.getElem?_eq_none (by omega)]
      rfl
    exact ⟨_, exec_loop_done _ hend⟩
  | succ m ih =>
    intro bf w k hcode hcp hlen fuel hfuel
    by_cases hend : char_at bf.code bf.code_pointer = '\x00'
    · exact ⟨_, exec_loop_done _ hend⟩
    · obtain ⟨f, rfl⟩ : ∃ f, fuel = f + 1 := ⟨fuel - 1, by omega⟩
      obtain ⟨h1, h2⟩ := hcode _ (char_at_mem hend)
      have hcp' : (exec_step bf w).1.code_pointer = ((k + 1 : Nat) : Int) := by
        unfold exec_step
        simp only
        rw [exec_command_straight h1 h2, hcp]
        push_cast
        rfl
      rw [exec_loop_succ _ hend]
      exact ih _ _ (k + 1) (by rw [exec_step_code]; exact hcode) hcp'
        (by rw [exec_step_code]; omega) f (by omega)

theorem balanced_of_no_brackets {l : List Char} (h : ∀ c ∈ l, c ≠ '[' ∧ c ≠ ']') :
    Balanced l := by
  have hz : ∀ (s : List Char), (∀ c ∈ s, c ≠ '[' ∧ c ≠ ']') → s.count ']' = 0 ∧ s.count '[' = 0 := by
    intro s hs
    constructor
    · rw [List.count_eq_zero]
      intro hm
      exact (hs _ hm).2 rfl
    · rw [List.count_eq_zero]
      intro hm
      exact (hs _ hm).1 rfl
  refine ⟨by rw [(hz l h).1, (hz l h).2], fun k => ?_⟩
  rw [(hz (l.take k) (fun c hc => h c (List.mem_of_mem_take hc))).1]
  omega

theorem scan_line_no_brackets : ∀ (l : List Char) (bf : BrainFuck),
    (∀ c ∈ l, c ≠ '[' ∧ c ≠ ']') → scan_line l bf = (bf, false) := by
  intro l
  induction l with
  | nil => intro bf _; rfl
  | cons c rest ih =>
    intro bf h
    obtain ⟨h1, h2⟩ := h c (List.mem_cons_self _ _)
    simp only [scan_line, h1, h2, if_false]
    exact ih bf (fun d hd => h d (List.mem_cons_of_mem _ hd))

theorem run_straight (bf : BrainFuck) (w : Streams) (code : List Char)
    (h : ∀ c ∈ code, c ≠ '[' ∧ c ≠ ']') (fuel : Nat) (hfuel : code.length ≤ fuel) :
    ∃ bfr wr, brainfuck_run fuel bf w code = some (.finished bfr wr) := by
  have hsub : ∀ c ∈ (load_code bf code).code, c ≠ '[' ∧ c ≠ ']' := fun c hc =>
    h c (List.takeWhile_subset _ (List.mem_of_mem_take hc))
  have hlen : (load_code bf code).code.length ≤ code.length :=
    Nat.le_trans (List.take_sublist _ _).length_le (List.takeWhile_sublist _).length_le
  have hfb : (find_brackets (load_code bf code)).2 = none :=
    find_brackets_ok_of_balanced _ (balanced_of_no_brackets
      (fun c hc => hsub c (List.takeWhile_subset _ hc)))
  obtain ⟨_, _, hcode, hcp⟩ := find_brackets_frame (load_code bf code)
  obtain ⟨r, hr⟩ := exec_loop_straight (load_code bf code).code.length
    (find_brackets (load_code bf code)).1 w 0 (by rw [hcode]; exact hsub)
    (by rw [hcp]; rfl) (by rw [hcode]; omega) fuel (by omega)
  exact ⟨r.1, r.2, by rw [brainfuck_run_ok _ _ _ _ hfb, hr]; rfl⟩

/-! ## Lines of increments -/

theorem plus_line_mem (n : Nat) : ∀ c ∈ plus_line n, c = '+' :=
  fun _ hc => List.eq_of_mem_replicate hc

theorem cstr_plus_line (n : Nat) : cstr (plus_line n) = plus_line n :=
  cstr_of_no_nul (fun c hc => by rw [plus_line_mem n c hc]; decide)

theorem length_plus_line (n : Nat) : (plus_line n).length = n := by
  unfold plus_line
  exact List.length_replicate _ _

theorem plus_line_not_blank (n : Nat) (hn : 0 < n) :
    (cstr (plus_line n)).all isspace = false := by
  rw [cstr_plus_line, Bool.eq_false_iff]
  intro hall
  have hmem : '+' ∈ plus_line n := by
    unfold plus_line
    exact List.mem_replicate.mpr ⟨by omega, rfl⟩
  exact absurd (List.all_eq_true.mp hall _ hmem) (by decide)

theorem plus_line_no_brackets (n : Nat) : ∀ c ∈ plus_line n, c ≠ '[' ∧ c ≠ ']' := by
  intro c hc
  rw [plus_line_mem n c hc]
  decide

theorem plus_line_overflows (n : Nat) (hn : MAX_CODE_LENGTH - 1 ≤ n) (fuel : Nat)
    (w : Streams) :
    eval_lines fuel brainfuck_init w [plus_line n] = some ([-1], brainfuck_init, w) := by
  have hpos : 0 < n := by
    have : 0 < MAX_CODE_LENGTH - 1 := by decide
    omega
  have hscan : scan_line (cstr (plus_line n)) brainfuck_init = (brainfuck_init, false) := by
    rw [cstr_plus_line]
    exact scan_line_no_brackets _ _ (plus_line_no_brackets n)
  have hlen : strlen (plus_line n) = n := by
    unfold strlen
    rw [cstr_plus_line, length_plus_line]
  have he := eval_line_capacity fuel brainfuck_init w (plus_line n) (plus_line_not_blank n hpos)
    (by rw [hscan]) (by rw [hlen]; exact Nat.le_trans hn (Nat.le_add_left _ _))
  rw [hscan] at he
  rw [eval_lines_cons_returned fuel brainfuck_init w (plus_line n) [] (-1) _ _ he]
  simp [eval_lines]

theorem load_code_fits (bf : BrainFuck) (P : List Char) (hnul : ∀ c ∈ P, c ≠ '\x00')
    (hlen : P.length < MAX_CODE_LENGTH - 1) :
    load_code bf P = { bf with code := P, code_pointer := 0 } := by
  unfold load_code
  rw [cstr_of_no_nul hnul, List.take_of_length_le (by omega)]

theorem exec_of_run_finished (fuel : Nat) (bf : BrainFuck) (w : Streams) (code : List Char)
    (bfr : BrainFuck) (wr : Streams)
    (h : brainfuck_run fuel bf w code = some (.finished bfr wr)) :
    (find_brackets (load_code bf code)).2 = none ∧
    exec_loop fuel (find_brackets (load_code bf code)).1 w = some (bfr, wr) := by
  cases hfb : (find_brackets (load_code bf code)).2 with
  | some e =>
    rw [brainfuck_run_err _ _ _ _ e hfb] at h
    simp at h
  | none =>
    refine ⟨rfl, ?_⟩
    rw [brainfuck_run_ok _ _ _ _ hfb] at h
    cases hl : exec_loop fuel (find_brackets (load_code bf code)).1 w with
    | none => rw [hl] at h; simp at h
    | some r =>
      rw [hl] at h
      simp only [Option.map_some', Option.some.injEq, RunOutcome.finished.injEq] at h
      obtain ⟨h1, h2⟩ := h
      rw [← h1, ← h2]

/-- C12, as the code has it. From a record with an empty code buffer and open-loop count
0, let non-blank fragments be submitted in turn whose concatenation is shorter than
`MAX_CODE_LENGTH - 1` and has a surplus of `[` or `]` after each fragment but the last. If
`brainfuck_run` on the concatenation, from the same record and streams, ends normally
within the budget, then every call but the last returns 0, the last returns 1, and it
leaves the same tape, tape pointer and streams as that run, an empty code buffer and
open-loop count 0. -/
theorem C12_incremental_equals_whole (fuel : Nat) (bf : BrainFuck) (w : Streams)
    (frags : List (List Char)) (last : List Char) (bfr : BrainFuck) (wr : Streams)
    (hcode : cstr bf.code = []) (hcount : bf.bracket_count = 0)
    (hnb : ∀ f ∈ frags ++ [last], (cstr f).all isspace = false)
    (hfit : (concat_fragments (frags ++ [last])).length < MAX_CODE_LENGTH - 1)
    (hopen : ∀ k, 0 < k → k ≤ frags.length →
      (concat_fragments (frags.take k)).count '['
        ≠ (concat_fragments (frags.take k)).count ']')
    (hrun : brainfuck_run fuel bf w (concat_fragments (frags ++ [last]))
      = some (.finished bfr wr)) :
    ∃ bf', eval_lines fuel bf w (frags ++ [last])
        = some (List.replicate frags.length 0 ++ [1], bf', wr) ∧
      bf'.memory = bfr.memory ∧ bf'.pointer = bfr.pointer ∧ bf'.code = [] ∧
      bf'.bracket_count = 0 := by
  obtain ⟨hfb, hexec⟩ := exec_of_run_finished _ _ _ _ _ _ hrun
  have hload := load_code_fits bf (concat_fragments (frags ++ [last]))
    (concat_fragments_no_nul _) hfit
  rw [hload] at hfb hexec
  have hbal := balanced_of_find_brackets _ hfb
  simp only at hbal
  rw [cstr_of_no_nul (concat_fragments_no_nul _)] at hbal
  have hok : CountOK bf := by
    unfold CountOK
    rw [hcode, hcount]
    exact ⟨by simp, prefixOK_nil⟩
  exact eval_lines_session fuel w last frags bf (bfr, wr) hok hnb
    (by rw [hcode]; exact hfit) (by rw [hcode]; exact hbal)
    (by intro k hk0 hk; rw [hcode]; exact hopen k hk0 hk)
    (by rw [hcode]; exact hexec)

/-- Witness of C12: the fragments `[` and `-]` submitted to a fresh interpreter. -/
theorem C12_incremental_equals_whole_witness :
    brainfuck_run 5 brainfuck_init ⟨[], []⟩ (concat_fragments ([['[']] ++ [['-', ']']]))
      = some (.finished clear_loop_end.1 clear_loop_end.2) ∧
    ∃ bf', eval_lines 5 brainfuck_init ⟨[], []⟩ ([['[']] ++ [['-', ']']])
        = some (List.replicate [['[']].length 0 ++ [1], bf', clear_loop_end.2) ∧
      bf'.memory = clear_loop_end.1.memory ∧ bf'.pointer = clear_loop_end.1.pointer ∧
      bf'.code = [] ∧ bf'.bracket_count = 0 := by
  have hrun : brainfuck_run 5 brainfuck_init ⟨[], []⟩
      (concat_fragments ([['[']] ++ [['-', ']']]))
      = some (.finished clear_loop_end.1 clear_loop_end.2) := by
    rw [brainfuck_run_ok _ _ _ _ (by decide!), exec_loop_succ _ (by decide!),
      exec_loop_done _ (by decide!)]
    rfl
  exact ⟨hrun, C12_incremental_equals_whole 5 brainfuck_init ⟨[], []⟩ [['[']] ['-', ']']
    clear_loop_end.1 clear_loop_end.2 (by decide!) (by decide!) (by decide!) (by decide!)
    (by
      intro k hk0 hk
      have hk1 : k = 1 := by
        simp at hk
        omega
      subst hk1
      decide!) hrun⟩

/-- C12 as claimed fails for a fragment that does not fit: one fragment of 999999
characters `+`, submitted to a fresh interpreter, is not blank and leaves the open-loop
count at 0, and `brainfuck_run` on it ends normally; yet the call returns -1, not 1. -/
theorem C12_capacity_counterexample :
    cstr brainfuck_init.code = [] ∧ brainfuck_init.bracket_count = 0 ∧
    (cstr (plus_line 999999)).all isspace = false ∧
    scan_line (cstr (plus_line 999999)) brainfuck_init = (brainfuck_init, false) ∧
    (∃ bfr wr, brainfuck_run 999999 brainfuck_init ⟨[], []⟩
      (concat_fragments [plus_line 999999]) = some (.finished bfr wr)) ∧
    eval_lines 999999 brainfuck_init ⟨[], []⟩ [plus_line 999999]
      = some ([-1], brainfuck_init, ⟨[], []⟩) := by
  refine ⟨by decide, by decide, plus_line_not_blank _ (by decide), ?_, ?_,
    plus_line_overflows _ (by decide) _ _⟩
  · rw [cstr_plus_line]
    exact scan_line_no_brackets _ _ (plus_line_no_brackets _)
  · have hP : concat_fragments [plus_line 999999] = plus_line 999999 := by
      unfold concat_fragments concat_fragments
      rw [cstr_plus_line, List.append_nil]
    rw [hP]
    exact run_straight _ _ _ (plus_line_no_brackets _) _ (by rw [length_plus_line])

/-! ## The instruction pointer -/

theorem char_at_get {l : List Char} {n : Nat} (h : char_at l (n : Int) ≠ '\x00') :
    n < l.length ∧ l[n]? = some (char_at l (n : Int)) := by
  unfold char_at at h ⊢
  simp only [Int.toNat_ofNat] at h ⊢
  rw [List.getD_eq_getElem?_getD] at h ⊢
  cases hget : l[n]? with
  | none => rw [hget] at h; exact absurd rfl h
  | some c => exact ⟨(List.getElem?_eq_some.mp hget).1, rfl⟩

theorem exec_command_open (bf : BrainFuck) (w : Streams) :
    exec_command '[' bf w
      = (if bf.memory bf.pointer = 0 then
          { bf with code_pointer := bf.brackets bf.code_pointer } else bf, w) := by
  simp [exec_command]

theorem exec_command_close (bf : BrainFuck) (w : Streams) :
    exec_command ']' bf w
      = (if bf.memory bf.pointer ≠ 0 then
          { bf with code_pointer := bf.brackets bf.code_pointer } else bf, w) := by
  simp [exec_command]

theorem exec_command_no_map_read {cmd : Char} (h1 : cmd ≠ '[') (h2 : cmd ≠ ']')
    (bf : BrainFuck) (br' : Int → Int) (w : Streams) :
    exec_command cmd { bf with brackets := br' } w
      = ({ (exec_command cmd bf w).1 with brackets := br' }, (exec_command cmd bf w).2) := by
  by_cases c1 : cmd = '>'
  · subst c1; simp [exec_command]; split_ifs <;> rfl
  by_cases c2 : cmd = '<'
  · subst c2; simp [exec_command]; split_ifs <;> rfl
  by_cases c3 : cmd = '+'
  · subst c3; simp [exec_command]
  by_cases c4 : cmd = '-'
  · subst c4; simp [exec_command]
  by_cases c5 : cmd = '.'
  · subst c5; simp [exec_command]
  by_cases c6 : cmd = ','
  · subst c6; simp [exec_command]
  simp [exec_command, c1, c2, c3, c4, c5, c6, h1, h2]

theorem engineOK_map {l : List Char} {s : BrainFuck} (hok : EngineOK l s) {n : Nat}
    (hn : s.code_pointer = (n : Int))
    (hb : char_at s.code s.code_pointer = '[' ∨ char_at s.code s.code_pointer = ']') :
    0 ≤ s.brackets s.code_pointer ∧ s.brackets s.code_pointer < (l.length : Int) ∧
    (char_at s.code s.code_pointer = '[' → s.code_pointer < s.brackets s.code_pointer) ∧
    (char_at s.code s.code_pointer = ']' → s.brackets s.code_pointer < s.code_pointer) := by
  obtain ⟨hcode, _, hM, _, _⟩ := hok
  have hne : char_at l (n : Int) ≠ '\x00' := by
    rw [← hcode, ← hn]
    rcases hb with h | h <;> rw [h] <;> decide
  obtain ⟨hlt, hget⟩ := char_at_get hne
  rw [hcode, hn] at hb ⊢
  rcases hb with h | h
  · rw [h] at hget
    rcases hM.opens n hlt hget with hm | ⟨b, hbl, hm, h1, _⟩
    · simp at hm
    · rw [h1]
      have := hm.1
      refine ⟨by omega, by omega, fun _ => by omega, fun h' => ?_⟩
      rw [h] at h'
      exact absurd h' (by decide)
  · rw [h] at hget
    obtain ⟨a, hm, _, h2⟩ := hM.closes n hlt hget
    rw [h2]
    have := hm.1
    refine ⟨by omega, by omega, fun h' => ?_, fun _ => by omega⟩
    rw [h] at h'
    exact absurd h' (by decide)

theorem engineOK_step {l : List Char} {s : BrainFuck} (w : Streams) (hok : EngineOK l s)
    (hne : char_at s.code s.code_pointer ≠ '\x00') : EngineOK l (exec_step s w).1 := by
  have hok' := hok
  obtain ⟨hcode, hnul, hM, h0, hle⟩ := hok
  obtain ⟨n, hn⟩ := Int.eq_ofNat_of_zero_le h0
  have hne' : char_at l (n : Int) ≠ '\x00' := by rw [← hcode, ← hn]; exact hne
  obtain ⟨hlt, _⟩ := char_at_get hne'
  have hbr : (exec_step s w).1.brackets = s.brackets :=
    (exec_command_counts (char_at s.code s.code_pointer) s w).2.2
  refine ⟨by rw [exec_step_code]; exact hcode, hnul, by rw [hbr]; exact hM, ?_⟩
  by_cases h1 : char_at s.code s.code_pointer = '['
  · obtain ⟨m0, m1, m2, _⟩ := engineOK_map hok' hn (Or.inl h1)
    have m2' := m2 h1
    unfold exec_step
    simp only
    rw [h1, exec_command_open]
    split_ifs <;> simp only <;> omega
  · by_cases h2 : char_at s.code s.code_pointer = ']'
    · obtain ⟨m0, m1, _, m3⟩ := engineOK_map hok' hn (Or.inr h2)
      have m3' := m3 h2
      unfold exec_step
      simp only
      rw [h2, exec_command_close]
      split_ifs <;> simp only <;> omega
    · unfold exec_step
      simp only
      rw [exec_command_straight h1 h2]
      omega

theorem engineOK_start (bf : BrainFuck) (code : List Char)
    (h : (find_brackets (load_code bf code)).2 = none) :
    EngineOK (load_code bf code).code (find_brackets (load_code bf code)).1 := by
  have hnul : ∀ c ∈ (load_code bf code).code, c ≠ '\x00' := fun c hc =>
    cstr_no_nul code c (List.mem_of_mem_take hc)
  obtain ⟨_, _, hcode, hcp⟩ := find_brackets_frame (load_code bf code)
  rcases find_brackets_cases (load_code bf code) with ⟨br, he, _, hM⟩ |
    ⟨br, top, r, he, _, _, _⟩ | ⟨br, p0, he, _, _⟩
  · rw [cstr_of_no_nul hnul] at hM
    refine ⟨hcode, hnul, ?_, ?_, ?_⟩
    · rw [he]; exact hM
    · rw [hcp]; exact Int.le_refl _
    · rw [hcp]
      show (0 : Int) ≤ _
      omega
  · rw [he] at h; simp at h
  · rw [he] at h; simp at h

theorem engineOK_iter {l : List Char} : ∀ (k : Nat) (s : BrainFuck) (w : Streams),
    EngineOK l s → EngineOK l (exec_iter k s w).1 := by
  intro k
  induction k with
  | zero => intro s w h; exact h
  | succ n ih =>
    intro s w h
    unfold exec_iter
    split_ifs with hend
    · exact h
    · exact ih _ _ (engineOK_step w h hend)

/-! ## The loader -/

theorem load_loop_spec : ∀ (rest : List Char) (mode : Bool) (code : List Char),
    (∀ c ∈ rest, c ≠ '\x00') → code.length + rest.length < MAX_CODE_SIZE →
    load_loop rest mode code
      = code ++ (spec_without_comments rest mode).filter (fun c => c ∈ instruction_chars) := by
  intro rest
  induction rest with
  | nil => intro mode code _ _; cases mode <;> simp [load_loop, spec_without_comments]
  | cons c rest ih =>
    intro mode code hnul hlen
    have hnul' : ∀ d ∈ rest, d ≠ '\x00' := fun d hd => hnul d (List.mem_cons_of_mem _ hd)
    have hc0 : c ≠ '\x00' := hnul c (List.mem_cons_self _ _)
    simp only [List.length_cons] at hlen
    cases mode with
    | true =>
      simp only [load_loop, spec_without_comments]
      split_ifs
      · exact ih false code hnul' (by omega)
      · exact ih true code hnul' (by omega)
    | false =>
      have hsize : code.length < MAX_CODE_SIZE - 1 := by omega
      simp only [load_loop, spec_without_comments, hsize, if_true]
      by_cases h1 : c = '#'
      · simp only [h1, if_true]
        exact ih true code hnul' (by omega)
      · simp only [h1, if_false]
        by_cases h2 : c ∈ instruction_chars
        · have hs : strchr_found instruction_chars c = true := by
            simp [strchr_found, h2]
          rw [if_pos hs, ih false (code ++ [c]) hnul' (by simp; omega)]
          simp [List.filter_cons, h2]
        · have hs : strchr_found instruction_chars c = false := by
            simp [strchr_found, h2, hc0]
          rw [if_neg (by rw [hs]; decide), ih false code hnul' (by omega)]
          simp [List.filter_cons, h2]

/-- What the loader does on a file without a zero byte: it builds what the spec asks for. -/
theorem main_load_no_nul (file : List Char) (hnul : ∀ c ∈ file, c ≠ '\x00')
    (hlen : file.length < MAX_CODE_SIZE) :
    main_load file = spec_stripped file ∧ ∀ c ∈ main_load file, c ∈ instruction_chars := by
  have h := load_loop_spec file false [] hnul (by simpa using hlen)
  have e : main_load file = spec_stripped file := by
    unfold main_load spec_stripped
    rw [h]
    rfl
  refine ⟨e, fun c hc => ?_⟩
  rw [e] at hc
  unfold spec_stripped at hc
  have := (List.mem_filter.mp hc).2
  simpa using this

/-- C15 fails on the code for a file holding a zero byte. On the three bytes `+`, `\0`,
`+` the loader stores the zero byte as well (`strchr` finds it in the terminator of its
string), so the buffer holds a character outside the alphabet and, read as the C string that
`execute` receives, is `+`; the spec asks for `++`. -/
theorem C15_zero_byte_is_kept :
    main_load ['+', '\x00', '+'] = ['+', '\x00', '+'] ∧
    cstr (main_load ['+', '\x00', '+']) = ['+'] ∧
    spec_stripped ['+', '\x00', '+'] = ['+', '+'] ∧
    ¬ (∀ c ∈ main_load ['+', '\x00', '+'], c ∈ instruction_chars) ∧
    ['+', '\x00', '+'].length < MAX_CODE_SIZE := by
  refine ⟨by decide!, by decide!, by decide!, by decide!, by decide⟩

/-! ## The scans of `execute` find the partner of the bracket map -/

theorem char_at_of_get {l : List Char} {n : Nat} {c : Char} (h : l[n]? = some c) :
    char_at l (n : Int) = c := by
  unfold char_at
  simp only [Int.toNat_ofNat]
  rw [List.getD_eq_getElem?_getD, h]
  rfl

theorem scan_forward_stop (l : List Char) : scan_forward l 0 = (0, 0) := by
  cases l with
  | nil => rfl
  | cons c tl => simp [scan_forward]

theorem scan_forward_cons (x d : Char) (tl : List Char) (cnt : Int) (h : cnt > 0)
    (hx : x ≠ '\x00') :
    scan_forward (x :: d :: tl) cnt
      = ((scan_forward (d :: tl)
            (cnt + (if d = '[' then 1 else 0) - (if d = ']' then 1 else 0))).1 + 1,
         (scan_forward (d :: tl)
            (cnt + (if d = '[' then 1 else 0) - (if d = ']' then 1 else 0))).2) := by
  have e : scan_forward (x :: d :: tl) cnt
      = ((scan_forward (d :: tl) (if d = ']' then (if d = '[' then cnt + 1 else cnt) - 1
            else (if d = '[' then cnt + 1 else cnt))).1 + 1,
         (scan_forward (d :: tl) (if d = ']' then (if d = '[' then cnt + 1 else cnt) - 1
            else (if d = '[' then cnt + 1 else cnt))).2) := by
    rw [scan_forward]
    simp only [h, hx, ne_eq, not_false_eq_true, and_self, if_true, List.headD_cons]
  rw [e]
  by_cases e1 : d = '['
  · subst e1
    have n : ¬ ('[' = ']') := by decide
    simp only [n, if_false, if_true, Int.sub_zero]
  · by_cases e2 : d = ']'
    · subst e2
      simp only [e1, if_false, if_true, Int.add_zero]
    · simp only [e1, e2, if_false, Int.add_zero, Int.sub_zero]

theorem scan_forward_match : ∀ (seg : List Char) (x : Char) (c : Int) (R : List Char),
    1 ≤ c → x ≠ '\x00' → (∀ ch ∈ seg, ch ≠ '\x00') →
    (∀ k, k ≤ seg.length →
      1 ≤ c + ((seg.take k).count '[' : Int) - ((seg.take k).count ']' : Int)) →
    c + (seg.count '[' : Int) - (seg.count ']' : Int) = 1 →
    scan_forward (x :: (seg ++ ']' :: R)) c = (seg.length + 1, 0) := by
  intro seg
  induction seg with
  | nil =>
    intro x c R hc hx _ _ htot
    have hc1 : c = 1 := by simpa using htot
    subst hc1
    rw [List.nil_append, scan_forward_cons x ']' R 1 (by omega) hx]
    have n : ¬ (']' = '[') := by decide
    simp only [n, if_false, if_true]
    have e : (1 : Int) + 0 - 1 = 0 := by omega
    rw [e, scan_forward_stop]
    rfl
  | cons d seg ih =>
    intro x c R hc hx hnul hpre htot
    have hd : d ≠ '\x00' := hnul d (List.mem_cons_self _ _)
    have hnul' : ∀ ch ∈ seg, ch ≠ '\x00' := fun ch h => hnul ch (List.mem_cons_of_mem _ h)
    have h1 := hpre 1 (by simp)
    simp only [List.take_succ_cons, List.take_zero, List.count_cons, List.count_nil] at h1
    have key := ih d (c + (if d = '[' then 1 else 0) - (if d = ']' then 1 else 0)) R
      (by
        by_cases e1 : d = '['
        · subst e1; simp at h1 ⊢; omega
        · by_cases e2 : d = ']'
          · subst e2; simp at h1 ⊢; omega
          · simp [e1, e2]; omega)
      hd hnul'
      (by
        intro k hk
        have := hpre (k + 1) (by simp; omega)
        simp only [List.take_succ_cons, List.count_cons] at this
        by_cases e1 : d = '['
        · subst e1; simp at this ⊢; omega
        · by_cases e2 : d = ']'
          · subst e2; simp at this ⊢; omega
          · simp [e1, e2] at this ⊢; omega)
      (by
        simp only [List.count_cons] at htot
        by_cases e1 : d = '['
        · subst e1; simp at htot ⊢; omega
        · by_cases e2 : d = ']'
          · subst e2; simp at htot ⊢; omega
          · simp [e1, e2] at htot ⊢; omega)
    rw [List.cons_append, scan_forward_cons x d _ c (by omega) hx, key]
    simp

theorem drop_split_at_match {l : List Char} {a b : Nat} (h : IsMatch l a b) :
    l.drop a = '[' :: (segment l a b ++ ']' :: l.drop (b + 1)) ∧
    (segment l a b).length = b - a - 1 := by
  obtain ⟨hab, ha, hb, _⟩ := h
  obtain ⟨halt, hac⟩ := List.getElem?_eq_some.mp ha
  obtain ⟨hblt, hbc⟩ := List.getElem?_eq_some.mp hb
  have e1 : l.drop a = '[' :: l.drop (a + 1) := by
    rw [List.drop_eq_getElem_cons halt, hac]
  have e2 : l.drop b = ']' :: l.drop (b + 1) := by
    rw [List.drop_eq_getElem_cons hblt, hbc]
  have e3 : l.drop (a + 1) = segment l a b ++ l.drop b := by
    unfold segment
    conv_lhs => rw [← List.take_append_drop b l]
    rw [List.drop_append_of_le_length]
    simp
    omega
  refine ⟨by rw [e1, e3, e2], ?_⟩
  unfold segment
  simp
  omega

theorem scan_forward_isMatch {l : List Char} {a b : Nat} (hnul : ∀ c ∈ l, c ≠ '\x00')
    (h : IsMatch l a b) : scan_forward (l.drop a) 1 = (b - a, 0) := by
  obtain ⟨hsplit, hlen⟩ := drop_split_at_match h
  have hseg : ∀ ch ∈ segment l a b, ch ≠ '\x00' := by
    intro ch hch
    unfold segment at hch
    exact hnul ch (List.mem_of_mem_take (List.mem_of_mem_drop hch))
  have hbal := h.2.2.2
  rw [hsplit, scan_forward_match (segment l a b) '[' 1 (l.drop (b + 1)) (by omega) (by decide)
    hseg (by
      intro k _
      have := hbal.2 k
      omega) (by
      have := hbal.1
      omega), hlen]
  have := h.1
  congr 1
  omega

theorem scan_backward_stop (code : List Char) (p : Nat) : scan_backward code p 0 = (p, 0) := by
  cases p with
  | zero => rfl
  | succ n => simp [scan_backward]

theorem balanced_suffix {seg : List Char} (h : Balanced seg) (j : Nat) :
    (seg.drop j).count '[' ≤ (seg.drop j).count ']' := by
  have h1 := h.1
  have h2 := h.2 j
  have e1 : seg.count '[' = (seg.take j).count '[' + (seg.drop j).count '[' := by
    rw [← List.count_append, List.take_append_drop]
  have e2 : seg.count ']' = (seg.take j).count ']' + (seg.drop j).count ']' := by
    rw [← List.count_append, List.take_append_drop]
  omega

theorem segment_get {l : List Char} {a b j : Nat} (h : a + 1 + j < b) :
    (segment l a b)[j]? = l[a + 1 + j]? := by
  unfold segment
  rw [List.getElem?_drop, List.getElem?_take_of_lt h]

theorem scan_backward_match {l : List Char} {a n : Nat} (h : IsMatch l a n) :
    ∀ j, a + 1 + j ≤ n →
    scan_backward l (a + 1 + j)
        (1 + (((segment l a n).drop j).count ']' : Int)
          - (((segment l a n).drop j).count '[' : Int))
      = (a, 0) := by
  have hbal := h.2.2.2
  intro j
  induction j with
  | zero =>
    intro _
    have hc : char_at l (a : Int) = '[' := char_at_of_get h.2.1
    have h1 := hbal.1
    simp only [List.drop_zero, Nat.add_zero]
    have e : (1 : Int) + ((segment l a n).count ']' : Int) - ((segment l a n).count '[' : Int)
        = 1 := by omega
    rw [e]
    simp [scan_backward, hc, scan_backward_stop]
  | succ j ih =>
    intro hj
    have hlt : a + 1 + j < n := by omega
    have hsuf := balanced_suffix hbal (j + 1)
    obtain ⟨d, hd⟩ : ∃ d, l[a + 1 + j]? = some d := by
      have hn := (List.getElem?_eq_some.mp h.2.2.1).1
      exact ⟨l[a + 1 + j], List.getElem?_eq_getElem (by omega)⟩
    have hsd : (segment l a n)[j]? = some d := by rw [segment_get hlt]; exact hd
    obtain ⟨hjl, hjd⟩ := List.getElem?_eq_some.mp hsd
    have hdrop : (segment l a n).drop j = d :: (segment l a n).drop (j + 1) := by
      rw [List.drop_eq_getElem_cons hjl, hjd]
    have hc : char_at l ((a + 1 + j : Nat) : Int) = d := char_at_of_get hd
    have ih' := ih (by omega)
    rw [hdrop] at ih'
    have hpos : (1 : Int) + (((segment l a n).drop (j + 1)).count ']' : Int)
        - (((segment l a n).drop (j + 1)).count '[' : Int) > 0 := by omega
    have e : a + 1 + (j + 1) = (a + 1 + j) + 1 := by omega
    rw [e]
    simp only [scan_backward, hpos, if_true, hc]
    by_cases e1 : d = ']'
    · subst e1
      simp [List.count_cons] at ih'
      simp
      rw [← ih']
      congr 1
      omega
    · by_cases e2 : d = '['
      · subst e2
        simp [List.count_cons] at ih'
        simp
        rw [← ih']
        congr 1
        omega
      · simp [List.count_cons, e1, e2] at ih'
        simp [e1, e2]
        exact ih'

theorem scan_backward_isMatch {l : List Char} {a n : Nat} (h : IsMatch l a n) :
    scan_backward l n 1 = (a, 0) := by
  have := scan_backward_match h (n - a - 1) (by have := h.1; omega)
  have hlen := (drop_split_at_match h).2
  rw [List.drop_of_length_le (by omega)] at this
  have e : a + 1 + (n - a - 1) = n := by have := h.1; omega
  rw [e] at this
  simpa using this

/-! ## One iteration of the engine against `execute` -/

theorem sim_simple (l : List Char) (s : BrainFuck) (w : Streams) (hcode : s.code = l)
    (ht : in_tape s.pointer) (hw : ¬ wraps s)
    (h1 : char_at s.code s.code_pointer ≠ '[') (h2 : char_at s.code s.code_pointer ≠ ']') :
    execute_step l (machine_of s) w
      = .inr (machine_of (exec_step s w).1, (exec_step s w).2) := by
  subst hcode
  unfold wraps at hw
  unfold in_tape MEMORY_SIZE at ht
  unfold execute_step exec_step machine_of
  simp only
  generalize hc : char_at s.code s.code_pointer = cmd at *
  by_cases c1 : cmd = '>'
  · subst c1
    have hp : s.pointer < MEMORY_SIZE - 1 := by
      unfold MEMORY_SIZE at hw ⊢
      have : s.pointer ≠ 30000 - 1 := fun h => hw (Or.inr ⟨rfl, h⟩)
      omega
    simp [exec_command, hp]
  by_cases c2 : cmd = '<'
  · subst c2
    have hp : s.pointer > 0 := by
      have : s.pointer ≠ 0 := fun h => hw (Or.inl ⟨rfl, h⟩)
      omega
    simp [exec_command, hp]
  have ht' : in_tape s.pointer := ht
  by_cases c3 : cmd = '+'
  · subst c3; simp [exec_command, ht']
  by_cases c4 : cmd = '-'
  · subst c4; simp [exec_command, ht']
  by_cases c5 : cmd = '.'
  · subst c5; simp [exec_command, ht']
  by_cases c6 : cmd = ','
  · subst c6; simp [exec_command, ht']
  simp [exec_command, c1, c2, c3, c4, c5, c6, h1, h2]

theorem sim_open (l : List Char) (s : BrainFuck) (w : Streams) (hok : EngineOK l s)
    (ht : in_tape s.pointer) (h1 : char_at s.code s.code_pointer = '[') :
    execute_step l (machine_of s) w
      = .inr (machine_of (exec_step s w).1, (exec_step s w).2) ∧
    (s.memory s.pointer = 0 →
      s.code_pointer + ((scan_forward (l.drop s.code_pointer.toNat) 1).1 : Int)
        = s.brackets s.code_pointer) := by
  obtain ⟨hcode, hnul, hM, h0, _⟩ := hok
  obtain ⟨n, hn⟩ := Int.eq_ofNat_of_zero_le h0
  have hne : char_at l (n : Int) ≠ '\x00' := by
    rw [← hcode, ← hn, h1]; decide
  obtain ⟨hlt, hget⟩ := char_at_get hne
  rw [← hcode, ← hn, h1] at hget
  rw [hcode] at hget
  rcases hM.opens n hlt hget with hm | ⟨b, _, hm, hb1, _⟩
  · simp at hm
  have hscan := scan_forward_isMatch hnul hm
  have hab := hm.1
  have htoNat : s.code_pointer.toNat = n := by rw [hn]; rfl
  have hjump : s.code_pointer + ((scan_forward (l.drop s.code_pointer.toNat) 1).1 : Int)
      = s.brackets s.code_pointer := by
    rw [htoNat, hscan, hn, hb1]
    simp only
    omega
  refine ⟨?_, fun _ => hjump⟩
  have hc : char_at l s.code_pointer = '[' := by rw [← hcode]; exact h1
  unfold execute_step exec_step
  simp only [machine_of, hc, h1]
  rw [exec_command_open]
  have n1 : ¬ ('[' = '>') := by decide
  have n2 : ¬ ('[' = '<') := by decide
  have n3 : ¬ ('[' = '+') := by decide
  have n4 : ¬ ('[' = '-') := by decide
  have n5 : ¬ ('[' = '.') := by decide
  have n6 : ¬ ('[' = ',') := by decide
  simp only [n1, n2, n3, n4, n5, n6, if_false, if_true, ht]
  by_cases hz : s.memory s.pointer = 0
  · have hnot : ¬ ((scan_forward (l.drop s.code_pointer.toNat) 1).2 > 0) := by
      rw [htoNat, hscan]; simp
    simp only [hz, if_true, hnot, if_false]
    rw [hjump]
  · simp only [hz, if_false]

theorem sim_close (l : List Char) (s : BrainFuck) (w : Streams) (hok : EngineOK l s)
    (ht : in_tape s.pointer) (h2 : char_at s.code s.code_pointer = ']') :
    (s.memory s.pointer = 0 →
      execute_step l (machine_of s) w
        = .inr (machine_of (exec_step s w).1, (exec_step s w).2)) ∧
    (s.memory s.pointer ≠ 0 →
      (exec_step s w).2 = w ∧
      (exec_step s w).1.code_pointer = s.brackets s.code_pointer + 1 ∧
      execute_step l (machine_of s) w
        = .inr ({ machine_of s with pc := s.brackets s.code_pointer - 1 + 1 }, w) ∧
      char_at l (s.brackets s.code_pointer - 1 + 1) = '[' ∧
      execute_step l { machine_of s with pc := s.brackets s.code_pointer - 1 + 1 } w
        = .inr (machine_of (exec_step s w).1, (exec_step s w).2)) := by
  obtain ⟨hcode, hnul, hM, h0, _⟩ := hok
  obtain ⟨n, hn⟩ := Int.eq_ofNat_of_zero_le h0
  have hne : char_at l (n : Int) ≠ '\x00' := by
    rw [← hcode, ← hn, h2]; decide
  obtain ⟨hlt, hget⟩ := char_at_get hne
  rw [← hcode, ← hn, h2] at hget
  rw [hcode] at hget
  obtain ⟨a, hm, _, hb2⟩ := hM.closes n hlt hget
  have hscan := scan_backward_isMatch hm
  have htoNat : s.code_pointer.toNat = n := by rw [hn]; rfl
  have hbr : s.brackets s.code_pointer = (a : Int) := by rw [hn]; exact hb2
  have hc : char_at l s.code_pointer = ']' := by rw [← hcode]; exact h2
  have ha : char_at l (a : Int) = '[' := char_at_of_get hm.2.1
  have n1 : ¬ (']' = '>') := by decide
  have n2 : ¬ (']' = '<') := by decide
  have n3 : ¬ (']' = '+') := by decide
  have n4 : ¬ (']' = '-') := by decide
  have n5 : ¬ (']' = '.') := by decide
  have n6 : ¬ (']' = ',') := by decide
  have n7 : ¬ (']' = '[') := by decide
  have m1 : ¬ ('[' = '>') := by decide
  have m2 : ¬ ('[' = '<') := by decide
  have m3 : ¬ ('[' = '+') := by decide
  have m4 : ¬ ('[' = '-') := by decide
  have m5 : ¬ ('[' = '.') := by decide
  have m6 : ¬ ('[' = ',') := by decide
  have hstep : exec_step s w = ({ (if s.memory s.pointer ≠ 0 then
      { s with code_pointer := s.brackets s.code_pointer } else s) with
      code_pointer := (if s.memory s.pointer ≠ 0 then
        ({ s with code_pointer := s.brackets s.code_pointer } : BrainFuck) else s).code_pointer
        + 1 }, w) := by
    unfold exec_step
    simp only [h2]
    rw [exec_command_close]
  constructor
  · intro hz
    rw [hstep]
    unfold execute_step
    simp only [machine_of, hc, n1, n2, n3, n4, n5, n6, n7, if_false, if_true, ht, hz,
      ne_eq, not_true_eq_false]
  · intro hnz
    have e1 : (a : Int) - 1 + 1 = (a : Int) := by omega
    refine ⟨by rw [hstep], ?_, ?_, ?_, ?_⟩
    · rw [hstep]
      simp only [hnz, ne_eq, not_false_eq_true, if_true]
    · unfold execute_step
      have hnot : ¬ ((scan_backward l s.code_pointer.toNat 1).2 > 0) := by
        rw [htoNat, hscan]; simp
      simp only [machine_of, hc, n1, n2, n3, n4, n5, n6, n7, if_false, if_true, ht, hnz,
        ne_eq, not_false_eq_true, hnot]
      rw [htoNat, hscan, hbr]
    · rw [hbr, e1]; exact ha
    · rw [hstep, hbr, e1]
      unfold execute_step
      simp only [machine_of, ha, m1, m2, m3, m4, m5, m6, if_false, if_true, ht, hnz,
        ne_eq, not_false_eq_true]

/-! ## The loop of `execute` -/

theorem execute_loop_done {code : List Char} {m : Machine} {w : Streams} (fuel : Nat)
    (h : char_at code m.pc = '\x00') : execute_loop code fuel m w = some (.returned m w) := by
  unfold execute_loop
  simp [h]

theorem execute_loop_zero {code : List Char} {m : Machine} {w : Streams}
    (h : char_at code m.pc ≠ '\x00') : execute_loop code 0 m w = none := by
  unfold execute_loop
  simp [h]

theorem execute_loop_next {code : List Char} {m : Machine} {w : Streams} (fuel : Nat)
    (h : char_at code m.pc ≠ '\x00') {r : Machine × Streams}
    (hs : execute_step code m w = .inr r) :
    execute_loop code (fuel + 1) m w = execute_loop code fuel r.1 r.2 := by
  rw [execute_loop]
  simp [h, hs]

theorem execute_loop_stop {code : List Char} {m : Machine} {w : Streams} (fuel : Nat)
    (h : char_at code m.pc ≠ '\x00') {o : ExecOutcome}
    (hs : execute_step code m w = .inl o) :
    execute_loop code (fuel + 1) m w = some o := by
  rw [execute_loop]
  simp [h, hs]

theorem execute_loop_mono (code : List Char) : ∀ (n : Nat) (m : Machine) (w : Streams)
    (o : ExecOutcome), execute_loop code n m w = some o →
    ∀ k, n ≤ k → execute_loop code k m w = some o := by
  intro n
  induction n with
  | zero =>
    intro m w o h k _
    by_cases hend : char_at code m.pc = '\x00'
    · rw [execute_loop_done _ hend] at h ⊢; exact h
    · rw [execute_loop_zero hend] at h; exact absurd h (by simp)
  | succ n ih =>
    intro m w o h k hk
    by_cases hend : char_at code m.pc = '\x00'
    · rw [execute_loop_done _ hend] at h ⊢; exact h
    · obtain ⟨k', rfl⟩ : ∃ k', k = k' + 1 := ⟨k - 1, by omega⟩
      cases hs : execute_step code m w with
      | inl o' =>
        rw [execute_loop_stop _ hend hs] at h ⊢
        exact h
      | inr r =>
        rw [execute_loop_next _ hend hs] at h ⊢
        exact ih _ _ _ h k' (by omega)

theorem exec_iter_succ {s : BrainFuck} {w : Streams} (k : Nat)
    (h : char_at s.code s.code_pointer ≠ '\x00') :
    exec_iter (k + 1) s w = exec_iter k (exec_step s w).1 (exec_step s w).2 := by
  rw [exec_iter]
  simp [h]

theorem exec_step_in_tape (s : BrainFuck) (w : Streams) (h : in_tape s.pointer) :
    in_tape (exec_step s w).1.pointer :=
  exec_command_pointer (char_at s.code s.code_pointer) s w h

theorem exec_step_close_jump (s : BrainFuck) (w : Streams)
    (h2 : char_at s.code s.code_pointer = ']') (hnz : s.memory s.pointer ≠ 0) :
    exec_step s w = ({ s with code_pointer := s.brackets s.code_pointer + 1 }, w) := by
  unfold exec_step
  simp only [h2]
  rw [exec_command_close]
  simp only [hnz, ne_eq, not_false_eq_true, if_true]

theorem exec_step_open_jump (s : BrainFuck) (w : Streams)
    (h1 : char_at s.code s.code_pointer = '[') (hz : s.memory s.pointer = 0) :
    exec_step s w = ({ s with code_pointer := s.brackets s.code_pointer + 1 }, w) := by
  unfold exec_step
  simp only [h1]
  rw [exec_command_open]
  simp only [hz, if_true]

/-- What one iteration of the engine is for `execute`: the same iteration, or, for a
backward jump, the jump to the matching `[` followed by the step over it. -/
theorem sim_step (l : List Char) (s : BrainFuck) (w : Streams) (hok : EngineOK l s)
    (ht : in_tape s.pointer) (hw : ¬ wraps s) :
    execute_step l (machine_of s) w
      = .inr (machine_of (exec_step s w).1, (exec_step s w).2) ∨
    (∃ m1, execute_step l (machine_of s) w = .inr (m1, w) ∧
      char_at l m1.pc ≠ '\x00' ∧ follows l (m1, w) (exec_step s w) ∧
      execute_step l m1 w = .inr (machine_of (exec_step s w).1, (exec_step s w).2)) := by
  by_cases h1 : char_at s.code s.code_pointer = '['
  · exact Or.inl (sim_open l s w hok ht h1).1
  · by_cases h2 : char_at s.code s.code_pointer = ']'
    · obtain ⟨hz, hnz⟩ := sim_close l s w hok ht h2
      by_cases hcell : s.memory s.pointer = 0
      · exact Or.inl (hz hcell)
      · obtain ⟨_, _, e3, e4, e5⟩ := hnz hcell
        refine Or.inr ⟨_, e3, ?_, ?_, e5⟩
        · simp only
          rw [e4]
          decide
        · rw [exec_step_close_jump s w h2 hcell]
          refine ⟨rfl, rfl, rfl, Or.inr ⟨?_, e4⟩⟩
          simp only [machine_of]
          omega
    · exact Or.inl (sim_simple l s w hok.1 ht hw h1 h2)

theorem sim_forward (l : List Char) : ∀ (n : Nat) (s : BrainFuck) (w : Streams)
    (r : BrainFuck × Streams), EngineOK l s → in_tape s.pointer →
    (∀ k, ¬ wraps (exec_iter k s w).1) → exec_loop n s w = some r →
    execute_loop l (2 * n) (machine_of s) w = some (.returned (machine_of r.1) r.2) := by
  intro n
  induction n with
  | zero =>
    intro s w r hok _ _ h
    by_cases hend : char_at s.code s.code_pointer = '\x00'
    · rw [exec_loop_done _ hend] at h
      cases h
      exact execute_loop_done _ (by rw [← hok.1]; exact hend)
    · rw [exec_loop_zero hend] at h; exact absurd h (by simp)
  | succ n ih =>
    intro s w r hok ht hnw h
    by_cases hend : char_at s.code s.code_pointer = '\x00'
    · rw [exec_loop_done _ hend] at h
      cases h
      exact execute_loop_done _ (by rw [← hok.1]; exact hend)
    · rw [exec_loop_succ _ hend] at h
      have hend' : char_at l (machine_of s).pc ≠ '\x00' := by rw [← hok.1]; exact hend
      have key := ih _ _ r (engineOK_step w hok hend) (exec_step_in_tape s w ht)
        (fun k => by rw [← exec_iter_succ k hend]; exact hnw (k + 1)) h
      have e : 2 * (n + 1) = (2 * n + 1) + 1 := by omega
      rw [e]
      rcases sim_step l s w hok ht (hnw 0) with hs | ⟨m1, hs1, hne1, _, hs2⟩
      · rw [execute_loop_next _ hend' hs]
        exact execute_loop_mono l _ _ _ _ key _ (by omega)
      · rw [execute_loop_next _ hend' hs1]
        simp only
        rw [execute_loop_next _ hne1 hs2]
        exact key

theorem sim_backward (l : List Char) : ∀ (n : Nat) (s : BrainFuck) (w : Streams)
    (o : ExecOutcome), EngineOK l s → in_tape s.pointer →
    (∀ k, ¬ wraps (exec_iter k s w).1) → execute_loop l n (machine_of s) w = some o →
    ∃ r, exec_loop n s w = some r ∧ o = .returned (machine_of r.1) r.2 := by
  intro n
  induction n with
  | zero =>
    intro s w o hok _ _ h
    by_cases hend : char_at s.code s.code_pointer = '\x00'
    · rw [execute_loop_done _ (by rw [← hok.1]; exact hend)] at h
      cases h
      exact ⟨(s, w), exec_loop_done _ hend, rfl⟩
    · rw [execute_loop_zero (by rw [← hok.1]; exact hend)] at h
      exact absurd h (by simp)
  | succ n ih =>
    intro s w o hok ht hnw h
    by_cases hend : char_at s.code s.code_pointer = '\x00'
    · rw [execute_loop_done _ (by rw [← hok.1]; exact hend)] at h
      cases h
      exact ⟨(s, w), exec_loop_done _ hend, rfl⟩
    · have hend' : char_at l (machine_of s).pc ≠ '\x00' := by rw [← hok.1]; exact hend
      have ih' := fun o' h' => ih _ _ o' (engineOK_step w hok hend)
        (exec_step_in_tape s w ht)
        (fun k => by rw [← exec_iter_succ k hend]; exact hnw (k + 1)) h'
      rw [exec_loop_succ _ hend]
      rcases sim_step l s w hok ht (hnw 0) with hs | ⟨m1, hs1, hne1, _, hs2⟩
      · rw [execute_loop_next _ hend' hs] at h
        exact ih' o h
      · rw [execute_loop_next _ hend' hs1] at h
        simp only at h
        cases n with
        | zero => rw [execute_loop_zero hne1] at h; exact absurd h (by simp)
        | succ n' =>
          rw [execute_loop_next _ hne1 hs2] at h
          exact ih' o (execute_loop_mono l _ _ _ _ h _ (by omega))

theorem sim_trace (l : List Char) : ∀ (k : Nat) (s : BrainFuck) (w : Streams),
    EngineOK l s → in_tape s.pointer → (∀ j, ¬ wraps (exec_iter j s w).1) →
    ∃ j, j ≤ k ∧ follows l (execute_iter l k (machine_of s) w) (exec_iter j s w) := by
  intro k
  induction k using Nat.strong_induction_on with
  | _ k ih =>
    intro s w hok ht hnw
    cases k with
    | zero => exact ⟨0, Nat.le_refl _, rfl, rfl, rfl, Or.inl rfl⟩
    | succ k =>
      rw [execute_iter]
      by_cases hend : char_at s.code s.code_pointer = '\x00'
      · have : char_at l (machine_of s).pc = '\x00' := by rw [← hok.1]; exact hend
        rw [if_pos this]
        exact ⟨0, Nat.zero_le _, rfl, rfl, rfl, Or.inl rfl⟩
      · have hend' : char_at l (machine_of s).pc ≠ '\x00' := by rw [← hok.1]; exact hend
        rw [if_neg hend']
        have ih' := fun j (hj : j < k + 1) => ih j hj _ (exec_step s w).2
          (engineOK_step w hok hend) (exec_step_in_tape s w ht)
          (fun i => by rw [← exec_iter_succ i hend]; exact hnw (i + 1))
        rcases sim_step l s w hok ht (hnw 0) with hs | ⟨m1, hs1, hne1, hf, hs2⟩
        · rw [hs]
          obtain ⟨j, hj, hfj⟩ := ih' k (by omega)
          exact ⟨j + 1, by omega, by rw [exec_iter_succ j hend]; exact hfj⟩
        · rw [hs1]
          simp only
          cases k with
          | zero =>
            refine ⟨1, Nat.le_refl _, ?_⟩
            rw [exec_iter_succ 0 hend]
            exact hf
          | succ k' =>
            rw [execute_iter, if_neg hne1, hs2]
            obtain ⟨j, hj, hfj⟩ := ih' k' (by omega)
            exact ⟨j + 1, by omega, by rw [exec_iter_succ j hend]; exact hfj⟩

theorem exec_iter_in_tape : ∀ (k : Nat) (s : BrainFuck) (w : Streams),
    in_tape s.pointer → in_tape (exec_iter k s w).1.pointer := by
  intro k
  induction k with
  | zero => intro s w h; exact h
  | succ n ih =>
    intro s w h
    unfold exec_iter
    split_ifs with hend
    · exact h
    · exact ih _ _ (exec_step_in_tape s w h)

theorem exec_iter_code : ∀ (k : Nat) (s : BrainFuck) (w : Streams),
    (exec_iter k s w).1.code = s.code := by
  intro k
  induction k with
  | zero => intro s w; rfl
  | succ n ih =>
    intro s w
    unfold exec_iter
    split_ifs with hend
    · rfl
    · rw [ih, exec_step_code]

theorem exec_iter_of_loop : ∀ (n : Nat) (s : BrainFuck) (w : Streams)
    (r : BrainFuck × Streams), exec_loop n s w = some r →
    ∀ k, n ≤ k → exec_iter k s w = r := by
  intro n
  induction n with
  | zero =>
    intro s w r h k _
    by_cases hend : char_at s.code s.code_pointer = '\x00'
    · rw [exec_loop_done _ hend] at h
      cases h
      cases k with
      | zero => rfl
      | succ k => rw [exec_iter]; simp [hend]
    · rw [exec_loop_zero hend] at h; exact absurd h (by simp)
  | succ n ih =>
    intro s w r h k hk
    by_cases hend : char_at s.code s.code_pointer = '\x00'
    · rw [exec_loop_done _ hend] at h
      cases h
      cases k with
      | zero => rfl
      | succ k => rw [exec_iter]; simp [hend]
    · obtain ⟨k', rfl⟩ : ∃ k', k = k' + 1 := ⟨k - 1, by omega⟩
      rw [exec_loop_succ _ hend] at h
      rw [exec_iter_succ _ hend]
      exact ih _ _ r h k' (by omega)

/-! ## The two executors on the same program -/

theorem load_code_whole (bf : BrainFuck) (code : List Char) (hnul : ∀ c ∈ code, c ≠ '\x00')
    (hlen : code.length < MAX_CODE_LENGTH) :
    load_code bf code = { bf with code := code, code_pointer := 0 } := by
  unfold load_code
  rw [cstr_of_no_nul hnul, List.take_of_length_le (by omega)]

theorem sim_setup (bf : BrainFuck) (code : List Char) (hnul : ∀ c ∈ code, c ≠ '\x00')
    (hlen : code.length < MAX_CODE_LENGTH) (hbal : Balanced code) (hptr : bf.pointer = 0) :
    (find_brackets (load_code bf code)).2 = none ∧
    EngineOK code (find_brackets (load_code bf code)).1 ∧
    in_tape (find_brackets (load_code bf code)).1.pointer ∧
    machine_of (find_brackets (load_code bf code)).1
      = { memory := bf.memory, ptr := 0, pc := 0 } := by
  have hl := load_code_whole bf code hnul hlen
  have hcode : (load_code bf code).code = code := by rw [hl]
  have hfb : (find_brackets (load_code bf code)).2 = none :=
    find_brackets_ok_of_balanced _ (by rw [hcode, cstr_of_no_nul hnul]; exact hbal)
  have hok := engineOK_start bf code hfb
  rw [hcode] at hok
  obtain ⟨f1, f2, _, f4⟩ := find_brackets_frame (load_code bf code)
  have hp : (find_brackets (load_code bf code)).1.pointer = 0 := by
    rw [f2, hl]; exact hptr
  refine ⟨hfb, hok, ?_, ?_⟩
  · rw [hp]
    unfold in_tape MEMORY_SIZE
    omega
  · unfold machine_of
    rw [f1, hp, f4, hl]

theorem execute_loop_unique (l : List Char) (m : Machine) (w : Streams) {n n' : Nat}
    {o o' : ExecOutcome} (h : execute_loop l n m w = some o)
    (h' : execute_loop l n' m w = some o') : o = o' := by
  have a := execute_loop_mono l n m w o h (max n n') (Nat.le_max_left _ _)
  have b := execute_loop_mono l n' m w o' h' (max n n') (Nat.le_max_right _ _)
  rw [a] at b
  exact Option.some.inj b

/-- The two executors on a program that fits the buffer, has balanced brackets and never
moves the tape pointer across an end of the tape. -/
theorem sim_run (bf : BrainFuck) (w : Streams) (code : List Char)
    (hnul : ∀ c ∈ code, c ≠ '\x00') (hlen : code.length < MAX_CODE_LENGTH)
    (hbal : Balanced code) (hptr : bf.pointer = 0)
    (hnw : ∀ k, ¬ wraps (run_state bf w code k)) :
    (∀ fuel out, brainfuck_run fuel bf w code = some out →
      ∃ bfr wr, out = .finished bfr wr ∧
        execute (2 * fuel) code bf.memory w = some (.returned (machine_of bfr) wr)) ∧
    (∀ fuel o, execute fuel code bf.memory w = some o →
      ∃ bfr wr, brainfuck_run fuel bf w code = some (.finished bfr wr) ∧
        o = .returned (machine_of bfr) wr) := by
  obtain ⟨hfb, hok, ht, hm⟩ := sim_setup bf code hnul hlen hbal hptr
  constructor
  · intro fuel out h
    rw [brainfuck_run_ok _ _ _ _ hfb] at h
    cases hl : exec_loop fuel (find_brackets (load_code bf code)).1 w with
    | none => rw [hl] at h; simp at h
    | some r =>
      rw [hl] at h
      have hout : out = .finished r.1 r.2 := by
        simp only [Option.map_some'] at h
        exact (Option.some.inj h).symm
      refine ⟨r.1, r.2, hout, ?_⟩
      have := sim_forward code fuel _ w r hok ht hnw hl
      rw [hm] at this
      exact this
  · intro fuel o h
    unfold execute at h
    rw [← hm] at h
    obtain ⟨r, hr, ho⟩ := sim_backward code fuel _ w o hok ht hnw h
    refine ⟨r.1, r.2, ?_, ho⟩
    rw [brainfuck_run_ok _ _ _ _ hfb, hr]
    rfl

theorem sim_same_result (bf : BrainFuck) (w : Streams) (code : List Char)
    (hnul : ∀ c ∈ code, c ≠ '\x00') (hlen : code.length < MAX_CODE_LENGTH)
    (hbal : Balanced code) (hptr : bf.pointer = 0)
    (hnw : ∀ k, ¬ wraps (run_state bf w code k)) (fuel fuel' : Nat) (out : RunOutcome)
    (o : ExecOutcome) (h : brainfuck_run fuel bf w code = some out)
    (h' : execute fuel' code bf.memory w = some o) :
    o.kind = .returned ∧ o.stdout = out.stdout ∧ o.machine.memory = out.state.memory := by
  obtain ⟨bfr, wr, hout, he⟩ := (sim_run bf w code hnul hlen hbal hptr hnw).1 fuel out h
  have := execute_loop_unique code _ w h' he
  rw [this, hout]
  exact ⟨rfl, rfl, rfl⟩

theorem scan_backward_engine (l : List Char) (s : BrainFuck) (hok : EngineOK l s)
    (h2 : char_at s.code s.code_pointer = ']') :
    ((scan_backward l s.code_pointer.toNat 1).1 : Int) = s.brackets s.code_pointer := by
  obtain ⟨hcode, hnul, hM, h0, _⟩ := hok
  obtain ⟨n, hn⟩ := Int.eq_ofNat_of_zero_le h0
  have hne : char_at l (n : Int) ≠ '\x00' := by
    rw [← hcode, ← hn, h2]; decide
  obtain ⟨hlt, hget⟩ := char_at_get hne
  rw [← hcode, ← hn, h2] at hget
  rw [hcode] at hget
  obtain ⟨a, hm, _, hb2⟩ := hM.closes n hlt hget
  have htoNat : s.code_pointer.toNat = n := by rw [hn]; rfl
  rw [htoNat, scan_backward_isMatch hm, hn, hb2]

/-- The jumps of the two executors from the same variables. -/
theorem sim_jumps (l : List Char) (s : BrainFuck) (w : Streams) (hok : EngineOK l s)
    (ht : in_tape s.pointer) :
    (char_at s.code s.code_pointer = '[' → s.memory s.pointer = 0 →
      exec_step s w = ({ s with code_pointer := s.brackets s.code_pointer + 1 }, w) ∧
      s.code_pointer + ((scan_forward (l.drop s.code_pointer.toNat) 1).1 : Int)
        = s.brackets s.code_pointer ∧
      execute_step l (machine_of s) w
        = .inr ({ machine_of s with pc := s.brackets s.code_pointer + 1 }, w)) ∧
    (char_at s.code s.code_pointer = ']' → s.memory s.pointer ≠ 0 →
      exec_step s w = ({ s with code_pointer := s.brackets s.code_pointer + 1 }, w) ∧
      ((scan_backward l s.code_pointer.toNat 1).1 : Int) = s.brackets s.code_pointer ∧
      char_at l (s.brackets s.code_pointer) = '[' ∧
      execute_step l (machine_of s) w
        = .inr ({ machine_of s with pc := s.brackets s.code_pointer }, w) ∧
      execute_step l { machine_of s with pc := s.brackets s.code_pointer } w
        = .inr ({ machine_of s with pc := s.brackets s.code_pointer + 1 }, w)) := by
  constructor
  · intro h1 hz
    obtain ⟨e1, e2⟩ := sim_open l s w hok ht h1
    refine ⟨exec_step_open_jump s w h1 hz, e2 hz, ?_⟩
    rw [e1, exec_step_open_jump s w h1 hz]
    rfl
  · intro h2 hnz
    obtain ⟨_, e⟩ := sim_close l s w hok ht h2
    obtain ⟨_, _, e3, e4, e5⟩ := e hnz
    have hc : s.brackets s.code_pointer - 1 + 1 = s.brackets s.code_pointer := by omega
    rw [hc] at e3 e4 e5
    have hstep := exec_step_close_jump s w h2 hnz
    refine ⟨hstep, ?_, e4, e3, ?_⟩
    · exact scan_backward_engine l s hok h2
    · rw [e5, hstep]
      rfl

/-! ## Programs that never move across an end of the tape -/

theorem no_wrap_of_no_moves (bf : BrainFuck) (w : Streams) (code : List Char)
    (h : ∀ c ∈ code, c ≠ '<' ∧ c ≠ '>') : ∀ k, ¬ wraps (run_state bf w code k) := by
  intro k hw
  have hcode : (run_state bf w code k).code = (load_code bf code).code := by
    unfold run_state
    rw [exec_iter_code, (find_brackets_frame _).2.2.1]
  have hsub : ∀ c ∈ (run_state bf w code k).code, c ≠ '<' ∧ c ≠ '>' := by
    intro c hc
    rw [hcode] at hc
    exact h c (List.takeWhile_subset _ (List.mem_of_mem_take hc))
  rcases hw with ⟨hc, _⟩ | ⟨hc, _⟩
  · have hm : char_at (run_state bf w code k).code (run_state bf w code k).code_pointer
        ∈ (run_state bf w code k).code := char_at_mem (by rw [hc]; decide)
    exact (hsub _ hm).1 hc
  · have hm : char_at (run_state bf w code k).code (run_state bf w code k).code_pointer
        ∈ (run_state bf w code k).code := char_at_mem (by rw [hc]; decide)
    exact (hsub _ hm).2 hc

theorem no_wrap_of_bounded (bf : BrainFuck) (w : Streams) (code : List Char) (n : Nat)
    (hterm : (exec_loop n (find_brackets (load_code bf code)).1 w).isSome = true)
    (hb : ∀ k, k ≤ n → ¬ wraps (run_state bf w code k)) :
    ∀ k, ¬ wraps (run_state bf w code k) := by
  intro k
  by_cases hk : k ≤ n
  · exact hb k hk
  · obtain ⟨r, hr⟩ := Option.isSome_iff_exists.mp hterm
    have e1 := exec_iter_of_loop n _ w r hr k (by omega)
    have e2 := exec_iter_of_loop n _ w r hr n (Nat.le_refl _)
    have : run_state bf w code k = run_state bf w code n := by
      unfold run_state
      rw [e1, e2]
    rw [this]
    exact hb n (Nat.le_refl _)

theorem balanced_of_resolved (bf : BrainFuck) (code : List Char)
    (hnul : ∀ c ∈ code, c ≠ '\x00') (hlen : code.length < MAX_CODE_LENGTH)
    (h : (find_brackets (load_code bf code)).2 = none) : Balanced code := by
  have := balanced_of_find_brackets _ h
  rw [load_code_whole bf code hnul hlen] at this
  simp only at this
  rw [cstr_of_no_nul hnul] at this
  exact this

/-! ## A program longer than the code buffer of the engine -/

theorem blank_program_mem (n : Nat) : ∀ c ∈ blank_program n, c = ' ' ∨ c = '.' := by
  intro c hc
  unfold blank_program at hc
  rcases List.mem_append.mp hc with h | h
  · exact Or.inl (List.eq_of_mem_replicate h)
  · exact Or.inr (List.mem_singleton.mp h)

theorem blank_program_no_nul (n : Nat) : ∀ c ∈ blank_program n, c ≠ '\x00' := by
  intro c hc
  rcases blank_program_mem n c hc with h | h <;> rw [h] <;> decide

theorem blank_program_no_brackets (n : Nat) :
    ∀ c ∈ blank_program n, c ≠ '[' ∧ c ≠ ']' := by
  intro c hc
  rcases blank_program_mem n c hc with h | h <;> rw [h] <;> decide

theorem blank_program_no_moves (n : Nat) :
    ∀ c ∈ blank_program n, c ≠ '<' ∧ c ≠ '>' := by
  intro c hc
  rcases blank_program_mem n c hc with h | h <;> rw [h] <;> decide

theorem char_at_blank_lt {n j : Nat} (h : j < n) : char_at (blank_program n) (j : Int) = ' ' := by
  apply char_at_of_get
  unfold blank_program
  rw [List.getElem?_append_left (by rw [List.length_replicate]; exact h)]
  rw [List.getElem?_replicate]
  simp [h]

theorem char_at_blank_eq (n : Nat) : char_at (blank_program n) (n : Int) = '.' := by
  apply char_at_of_get
  unfold blank_program
  rw [List.getElem?_append_right (by rw [List.length_replicate])]
  rw [List.length_replicate, Nat.sub_self]
  rfl

theorem char_at_blank_end (n : Nat) : char_at (blank_program n) ((n : Int) + 1) = '\x00' := by
  have e : ((n : Int) + 1) = ((n + 1 : Nat) : Int) := by push_cast; rfl
  rw [e]
  unfold char_at
  simp only [Int.toNat_ofNat]
  rw [List.getD_eq_getElem?_getD, List.getElem?_eq_none]
  · rfl
  · unfold blank_program
    rw [List.length_append, List.length_replicate]
    exact Nat.le_refl _

theorem execute_step_blank (code : List Char) (m : Machine) (w : Streams)
    (h : char_at code m.pc = ' ') :
    execute_step code m w = .inr ({ m with pc := m.pc + 1 }, w) := by
  unfold execute_step
  simp only [h]
  rfl

theorem execute_step_dot (code : List Char) (m : Machine) (w : Streams)
    (h : char_at code m.pc = '.') (ht : in_tape m.ptr) :
    execute_step code m w = .inr ({ m with pc := m.pc + 1 }, putchar w (m.memory m.ptr)) := by
  unfold execute_step
  simp only [h, ht]
  rfl

theorem execute_blank_program (n : Nat) (mem : Int → Nat) (w : Streams) :
    ∀ (d j : Nat), j + d = n → ∀ fuel, d + 1 ≤ fuel →
    execute_loop (blank_program n) fuel { memory := mem, ptr := 0, pc := (j : Int) } w
      = some (.returned { memory := mem, ptr := 0, pc := (n : Int) + 1 }
          (putchar w (mem 0))) := by
  intro d
  induction d with
  | zero =>
    intro j hj fuel hfuel
    have hjn : j = n := by omega
    subst hjn
    obtain ⟨f, rfl⟩ : ∃ f, fuel = f + 1 := ⟨fuel - 1, by omega⟩
    have hc : char_at (blank_program j)
        ({ memory := mem, ptr := 0, pc := (j : Int) } : Machine).pc = '.' :=
      char_at_blank_eq j
    rw [execute_loop_next f (by rw [hc]; decide)
      (execute_step_dot _ _ w hc (by unfold in_tape MEMORY_SIZE; simp))]
    exact execute_loop_done f (char_at_blank_end j)
  | succ d ih =>
    intro j hj fuel hfuel
    obtain ⟨f, rfl⟩ : ∃ f, fuel = f + 1 := ⟨fuel - 1, by omega⟩
    have hc : char_at (blank_program n)
        ({ memory := mem, ptr := 0, pc := (j : Int) } : Machine).pc = ' ' :=
      char_at_blank_lt (by omega)
    rw [execute_loop_next f (by rw [hc]; decide) (execute_step_blank _ _ w hc)]
    have := ih (j + 1) (by omega) f (by omega)
    simp only [Nat.cast_add, Nat.cast_one] at this
    exact this

/-- The scan-based executor runs the whole of a program of `n` blanks and a `.`: it writes
the first cell. -/
theorem execute_blank (n : Nat) (mem : Int → Nat) (w : Streams) (fuel : Nat)
    (hfuel : n + 1 ≤ fuel) :
    execute fuel (blank_program n) mem w
      = some (.returned { memory := mem, ptr := 0, pc := (n : Int) + 1 }
          (putchar w (mem 0))) := by
  unfold execute
  exact execute_blank_program n mem w n 0 (by omega) fuel hfuel

theorem load_code_blank (bf : BrainFuck) (n : Nat) (hn : n = MAX_CODE_LENGTH - 1) :
    (load_code bf (blank_program n)).code = List.replicate n ' ' := by
  unfold load_code
  simp only
  rw [cstr_of_no_nul (blank_program_no_nul n), ← hn]
  unfold blank_program
  rw [List.take_append_of_le_length (by rw [List.length_replicate])]
  rw [List.take_of_length_le (by rw [List.length_replicate])]

/-- The engine runs only the blanks of a program of `MAX_CODE_LENGTH - 1` blanks and a `.`:
it writes nothing. -/
theorem run_blank (bf : BrainFuck) (w : Streams) (n : Nat) (hn : n = MAX_CODE_LENGTH - 1)
    (fuel : Nat) (hfuel : n ≤ fuel) :
    ∃ bfr, brainfuck_run fuel bf w (blank_program n) = some (.finished bfr w) ∧
      bfr.memory = bf.memory := by
  have hcode := load_code_blank bf n hn
  have hblank : ∀ c ∈ List.replicate n ' ', ¬ is_command c := by
    intro c hc
    rw [List.eq_of_mem_replicate hc]
    unfold is_command
    decide
  have hfb : (find_brackets (load_code bf (blank_program n))).2 = none := by
    apply find_brackets_ok_of_balanced
    rw [hcode]
    exact balanced_of_no_brackets (fun c hc => by
      rw [cstr_of_no_nul (fun c hc => by rw [List.eq_of_mem_replicate hc]; decide)] at hc
      rw [List.eq_of_mem_replicate hc]; decide)
  obtain ⟨f1, _, f3, f4⟩ := find_brackets_frame (load_code bf (blank_program n))
  obtain ⟨bf', hrun, hmem, _⟩ := exec_loop_noop (List.replicate n ' ') hblank n
    (find_brackets (load_code bf (blank_program n))).1 w 0 (by rw [f3, hcode])
    (by rw [f4]; rfl) (by rw [List.length_replicate]; omega) fuel hfuel
  refine ⟨bf', ?_, ?_⟩
  · rw [brainfuck_run_ok _ _ _ _ hfb, hrun]
    rfl
  · rw [hmem, f1]
    rfl

/-! ## C16, C19: the scan-based executor against the engine -/

/-- C16 (amended). For a program that is a C string shorter than the code buffer of the
engine, has balanced brackets, and whose run by `brainfuck_run` from the pointer at cell 0
never executes `<` at cell 0 nor `>` at the last cell: `brainfuck_run` terminates exactly
when `execute` terminates on the same program, tape and input, and any two outcomes have
the same output and the same final tape. -/
theorem C16_same_semantics_within_bounds (bf : BrainFuck) (w : Streams) (code : List Char)
    (hnul : ∀ c ∈ code, c ≠ '\x00') (hlen : code.length < MAX_CODE_LENGTH)
    (hbal : Balanced code) (hptr : bf.pointer = 0)
    (hnw : ∀ k, ¬ wraps (run_state bf w code k)) :
    ((∃ fuel out, brainfuck_run fuel bf w code = some out) ↔
      (∃ fuel o, execute fuel code bf.memory w = some o)) ∧
    (∀ fuel fuel' out o, brainfuck_run fuel bf w code = some out →
      execute fuel' code bf.memory w = some o →
      o.stdout = out.stdout ∧ o.machine.memory = out.state.memory) := by
  have hsim := sim_run bf w code hnul hlen hbal hptr hnw
  refine ⟨⟨?_, ?_⟩, ?_⟩
  · rintro ⟨fuel, out, h⟩
    obtain ⟨bfr, wr, _, he⟩ := hsim.1 fuel out h
    exact ⟨2 * fuel, _, he⟩
  · rintro ⟨fuel, o, h⟩
    obtain ⟨bfr, wr, hr, _⟩ := hsim.2 fuel o h
    exact ⟨fuel, _, hr⟩
  · intro fuel fuel' out o h h'
    exact (sim_same_result bf w code hnul hlen hbal hptr hnw fuel fuel' out o h h').2

/-- Witness of C16: the program `++++++++[>++++++++<-]>.` on a fresh interpreter with no
input. -/
theorem C16_same_semantics_within_bounds_witness :
    (∀ c ∈ sixty_four, c ≠ '\x00') ∧ sixty_four.length < MAX_CODE_LENGTH ∧
    Balanced sixty_four ∧ brainfuck_init.pointer = 0 ∧
    (∀ k, ¬ wraps (run_state brainfuck_init ⟨[], []⟩ sixty_four k)) ∧
    ((∃ fuel out, brainfuck_run fuel brainfuck_init ⟨[], []⟩ sixty_four = some out) ↔
      (∃ fuel o, execute fuel sixty_four brainfuck_init.memory ⟨[], []⟩ = some o)) ∧
    (∀ fuel fuel' out o, brainfuck_run fuel brainfuck_init ⟨[], []⟩ sixty_four = some out →
      execute fuel' sixty_four brainfuck_init.memory ⟨[], []⟩ = some o →
      o.stdout = out.stdout ∧ o.machine.memory = out.state.memory) :=
  have h1 : ∀ c ∈ sixty_four, c ≠ '\x00' := by decide!
  have h2 : sixty_four.length < MAX_CODE_LENGTH := by decide!
  have h3 : Balanced sixty_four :=
    balanced_of_resolved brainfuck_init sixty_four h1 h2 (by decide!)
  have h5 : ∀ k, ¬ wraps (run_state brainfuck_init ⟨[], []⟩ sixty_four k) :=
    no_wrap_of_bounded brainfuck_init ⟨[], []⟩ sixty_four 150 (by decide!) (by decide!)
  ⟨h1, h2, h3, rfl, h5,
    C16_same_semantics_within_bounds brainfuck_init ⟨[], []⟩ sixty_four h1 h2 h3 rfl h5⟩

/-- Counterexample to C16 as stated, on a fresh interpreter with no input. On `.]` the
engine exits at bracket resolution and writes nothing, `execute` writes the first cell and
returns. On `<+` the engine wraps to the last cell and increments it, `execute` uses a
pointer before the tape. On 999999 blanks followed by `.` the engine runs the first 999999
characters only and writes nothing, `execute` writes the first cell. -/
theorem C16_executors_differ_counterexample :
    ((brainfuck_run 2 brainfuck_init ⟨[], []⟩ stray_close_sample).map RunOutcome.stdout
        = some [] ∧
      (execute 2 stray_close_sample brainfuck_init.memory ⟨[], []⟩).map ExecOutcome.stdout
        = some [0]) ∧
    ((brainfuck_run 2 brainfuck_init ⟨[], []⟩ left_edge_sample).map
        (fun o => o.state.memory 29999) = some 1 ∧
      (execute 2 left_edge_sample brainfuck_init.memory ⟨[], []⟩).map ExecOutcome.kind
        = some .out_of_tape) ∧
    ((brainfuck_run 1000000 brainfuck_init ⟨[], []⟩ (blank_program 999999)).map
        RunOutcome.stdout = some [] ∧
      (execute 1000000 (blank_program 999999) brainfuck_init.memory ⟨[], []⟩).map
        ExecOutcome.stdout = some [0]) := by
  refine ⟨⟨by decide!, by decide!⟩, ⟨by decide!, by decide!⟩, ?_, ?_⟩
  · obtain ⟨bfr, h, _⟩ := run_blank brainfuck_init ⟨[], []⟩ 999999 (by decide) 1000000
      (by decide)
    rw [h]
    rfl
  · rw [execute_blank 999999 brainfuck_init.memory ⟨[], []⟩ 1000000 (by decide)]
    rfl

/-- C19 (amended). For a program that is a C string shorter than the code buffer of the
engine, has balanced brackets, and whose run by `brainfuck_run` from the pointer at cell 0
never executes `<` at cell 0 nor `>` at the last cell: at every iteration `execute` has its
pointer inside the tape and has the streams, tape and pointer of some iteration of the
engine, `pc` being at the instruction of the engine or on the `[` just before it; `execute`
reports no bracket error; when either executor ends so does the other, with the same output
and final tape; a forward jump of `execute` lands on the matching `]` that the bracket map
holds and resumes at the instruction after it, as the engine does; a backward jump of
`execute` lands on the matching `[` that the bracket map holds and resumes at that `[`, one
instruction before the engine, and then steps over it to where the engine resumed. -/
theorem C19_execute_follows_engine (bf : BrainFuck) (w : Streams) (code : List Char)
    (hnul : ∀ c ∈ code, c ≠ '\x00') (hlen : code.length < MAX_CODE_LENGTH)
    (hbal : Balanced code) (hptr : bf.pointer = 0)
    (hnw : ∀ k, ¬ wraps (run_state bf w code k)) :
    (∀ k, in_tape (execute_iter code k { memory := bf.memory, ptr := 0, pc := 0 } w).1.ptr) ∧
    (∀ k, ∃ j, j ≤ k ∧
      follows code (execute_iter code k { memory := bf.memory, ptr := 0, pc := 0 } w)
        (exec_iter j (find_brackets (load_code bf code)).1 w)) ∧
    (∀ fuel o, execute fuel code bf.memory w = some o →
      o.kind = .returned ∧
      ∃ out, brainfuck_run fuel bf w code = some out ∧
        o.stdout = out.stdout ∧ o.machine.memory = out.state.memory) ∧
    (∀ fuel out, brainfuck_run fuel bf w code = some out →
      ∃ o, execute (2 * fuel) code bf.memory w = some o ∧ o.kind = .returned ∧
        o.stdout = out.stdout ∧ o.machine.memory = out.state.memory) ∧
    (∀ k s w', s = run_state bf w code k → char_at s.code s.code_pointer = '[' →
      s.memory s.pointer = 0 →
      exec_step s w' = ({ s with code_pointer := s.brackets s.code_pointer + 1 }, w') ∧
      s.code_pointer + ((scan_forward (code.drop s.code_pointer.toNat) 1).1 : Int)
        = s.brackets s.code_pointer ∧
      execute_step code (machine_of s) w'
        = .inr ({ machine_of s with pc := s.brackets s.code_pointer + 1 }, w')) ∧
    (∀ k s w', s = run_state bf w code k → char_at s.code s.code_pointer = ']' →
      s.memory s.pointer ≠ 0 →
      exec_step s w' = ({ s with code_pointer := s.brackets s.code_pointer + 1 }, w') ∧
      ((scan_backward code s.code_pointer.toNat 1).1 : Int) = s.brackets s.code_pointer ∧
      char_at code (s.brackets s.code_pointer) = '[' ∧
      execute_step code (machine_of s) w'
        = .inr ({ machine_of s with pc := s.brackets s.code_pointer }, w') ∧
      execute_step code { machine_of s with pc := s.brackets s.code_pointer } w'
        = .inr ({ machine_of s with pc := s.brackets s.code_pointer + 1 }, w')) := by
  obtain ⟨hfb, hok, ht, hm⟩ := sim_setup bf code hnul hlen hbal hptr
  have hsim := sim_run bf w code hnul hlen hbal hptr hnw
  have htrace : ∀ k, ∃ j, j ≤ k ∧
      follows code (execute_iter code k { memory := bf.memory, ptr := 0, pc := 0 } w)
        (exec_iter j (find_brackets (load_code bf code)).1 w) := by
    intro k
    have := sim_trace code k _ w hok ht hnw
    rw [hm] at this
    exact this
  have hstate : ∀ k, EngineOK code (run_state bf w code k) ∧
      in_tape (run_state bf w code k).pointer :=
    fun k => ⟨engineOK_iter k _ w hok, exec_iter_in_tape k _ w ht⟩
  refine ⟨?_, htrace, ?_, ?_, ?_, ?_⟩
  · intro k
    obtain ⟨j, _, _, _, hp, _⟩ := htrace k
    rw [hp]
    exact exec_iter_in_tape j _ w ht
  · intro fuel o h
    obtain ⟨bfr, wr, hr, ho⟩ := hsim.2 fuel o h
    rw [ho]
    exact ⟨rfl, _, hr, rfl, rfl⟩
  · intro fuel out h
    obtain ⟨bfr, wr, hout, he⟩ := hsim.1 fuel out h
    rw [hout]
    exact ⟨_, he, rfl, rfl, rfl⟩
  · intro k s w' hs
    rw [hs]
    exact (sim_jumps code _ w' (hstate k).1 (hstate k).2).1
  · intro k s w' hs
    rw [hs]
    exact (sim_jumps code _ w' (hstate k).1 (hstate k).2).2

/-- Witness of C19: the program `++++++++[>++++++++<-]>.` on a fresh interpreter with no
input; `execute` keeps its pointer inside the tape and reports no bracket error. -/
theorem C19_execute_follows_engine_witness :
    (∀ c ∈ sixty_four, c ≠ '\x00') ∧ sixty_four.length < MAX_CODE_LENGTH ∧
    Balanced sixty_four ∧ brainfuck_init.pointer = 0 ∧
    (∀ k, ¬ wraps (run_state brainfuck_init ⟨[], []⟩ sixty_four k)) ∧
    (∀ k, in_tape (execute_iter sixty_four k
      { memory := brainfuck_init.memory, ptr := 0, pc := 0 } ⟨[], []⟩).1.ptr) ∧
    (∀ fuel out, brainfuck_run fuel brainfuck_init ⟨[], []⟩ sixty_four = some out →
      ∃ o, execute (2 * fuel) sixty_four brainfuck_init.memory ⟨[], []⟩ = some o ∧
        o.kind = .returned ∧ o.stdout = out.stdout ∧
        o.machine.memory = out.state.memory) :=
  have h1 : ∀ c ∈ sixty_four, c ≠ '\x00' := by decide!
  have h2 : sixty_four.length < MAX_CODE_LENGTH := by decide!
  have h3 : Balanced sixty_four :=
    balanced_of_resolved brainfuck_init sixty_four h1 h2 (by decide!)
  have h5 : ∀ k, ¬ wraps (run_state brainfuck_init ⟨[], []⟩ sixty_four k) :=
    no_wrap_of_bounded brainfuck_init ⟨[], []⟩ sixty_four 150 (by decide!) (by decide!)
  ⟨h1, h2, h3, rfl, h5,
    (C19_execute_follows_engine brainfuck_init ⟨[], []⟩ sixty_four h1 h2 h3 rfl h5).1,
    (C19_execute_follows_engine brainfuck_init ⟨[], []⟩ sixty_four h1 h2 h3 rfl h5).2.2.2.1⟩

/-- Counterexample to C19 as stated, on a fresh interpreter with no input. The program
`++[-]` is balanced and never moves the pointer; its fifth iteration is the backward jump
from the `]` at position 4, after which the engine is at position 3 (the `-`) and `execute`
at position 2 (the `[`). The program of 999999 blanks followed by `.` is balanced and never
moves the pointer; the engine runs the first 999999 characters only and writes nothing,
`execute` writes the first cell. -/
theorem C19_backward_jump_counterexample :
    (Balanced countdown_sample ∧
      (∀ k, ¬ wraps (run_state brainfuck_init ⟨[], []⟩ countdown_sample k)) ∧
      (run_state brainfuck_init ⟨[], []⟩ countdown_sample 4).code_pointer = 4 ∧
      (execute_iter countdown_sample 4
        { memory := brainfuck_init.memory, ptr := 0, pc := 0 } ⟨[], []⟩).1.pc = 4 ∧
      (run_state brainfuck_init ⟨[], []⟩ countdown_sample 5).code_pointer = 3 ∧
      (execute_iter countdown_sample 5
        { memory := brainfuck_init.memory, ptr := 0, pc := 0 } ⟨[], []⟩).1.pc = 2) ∧
    (Balanced (blank_program 999999) ∧
      (∀ k, ¬ wraps (run_state brainfuck_init ⟨[], []⟩ (blank_program 999999) k)) ∧
      (brainfuck_run 1000000 brainfuck_init ⟨[], []⟩ (blank_program 999999)).map
        RunOutcome.stdout = some [] ∧
      (execute 1000000 (blank_program 999999) brainfuck_init.memory ⟨[], []⟩).map
        ExecOutcome.stdout = some [0]) := by
  refine ⟨⟨?_, ?_, by decide!, by decide!, by decide!, by decide!⟩, ?_, ?_, ?_, ?_⟩
  · exact balanced_of_resolved brainfuck_init countdown_sample (by decide!) (by decide!)
      (by decide!)
  · exact no_wrap_of_no_moves _ _ _ (by decide!)
  · exact balanced_of_no_brackets (blank_program_no_brackets 999999)
  · exact no_wrap_of_no_moves _ _ _ (blank_program_no_moves 999999)
  · obtain ⟨bfr, h, _⟩ := run_blank brainfuck_init ⟨[], []⟩ 999999 (by decide) 1000000
      (by decide)
    rw [h]
    rfl
  · rw [execute_blank 999999 brainfuck_init.memory ⟨[], []⟩ 1000000 (by decide)]
    rfl

/-! ## C17: where the loop reads the bracket map -/

theorem exec_step_map_read (s : BrainFuck) (br' : Int → Int) (w : Streams)
    (h : br' s.code_pointer = s.brackets s.code_pointer) :
    exec_step { s with brackets := br' } w
      = ({ (exec_step s w).1 with brackets := br' }, (exec_step s w).2) := by
  by_cases h1 : char_at s.code s.code_pointer = '['
  · unfold exec_step
    simp only [h1]
    rw [exec_command_open, exec_command_open]
    by_cases hz : s.memory s.pointer = 0
    · simp only [hz, if_true, h]
    · simp only [hz, if_false]
  · by_cases h2 : char_at s.code s.code_pointer = ']'
    · unfold exec_step
      simp only [h2]
      rw [exec_command_close, exec_command_close]
      by_cases hz : s.memory s.pointer = 0
      · simp only [hz, ne_eq, not_true_eq_false, if_false]
      · simp only [hz, ne_eq, not_false_eq_true, if_true, h]
    · unfold exec_step
      simp only
      rw [exec_command_no_map_read h1 h2]

theorem exec_step_no_jump (s : BrainFuck) (br' : Int → Int) (w : Streams)
    (h1 : ¬ (char_at s.code s.code_pointer = '[' ∧ s.memory s.pointer = 0))
    (h2 : ¬ (char_at s.code s.code_pointer = ']' ∧ s.memory s.pointer ≠ 0)) :
    exec_step { s with brackets := br' } w
      = ({ (exec_step s w).1 with brackets := br' }, (exec_step s w).2) ∧
    (exec_step s w).1.code_pointer = s.code_pointer + 1 := by
  by_cases c1 : char_at s.code s.code_pointer = '['
  · have hz : ¬ s.memory s.pointer = 0 := fun hz => h1 ⟨c1, hz⟩
    unfold exec_step
    simp only [c1]
    rw [exec_command_open, exec_command_open]
    simp only [hz, if_false]
    exact ⟨trivial, trivial⟩
  · by_cases c2 : char_at s.code s.code_pointer = ']'
    · have hz : s.memory s.pointer = 0 := by
        by_contra hz
        exact h2 ⟨c2, hz⟩
      unfold exec_step
      simp only [c2]
      rw [exec_command_close, exec_command_close]
      simp only [hz, ne_eq, not_true_eq_false, if_false]
      exact ⟨trivial, trivial⟩
    · refine ⟨?_, ?_⟩
      · unfold exec_step
        simp only
        rw [exec_command_no_map_read c1 c2]
      · unfold exec_step
        simp only
        rw [exec_command_straight c1 c2]

theorem exec_iter_last : ∀ (k : Nat) (s : BrainFuck) (w : Streams),
    char_at (exec_iter k s w).1.code (exec_iter k s w).1.code_pointer ≠ '\x00' →
    exec_iter (k + 1) s w = exec_step (exec_iter k s w).1 (exec_iter k s w).2 := by
  intro k
  induction k with
  | zero =>
    intro s w h
    exact exec_iter_succ 0 h
  | succ n ih =>
    intro s w h
    by_cases hend : char_at s.code s.code_pointer = '\x00'
    · have e : exec_iter (n + 1) s w = (s, w) := by rw [exec_iter]; simp [hend]
      rw [e] at h
      exact absurd hend h
    · rw [exec_iter_succ _ hend] at h ⊢
      rw [exec_iter_succ n hend]
      exact ih _ _ h

/-- C17. When `find_brackets` has succeeded on the program, at every iteration of the loop
of `brainfuck_run`, with `s` the record at its start: the instruction pointer lies in
`[0, length of the code]`; at a position holding `[` or `]` the entry of the bracket map at
the instruction pointer is a position in `[0, length)`, never -1; no instruction other than
`[` and `]` reads the map; the iteration reads the map at the index `code_pointer` only (any
map with the same entry there gives the same iteration); an iteration that does not jump
(not `[` on a zero cell, not `]` on a nonzero cell) reads no entry at all and moves the
instruction pointer by one; an iteration that jumps changes the record only in the
instruction pointer, which becomes the entry read at `code_pointer` plus one, a position in
`[1, length of the code]`; the instruction pointer after any iteration is again in
`[0, length of the code]`; and the next iteration of the run starts with the record that
this iteration leaves. -/
theorem C17_instruction_pointer_in_buffer (bf : BrainFuck) (w : Streams) (code : List Char)
    (h : (find_brackets (load_code bf code)).2 = none) (k : Nat) :
    ∀ s, s = run_state bf w code k →
    (0 ≤ s.code_pointer ∧ s.code_pointer ≤ (strlen s.code : Int)) ∧
    ((char_at s.code s.code_pointer = '[' ∨ char_at s.code s.code_pointer = ']') →
      0 ≤ s.brackets s.code_pointer ∧ s.brackets s.code_pointer < (strlen s.code : Int) ∧
      s.brackets s.code_pointer ≠ -1) ∧
    (∀ cmd, cmd ≠ '[' → cmd ≠ ']' → ∀ br' w',
      exec_command cmd { s with brackets := br' } w'
        = ({ (exec_command cmd s w').1 with brackets := br' }, (exec_command cmd s w').2)) ∧
    (∀ br' w', br' s.code_pointer = s.brackets s.code_pointer →
      exec_step { s with brackets := br' } w'
        = ({ (exec_step s w').1 with brackets := br' }, (exec_step s w').2)) ∧
    (¬ (char_at s.code s.code_pointer = '[' ∧ s.memory s.pointer = 0) →
      ¬ (char_at s.code s.code_pointer = ']' ∧ s.memory s.pointer ≠ 0) →
      ∀ br' w', exec_step { s with brackets := br' } w'
          = ({ (exec_step s w').1 with brackets := br' }, (exec_step s w').2) ∧
        (exec_step s w').1.code_pointer = s.code_pointer + 1) ∧
    ((char_at s.code s.code_pointer = '[' ∧ s.memory s.pointer = 0) ∨
      (char_at s.code s.code_pointer = ']' ∧ s.memory s.pointer ≠ 0) →
      ∀ w', exec_step s w' = ({ s with code_pointer := s.brackets s.code_pointer + 1 }, w') ∧
        1 ≤ s.brackets s.code_pointer + 1 ∧
        s.brackets s.code_pointer + 1 ≤ (strlen s.code : Int)) ∧
    (char_at s.code s.code_pointer ≠ '\x00' →
      ∀ w', 0 ≤ (exec_step s w').1.code_pointer ∧
        (exec_step s w').1.code_pointer ≤ (strlen s.code : Int)) ∧
    (char_at s.code s.code_pointer ≠ '\x00' →
      run_state bf w code (k + 1)
        = (exec_step s (exec_iter k (find_brackets (load_code bf code)).1 w).2).1) := by
  intro s hs
  have hok : EngineOK (load_code bf code).code s := by
    rw [hs]
    exact engineOK_iter k _ w (engineOK_start bf code h)
  have hlen : strlen s.code = (load_code bf code).code.length := by
    unfold strlen
    rw [hok.1, cstr_of_no_nul hok.2.1]
  rw [hlen]
  have hmap : (char_at s.code s.code_pointer = '[' ∨ char_at s.code s.code_pointer = ']') →
      0 ≤ s.brackets s.code_pointer ∧
      s.brackets s.code_pointer < ((load_code bf code).code.length : Int) := by
    intro hb
    obtain ⟨n, hn⟩ := Int.eq_ofNat_of_zero_le hok.2.2.2.1
    obtain ⟨m0, m1, _, _⟩ := engineOK_map hok hn hb
    exact ⟨m0, m1⟩
  refine ⟨⟨hok.2.2.2.1, hok.2.2.2.2⟩, fun hb => ?_,
    fun cmd h1 h2 br' w' => exec_command_no_map_read h1 h2 _ br' w',
    fun br' w' hbr => exec_step_map_read s br' w' hbr,
    fun h1 h2 br' w' => exec_step_no_jump s br' w' h1 h2, fun hj w' => ?_, fun hne w' => ?_,
    fun hne => ?_⟩
  · obtain ⟨m0, m1⟩ := hmap hb
    exact ⟨m0, m1, by omega⟩
  · rcases hj with ⟨hc, hz⟩ | ⟨hc, hz⟩
    · obtain ⟨m0, m1⟩ := hmap (Or.inl hc)
      exact ⟨exec_step_open_jump s w' hc hz, by omega, by omega⟩
    · obtain ⟨m0, m1⟩ := hmap (Or.inr hc)
      exact ⟨exec_step_close_jump s w' hc hz, by omega, by omega⟩
  · have := engineOK_step w' hok hne
    exact ⟨this.2.2.2.1, this.2.2.2.2⟩
  · rw [hs] at hne ⊢
    unfold run_state at hne ⊢
    rw [exec_iter_last k _ w hne]

/-- Witness of C17. In the run of `++++++++[>++++++++<-]>.`, iteration 20 is at the `]` of
position 20 with the cell at 7: the entry read is 8, the position of the `[`, and the
iteration leaves the instruction pointer at 9. In the run of `[[-]>]`, iteration 0 is at
the `[` of position 0 with the cell at 0: the entry read is 5, and the iteration leaves the
instruction pointer at 6, the length of the code. -/
theorem C17_instruction_pointer_in_buffer_witness :
    ((find_brackets (load_code brainfuck_init sixty_four)).2 = none ∧
      back_jump_sample.code_pointer = 20 ∧
      char_at back_jump_sample.code back_jump_sample.code_pointer = ']' ∧
      back_jump_sample.memory back_jump_sample.pointer = 7 ∧
      back_jump_sample.brackets back_jump_sample.code_pointer = 8 ∧
      strlen back_jump_sample.code = 23 ∧
      (0 ≤ back_jump_sample.brackets back_jump_sample.code_pointer ∧
        back_jump_sample.brackets back_jump_sample.code_pointer
          < (strlen back_jump_sample.code : Int) ∧
        back_jump_sample.brackets back_jump_sample.code_pointer ≠ -1) ∧
      (∀ br' w', br' back_jump_sample.code_pointer
          = back_jump_sample.brackets back_jump_sample.code_pointer →
        exec_step { back_jump_sample with brackets := br' } w'
          = ({ (exec_step back_jump_sample w').1 with brackets := br' },
              (exec_step back_jump_sample w').2)) ∧
      (∀ w', exec_step back_jump_sample w'
          = ({ back_jump_sample with
                code_pointer := back_jump_sample.brackets back_jump_sample.code_pointer + 1 },
              w') ∧
        1 ≤ back_jump_sample.brackets back_jump_sample.code_pointer + 1 ∧
        back_jump_sample.brackets back_jump_sample.code_pointer + 1
          ≤ (strlen back_jump_sample.code : Int))) ∧
    ((find_brackets (load_code brainfuck_init ['[', '[', '-', ']', '>', ']'])).2 = none ∧
      forward_jump_sample.code_pointer = 0 ∧
      char_at forward_jump_sample.code forward_jump_sample.code_pointer = '[' ∧
      forward_jump_sample.memory forward_jump_sample.pointer = 0 ∧
      forward_jump_sample.brackets forward_jump_sample.code_pointer = 5 ∧
      strlen forward_jump_sample.code = 6 ∧
      (∀ w', exec_step forward_jump_sample w'
          = ({ forward_jump_sample with
                code_pointer :=
                  forward_jump_sample.brackets forward_jump_sample.code_pointer + 1 },
              w') ∧
        1 ≤ forward_jump_sample.brackets forward_jump_sample.code_pointer + 1 ∧
        forward_jump_sample.brackets forward_jump_sample.code_pointer + 1
          ≤ (strlen forward_jump_sample.code : Int))) :=
  have hb : char_at back_jump_sample.code back_jump_sample.code_pointer = ']' := by decide!
  have hbz : back_jump_sample.memory back_jump_sample.pointer ≠ 0 := by decide!
  have hf : char_at forward_jump_sample.code forward_jump_sample.code_pointer = '[' := by
    decide!
  have hfz : forward_jump_sample.memory forward_jump_sample.pointer = 0 := by decide!
  have tb := C17_instruction_pointer_in_buffer brainfuck_init ⟨[], []⟩ sixty_four
    (by decide!) 20 back_jump_sample rfl
  have tf := C17_instruction_pointer_in_buffer brainfuck_init ⟨[], []⟩
    ['[', '[', '-', ']', '>', ']'] (by decide!) 0 forward_jump_sample rfl
  ⟨⟨by decide!, by decide!, hb, by decide!, by decide!, by decide!, tb.2.1 (Or.inr hb),
      tb.2.2.2.1, tb.2.2.2.2.2.1 (Or.inr ⟨hb, hbz⟩)⟩,
    ⟨by decide!, by decide!, hf, hfz, by decide!, by decide!,
      tf.2.2.2.2.2.1 (Or.inl ⟨hf, hfz⟩)⟩⟩

end CBrainFuck
